import Mathlib

/-!
# chCTRW: generalized Gillespie engine and mass-action reaction channels

A shallow embedding of `Stochastic/Stoichiometry.h`, `Stochastic/Reaction.h`,
`Stochastic/Gillespie/Gillespie.h`, `Stochastic/Gillespie/Gillespie_Stoichiometric.h`,
`Stochastic/Gillespie/WaitingTime.h`, the delay functors of
`Stochastic/Gillespie/DelayTime.h`, `Stochastic/Streamtube/Patch.h` and
`Stochastic/Streamtube/Streamtube.h` that the statements below use.

Modelling conventions.

* A `double` is an exact rational number; a time may also be `+infinity`
  (`Time = WithTop ℚ`). Rounding and NaN are outside the model.
* A `std::size_t` is a natural number; every `-=`, `+=` and `*=` on a `std::size_t`
  is reduced modulo `2 ^ 64` explicitly.
* A `std::vector<std::size_t>` is a `List Nat`. Reading an index outside the vector is
  undefined in the source; the model reads `0` there and a write outside is dropped.
  A `std::unordered_map` is the function from keys to the value stored, if any, and a
  member function that can throw returns an `Except`.
* Every random functor of the source owns a private generator. One call of such a
  functor is a deterministic function of its arguments, chosen by the environment for
  that call; the three functors used by one pass of the engine are collected in `Draw`.
  A standard distribution that a functor draws from is a function of its parameters in
  the same way, and a functor that may or may not draw also returns how often it drew.
  The functors of a patch generator are the sequences of their answers.
* `std::pow` and `std::exp` are parameters of the functions that call them. The
  analytical bimolecular reactor is written over an arbitrary ordered field, so that it
  can be evaluated over the rationals and stated over the reals with `Real.exp`.
* A loop whose number of passes is not bounded by the code takes a bound on the number
  of passes and returns `none` when the bound is reached.
* The template arguments `Advection` and `Reactor` of a streamtube are type parameters
  together with the member functions that the streamtube calls.
-/

set_option autoImplicit false

namespace operation

/-- Modelled from the spec: `operation::factorial_incomplete(n, k)` of
`general/Operations.h`, which is not among the sources, is the falling factorial
`n (n-1) ... (n-k+1)`. -/
def factorial_incomplete (n k : Nat) : Nat := Nat.descFactorial n k

/-- Modelled from the spec: `operation::factorial(k)` of `general/Operations.h`, which is
not among the sources, is `k!` (the spec speaks of "coefficient factorials"). -/
def factorial (k : Nat) : Nat := Nat.factorial k

end operation

namespace stochastic

/-- The number of values of a `std::size_t`. -/
def size_t_range : Nat := 2 ^ 64

/-- The statement `a -= b` on `std::size_t` values. -/
def size_t_sub (a b : Nat) : Nat := (a + (size_t_range - b % size_t_range)) % size_t_range

/-- The statement `a += b` on `std::size_t` values. -/
def size_t_add (a b : Nat) : Nat := (a + b) % size_t_range

/-- The statement `a *= b` on `std::size_t` values. -/
def size_t_mul (a b : Nat) : Nat := (a * b) % size_t_range

/-- Class `Stoichiometry`: a base rate and the (species, coefficient) pairs of each side. -/
structure Stoichiometry where
  reaction_rate : ℚ
  reactants : List (Nat × Nat)
  products : List (Nat × Nat)

/-- Class `Reaction_MassAction`: the stoichiometry and the private scaled rate. -/
structure Reaction_MassAction where
  stoichiometry : Stoichiometry
  reaction_rate_scaled : ℚ

namespace Reaction_MassAction

/-- The loop of the constructor: `factor *= operation::factorial(react.second)`. -/
def factor (stoichiometry : Stoichiometry) : ℚ :=
  stoichiometry.reactants.foldl
    (fun factor react => factor * (operation.factorial react.2 : ℚ)) 1

/-- Constructor `Reaction_MassAction(Stoichiometry)`. -/
def make (stoichiometry : Stoichiometry) : Reaction_MassAction :=
  { stoichiometry := stoichiometry
    reaction_rate_scaled := stoichiometry.reaction_rate / factor stoichiometry }

/-- The loop of the discrete `rate`:
`combinations *= operation::factorial_incomplete(numbers[sto.first], sto.second)`. -/
def combinations (r : Reaction_MassAction) (numbers : List Nat) : Nat :=
  r.stoichiometry.reactants.foldl
    (fun combinations sto =>
      size_t_mul combinations (operation.factorial_incomplete (numbers.getD sto.1 0) sto.2)) 1

/-- Method `rate(std::vector<std::size_t> const&)`. -/
def rate (r : Reaction_MassAction) (numbers : List Nat) : ℚ :=
  r.reaction_rate_scaled * (combinations r numbers : ℚ)

/-- First loop of the discrete `react`: `numbers[sto.first] -= sto.second`. -/
def react_reactants (reactants : List (Nat × Nat)) (numbers : List Nat) : List Nat :=
  reactants.foldl (fun numbers sto => numbers.set sto.1 (size_t_sub (numbers.getD sto.1 0) sto.2))
    numbers

/-- Second loop of the discrete `react`: `numbers[sto.first] += sto.second`. -/
def react_products (products : List (Nat × Nat)) (numbers : List Nat) : List Nat :=
  products.foldl (fun numbers sto => numbers.set sto.1 (size_t_add (numbers.getD sto.1 0) sto.2))
    numbers

/-- Method `react(std::vector<std::size_t>&)`. -/
def react (r : Reaction_MassAction) (numbers : List Nat) : List Nat :=
  react_products r.stoichiometry.products (react_reactants r.stoichiometry.reactants numbers)

end Reaction_MassAction

end stochastic

namespace gillespie

/-- A `double` time: a finite value or `+infinity`. -/
abbrev Time := WithTop ℚ

/-- What the engine requires of a reaction handler (header comment of `Gillespie.h`):
a `rate` on the particle numbers and a `react` that updates them. -/
structure Reaction where
  rate : List Nat → ℚ
  react : List Nat → List Nat

/-- The random functors as they answer during one pass: `std::discrete_distribution`
on the rate container with the engine's generator, `waiting_time(rate_container)` and
`delay_time(waiting)`. -/
structure Draw where
  pick : List ℚ → Nat
  waiting : List ℚ → ℚ
  delay : ℚ → ℚ

/-- Class `Gillespie`: the data members that the member functions read and write. -/
structure Gillespie where
  particle_container : List Nat
  time_current : Time
  reactions : List Reaction
  time_last_reaction : Time
  time_next_reaction : Time
  last_reaction : Nat
  next_reaction : Nat
  reacted : Bool
  rate_container : List ℚ

/-- The value `*std::max_element(first, last)`; the engine has at least one reaction, and
the model returns `0` on an empty container. -/
def max_element : List ℚ → ℚ
  | [] => 0
  | x :: xs => xs.foldl max x

namespace Gillespie

/-- Constant `more_than_one_reaction`: `bool(sizeof...(Reactions) - 1)`, for the at least
one reaction that the class requires. -/
def more_than_one_reaction (g : Gillespie) : Bool :=
  g.reactions.length - 1 != 0

/-- Method `rates()`: both `rates_impl` overloads store the rate of every reaction, in
order, computed on the current particle numbers. -/
def rates (g : Gillespie) : Gillespie :=
  { g with rate_container := g.reactions.map (fun reaction => reaction.rate g.particle_container) }

/-- The two `pick_reaction_impl` overloads, selected by `more_than_one_reaction`. -/
def pick_reaction_impl (g : Gillespie) (d : Draw) : Nat :=
  if g.more_than_one_reaction then d.pick g.rate_container else 0

/-- Method `pick_reaction()`. -/
def pick_reaction (g : Gillespie) (d : Draw) : Gillespie :=
  { g with next_reaction := g.pick_reaction_impl d }

/-- Method `compute_time_next_reaction()`. -/
def compute_time_next_reaction (g : Gillespie) (d : Draw) : Gillespie :=
  let waiting : ℚ := d.waiting g.rate_container
  { g with time_next_reaction := g.time_current + (waiting : Time) + ((d.delay waiting : ℚ) : Time) }

/-- Method `react(index)`: the dispatch table calls `react` of the reaction at `index`. -/
def react (g : Gillespie) (index : Nat) : Gillespie :=
  { g with
    last_reaction := g.next_reaction
    time_last_reaction := g.time_next_reaction
    particle_container :=
      match g.reactions.get? index with
      | some reaction => reaction.react g.particle_container
      | none => g.particle_container }

/-- Method `evolve()`. -/
def evolve (g : Gillespie) (d : Draw) : Gillespie :=
  let g1 := { g with reacted := false }
  let g2 := g1.rates
  let g3 :=
    if max_element g2.rate_container = 0 then
      { g2 with time_next_reaction := ⊤ }
    else
      let g4 := g2.pick_reaction d
      let g5 := g4.compute_time_next_reaction d
      let g6 := g5.react g5.next_reaction
      { g6 with reacted := true }
  { g3 with time_current := g3.time_next_reaction }

/-- The `while (1)` loop of `evolve(double time_max)`. `fuel` bounds the number of
passes; `draws 0` answers the first pass. The result is `none` when the loop has not
left after `fuel` passes; otherwise it is the final engine together with a ghost count
of the passes that took the committing branch (the calls of `react`). -/
def evolve_loop (time_max : Time) : Nat → (Nat → Draw) → Gillespie → Option (Gillespie × Nat)
  | 0, _, _ => none
  | fuel + 1, draws, g =>
    let g1 := g.rates
    let g2 :=
      if max_element g1.rate_container = 0 then
        { g1 with time_next_reaction := ⊤ }
      else
        (g1.pick_reaction (draws 0)).compute_time_next_reaction (draws 0)
    if g2.time_next_reaction < time_max then
      let g3 := { g2 with time_current := g2.time_next_reaction }
      let g4 := g3.react g3.next_reaction
      let g5 := { g4 with reacted := true }
      (evolve_loop time_max fuel (fun n => draws (n + 1)) g5).map (fun p => (p.1, p.2 + 1))
    else
      some ({ g2 with time_current := time_max }, 0)

/-- Method `evolve(double time_max)`. -/
def evolve_time_max (g : Gillespie) (time_max : Time) (fuel : Nat) (draws : Nat → Draw) :
    Option (Gillespie × Nat) :=
  evolve_loop time_max fuel draws { g with reacted := false }

/-- Successive calls of `evolve()`: call number `j` (from 0) is answered by `draws j`. -/
def evolve_n : Nat → (Nat → Draw) → Gillespie → Gillespie
  | 0, _, g => g
  | n + 1, draws, g => evolve_n n (fun j => draws (j + 1)) (g.evolve (draws 0))

end Gillespie

/-- A mass-action reaction as a reaction handler of the engine. -/
def of_MassAction (r : stochastic.Reaction_MassAction) : Reaction :=
  { rate := r.rate, react := r.react }

end gillespie

namespace stochastic

/-- `DelayTime_Subordinator_SkewedLevyStable_JustDelay::operator()(delta_time)`.
`pow` stands for `std::pow` and `stable` for the draw `stable_dist(rng)`. -/
def DelayTime_Subordinator_SkewedLevyStable_JustDelay (pow : ℚ → ℚ → ℚ)
    (alpha gamma mu stable delta_time : ℚ) : ℚ :=
  -delta_time + pow (gamma * delta_time) (1 / alpha) * stable + mu

/-- The discrete rate as the spec words it: the product over the reactants of the
binomial coefficient `C(numbers[species], coefficient)`, times the scaled rate. -/
def Reaction_MassAction.rate_binomial_scaled (r : Reaction_MassAction) (numbers : List Nat) : ℚ :=
  (((r.stoichiometry.reactants.map
      (fun sto => Nat.choose (numbers.getD sto.1 0) sto.2)).prod : Nat) : ℚ) *
    r.reaction_rate_scaled

/-- The coefficient of species `s` on one side of a reaction as the spec words it: the
coefficient paired with `s`, and 0 for a species absent from that side. -/
def coefficient (side : List (Nat × Nat)) (s : Nat) : Nat :=
  (side.lookup s).getD 0

/-- The reaction `2 A -> (nothing)` with base rate 1 of the spec's test. -/
def stoichiometry_pair : Stoichiometry :=
  { reaction_rate := 1, reactants := [(0, 2)], products := [] }

/-- The reaction `(nothing) -> A` with base rate 1. -/
def stoichiometry_birth : Stoichiometry :=
  { reaction_rate := 1, reactants := [], products := [(0, 1)] }

/-- The reaction `A + 3 B -> 2 A + C` of the header comment of `Stoichiometry.h`, with
base rate 1. -/
def stoichiometry_header : Stoichiometry :=
  { reaction_rate := 1, reactants := [(0, 1), (2, 3)], products := [(0, 2), (3, 1)] }

end stochastic

namespace operation

/-- Modelled from the spec: `operation::sum(container)` of `general/Operations.h`, which is
not among the sources, is the sum of the elements ("the sum of all channel rates"). -/
def sum (rates : List ℚ) : ℚ := rates.sum

end operation

namespace gillespie

/-- `WaitingTime_Exponential::operator()(rates, reaction)`; `dist` is the draw
`dist(rng)` of the unit-rate exponential distribution. -/
def WaitingTime_Exponential (dist : ℚ) (rates : List ℚ) (_reaction : Nat) : ℚ :=
  dist / operation.sum rates

/-- Method `remove(type, increment)` of `Gillespie`. -/
def Gillespie.remove (g : Gillespie) (type increment : Nat) : Gillespie :=
  if g.particle_container.getD type 0 > increment then
    { g with
      particle_container :=
        g.particle_container.set type
          (stochastic.size_t_sub (g.particle_container.getD type 0) increment) }
  else
    g

end gillespie

namespace stochastic

/-- `DelayTime_Compound::operator()(time)`. `number_process` answers the call
`number_process(time)` and `waiting_process j` is the value of call number `j` (from 0)
of `waiting_process()`. The result is the delay together with the number of calls of
`waiting_process()` that the loop made. -/
def DelayTime_Compound (number_process : ℚ → Nat) (waiting_process : Nat → ℚ) (time : ℚ) :
    ℚ × Nat :=
  let number := number_process time
  (List.range number).foldl
    (fun state _ => (state.1 + waiting_process state.2, state.2 + 1)) (0, 0)

/-- `DelayTime_CompoundExponential::operator()(time)`. `gamma_distribution shape scale`
is the draw `std::gamma_distribution<double>{ shape, scale }(rng)`. The result is the
delay together with the number of draws taken from the gamma distribution. -/
def DelayTime_CompoundExponential (number_process : ℚ → Nat) (gamma_distribution : ℚ → ℚ → ℚ)
    (_gamma mu : ℚ) (time : ℚ) : ℚ × Nat :=
  let number := number_process time
  if number ≠ 0 then (gamma_distribution (number : ℚ) mu, 1) else (0, 0)

/-- `DelayTime_CompoundSkewedLevyStable::operator()(time)`. `pow` stands for `std::pow`
and `skewedlevystable_distribution alpha sigma mu` is the draw
`stochastic::skewedlevystable_distribution<double>{ alpha, sigma, mu }(rng)`. The result
is the delay together with the number of draws taken from the stable distribution. -/
def DelayTime_CompoundSkewedLevyStable (number_process : ℚ → Nat) (pow : ℚ → ℚ → ℚ)
    (skewedlevystable_distribution : ℚ → ℚ → ℚ → ℚ) (alpha sigma mu : ℚ) (time : ℚ) :
    ℚ × Nat :=
  let number := number_process time
  if number ≠ 0 then
    (skewedlevystable_distribution alpha (pow (number : ℚ) (1 / alpha) * sigma)
      ((number : ℚ) * mu), 1)
  else
    (0, 0)

/-- `DelayTime_Subordinator_SkewedLevyStable::operator()(delta_time)`. `pow` stands for
`std::pow`; the member `stable_dist` is built as
`skewedlevystable_distribution<double>{ alpha, sigma, 0. }` and
`skewedlevystable_distribution alpha sigma 0` is its draw `stable_dist(rng)`. -/
def DelayTime_Subordinator_SkewedLevyStable (pow : ℚ → ℚ → ℚ)
    (skewedlevystable_distribution : ℚ → ℚ → ℚ → ℚ) (alpha gamma sigma mu delta_time : ℚ) : ℚ :=
  pow (gamma * delta_time) (1 / alpha) * skewedlevystable_distribution alpha sigma 0 + mu

/-- A sampler of the stable family built from one standard draw `z` by the family's
scaling: the draw of scale `sigma` and location `mu` is `sigma * z + mu`. -/
def stable_of_standard (z : ℚ) (_alpha sigma mu : ℚ) : ℚ := sigma * z + mu

end stochastic
namespace stochastic

/-- The subordinator delay as the spec words it: `(gamma dt)^(1/alpha) * Z + mu` with `Z`
a draw of the standard (unit-scale, zero-location) stable distribution of index `alpha`. -/
def DelayTime_Subordinator_standard (pow : ℚ → ℚ → ℚ)
    (skewedlevystable_distribution : ℚ → ℚ → ℚ → ℚ) (alpha gamma mu delta_time : ℚ) : ℚ :=
  pow (gamma * delta_time) (1 / alpha) * skewedlevystable_distribution alpha 1 0 + mu

end stochastic

namespace stochastic

/-- The reaction `A + B -> (nothing)` of `batch_delay.cpp` with base rate `reaction_rate`. -/
def stoichiometry_annihilation (reaction_rate : ℚ) : Stoichiometry :=
  { reaction_rate := reaction_rate, reactants := [(0, 1), (1, 1)], products := [] }

end stochastic

namespace stochastic

/-- A monitor of the first loop of the discrete `react`: it follows the loop and is true
when every statement `numbers[sto.first] -= sto.second` subtracts from a count that is at
least `sto.second`, so that no subtraction wraps below zero. -/
def reactants_suffice : List (Nat × Nat) → List Nat → Bool
  | [], _ => true
  | sto :: rest, numbers =>
    decide (sto.2 ≤ numbers.getD sto.1 0) &&
      reactants_suffice rest (numbers.set sto.1 (size_t_sub (numbers.getD sto.1 0) sto.2))

end stochastic

namespace gillespie

/-- The assumption on the weighted selector: when some rate is positive it returns the
index of a rate that is positive. -/
def Draw.selects_positive (d : Draw) : Prop :=
  ∀ rates : List ℚ, (∃ x ∈ rates, 0 < x) →
    d.pick rates < rates.length ∧ 0 < rates.getD (d.pick rates) 0

/-- A call of one of the two advancing member functions, with the answers of the random
functors during the call. -/
inductive Call where
  | evolve (d : Draw)
  | evolve_time_max (time_max : Time) (fuel : Nat) (draws : Nat → Draw)

/-- The selector assumption for every pass of a call. -/
def Call.selects_positive : Call → Prop
  | Call.evolve d => d.selects_positive
  | Call.evolve_time_max _ _ draws => ∀ n, (draws n).selects_positive

namespace Gillespie

/-- Ghost trace of `evolve()`: the call of `react` it makes, if any, as the pair of the
index passed and the particle numbers at the call. -/
def evolve_applied (g : Gillespie) (d : Draw) : List (Nat × List Nat) :=
  let g1 := { g with reacted := false }
  let g2 := g1.rates
  if max_element g2.rate_container = 0 then
    []
  else
    let g4 := g2.pick_reaction d
    let g5 := g4.compute_time_next_reaction d
    [(g5.next_reaction, g5.particle_container)]

/-- Ghost trace of the loop of `evolve(double time_max)`: the calls of `react` made by
the first `fuel` passes, each as the pair of the index passed and the particle numbers at
the call. -/
def evolve_loop_applied (time_max : Time) :
    Nat → (Nat → Draw) → Gillespie → List (Nat × List Nat)
  | 0, _, _ => []
  | fuel + 1, draws, g =>
    let g1 := g.rates
    let g2 :=
      if max_element g1.rate_container = 0 then
        { g1 with time_next_reaction := ⊤ }
      else
        (g1.pick_reaction (draws 0)).compute_time_next_reaction (draws 0)
    if g2.time_next_reaction < time_max then
      let g3 := { g2 with time_current := g2.time_next_reaction }
      let g4 := g3.react g3.next_reaction
      let g5 := { g4 with reacted := true }
      (g3.next_reaction, g3.particle_container) ::
        evolve_loop_applied time_max fuel (fun n => draws (n + 1)) g5
    else
      []

/-- Ghost trace of a sequence of calls: the calls of `react` made, in order. A call of
`evolve(time_max)` that has not returned after its `fuel` passes ends the sequence. -/
def applied : List Call → Gillespie → List (Nat × List Nat)
  | [], _ => []
  | Call.evolve d :: calls, g => g.evolve_applied d ++ applied calls (g.evolve d)
  | Call.evolve_time_max time_max fuel draws :: calls, g =>
    evolve_loop_applied time_max fuel draws { g with reacted := false } ++
      (match g.evolve_time_max time_max fuel draws with
      | some p => applied calls p.1
      | none => [])

end Gillespie

/-- A selector that returns the index of the first positive rate. -/
def draw_first_positive (waiting : ℚ) : Draw :=
  { pick := fun rates => rates.findIdx (fun x => decide (0 < x))
    waiting := fun _ => waiting
    delay := fun _ => 0 }

end gillespie

namespace stochastic

/-- The exception that the member functions of `Stoichiometry` can raise:
`std::out_of_range`, thrown by `std::unordered_map::at`. -/
inductive Error where
  | out_of_range
  deriving DecidableEq

/-- The statement `map[key] = value` on a `std::unordered_map<std::size_t, std::size_t>`,
a map being the function from keys to the value stored, if any. -/
def map_assign (map : Nat → Option Nat) (key value : Nat) : Nat → Option Nat :=
  fun k => if k = key then some value else map k

/-- The call `map.at(key)`. -/
def map_at (map : Nat → Option Nat) (key : Nat) : Except Error Nat :=
  match map key with
  | some value => Except.ok value
  | none => Except.error Error.out_of_range

namespace Stoichiometry

/-- Constructor `Stoichiometry(reaction_rate, reactants, products)`: it stores its
arguments and has no statement that fails. -/
def construct (reaction_rate : ℚ) (reactants products : List (Nat × Nat)) :
    Except Error Stoichiometry :=
  Except.ok { reaction_rate := reaction_rate, reactants := reactants, products := products }

/-- The private member `reactants_map` as the constructor's first loop leaves it:
`reactants_map[rea.first] = rea.second` for each pair in order. -/
def reactants_map (st : Stoichiometry) : Nat → Option Nat :=
  st.reactants.foldl (fun map rea => map_assign map rea.1 rea.2) (fun _ => none)

/-- The private member `products_map` as the constructor's second loop leaves it. -/
def products_map (st : Stoichiometry) : Nat → Option Nat :=
  st.products.foldl (fun map pro => map_assign map pro.1 pro.2) (fun _ => none)

/-- Method `reactant_coefficient(reactant)`. -/
def reactant_coefficient (st : Stoichiometry) (reactant : Nat) : Except Error Nat :=
  map_at st.reactants_map reactant

/-- Method `product_coefficient(product)`. -/
def product_coefficient (st : Stoichiometry) (product : Nat) : Except Error Nat :=
  map_at st.products_map product

end Stoichiometry

namespace Reaction_MassAction

/-- The loop of the continuous `rate`:
`combinations *= std::pow(concentration[sto.first], sto.second)`. -/
def combinations_continuous (r : Reaction_MassAction) (concentration : List ℚ) : ℚ :=
  r.stoichiometry.reactants.foldl
    (fun combinations sto => combinations * (concentration.getD sto.1 0) ^ sto.2) 1

/-- Method `rate(std::vector<double> const&)`. -/
def rate_continuous (r : Reaction_MassAction) (concentration : List ℚ) : ℚ :=
  r.reaction_rate_scaled * combinations_continuous r concentration

/-- Method `react(std::vector<double>&, double time_step)`. -/
def react_continuous (r : Reaction_MassAction) (concentration : List ℚ) (time_step : ℚ) :
    List ℚ :=
  let rate_val := rate_continuous r concentration
  let concentration1 := r.stoichiometry.reactants.foldl
    (fun concentration sto =>
      concentration.set sto.1 (concentration.getD sto.1 0 - sto.2 * rate_val * time_step))
    concentration
  r.stoichiometry.products.foldl
    (fun concentration sto =>
      concentration.set sto.1 (concentration.getD sto.1 0 + sto.2 * rate_val * time_step))
    concentration1

end Reaction_MassAction

/-- The sum of the coefficients that one side of a reaction lists for species `s`
(the coefficient of `s` when it is listed once, 0 when it is absent). -/
def coefficient_sum (side : List (Nat × Nat)) (s : Nat) : Nat :=
  ((side.filter (fun sto => sto.1 == s)).map Prod.snd).sum

/-- `DelayTime_NoDelay::operator()(double)`. -/
def DelayTime_NoDelay (_time : ℚ) : ℚ := 0

end stochastic

namespace gillespie

namespace Gillespie

/-- Method `set(Part_Container const& particles, double time)`. -/
def set (g : Gillespie) (particles : List Nat) (time : Time) : Gillespie :=
  { g with particle_container := particles, time_current := time }

/-- The call `set(particles)`, with the default argument `time = 0.`. -/
def set_default_time (g : Gillespie) (particles : List Nat) : Gillespie :=
  g.set particles 0

/-- Method `set(std::size_t type, std::size_t particle_nr)`. -/
def set_type (g : Gillespie) (type particle_nr : Nat) : Gillespie :=
  { g with particle_container := g.particle_container.set type particle_nr }

/-- Method `set(std::vector<std::size_t> const& types, Part_Container const& particles)`:
the loop runs `type` from 0 to `particles.size() - 1`. -/
def set_types (g : Gillespie) (types particles : List Nat) : Gillespie :=
  (List.range particles.length).foldl
    (fun g type => g.set_type (types.getD type 0) (particles.getD type 0)) g

/-- Method `time(double time)`. -/
def time (g : Gillespie) (time : Time) : Gillespie :=
  { g with time_current := time }

/-- Method `clear()`: `std::fill` of the particle container with 0. -/
def clear (g : Gillespie) : Gillespie :=
  { g with particle_container := g.particle_container.map (fun _ => 0) }

/-- Accessor `particles(std::size_t nr)`. -/
def particles (g : Gillespie) (nr : Nat) : Nat :=
  g.particle_container.getD nr 0

end Gillespie

/-- The data members that the constructor of `Gillespie` leaves uninitialised. -/
structure Uninitialized where
  time_last_reaction : Time
  time_next_reaction : Time
  last_reaction : Nat
  next_reaction : Nat
  rate_container : List ℚ

/-- Constructor `Gillespie(particles, time, waiting_time, delay_time, reactions...)`;
`reacted` has the default member initialiser 0. -/
def Gillespie.construct (particles : List Nat) (time : Time) (reactions : List Reaction)
    (u : Uninitialized) : Gillespie :=
  { particle_container := particles
    time_current := time
    reactions := reactions
    time_last_reaction := u.time_last_reaction
    time_next_reaction := u.time_next_reaction
    last_reaction := u.last_reaction
    next_reaction := u.next_reaction
    reacted := false
    rate_container := u.rate_container }

/-- `make_Gillespie_MassAction_Delay(numbers, time, delay_time, stoichiometry...)`. The
result is the engine together with its member `delay_time`, a functor given by its answer
at each call; the member `waiting_time` is a `WaitingTime_Exponential`. -/
def make_Gillespie_MassAction_Delay (numbers : List Nat) (time : Time)
    (delay_time : Nat → ℚ → ℚ) (stoichiometry : List stochastic.Stoichiometry)
    (u : Uninitialized) : Gillespie × (Nat → ℚ → ℚ) :=
  (Gillespie.construct numbers time
    (stoichiometry.map (fun st => of_MassAction (stochastic.Reaction_MassAction.make st))) u,
   delay_time)

/-- `make_Gillespie_MassAction_Delay(numbers, delay_time, stoichiometry...)`: "Start time
at 0." -/
def make_Gillespie_MassAction_Delay_default_time (numbers : List Nat)
    (delay_time : Nat → ℚ → ℚ) (stoichiometry : List stochastic.Stoichiometry)
    (u : Uninitialized) : Gillespie × (Nat → ℚ → ℚ) :=
  make_Gillespie_MassAction_Delay numbers 0 delay_time stoichiometry u

/-- `make_Gillespie_MassAction(numbers, time, stoichiometry...)`. -/
def make_Gillespie_MassAction (numbers : List Nat) (time : Time)
    (stoichiometry : List stochastic.Stoichiometry) (u : Uninitialized) :
    Gillespie × (Nat → ℚ → ℚ) :=
  make_Gillespie_MassAction_Delay numbers time (fun _ => stochastic.DelayTime_NoDelay)
    stoichiometry u

/-- `make_Gillespie_MassAction(numbers, stoichiometry...)`: "Start time at 0." -/
def make_Gillespie_MassAction_default_time (numbers : List Nat)
    (stoichiometry : List stochastic.Stoichiometry) (u : Uninitialized) :
    Gillespie × (Nat → ℚ → ℚ) :=
  make_Gillespie_MassAction numbers 0 stoichiometry u

end gillespie
namespace stochastic

/-- A stoichiometry whose reactant list names species 0 twice, with coefficients 1 and 2. -/
def stoichiometry_duplicate : Stoichiometry :=
  { reaction_rate := 1, reactants := [(0, 1), (0, 2)], products := [] }

end stochastic

namespace gillespie

/-- Method `add(type, increment)` of `Gillespie`. -/
def Gillespie.add (g : Gillespie) (type increment : Nat) : Gillespie :=
  { g with
    particle_container :=
      g.particle_container.set type
        (stochastic.size_t_add (g.particle_container.getD type 0) increment) }

/-- A call of `evolve()` or of one of the member functions that change particle numbers
without touching the time. -/
inductive Step where
  | evolve (d : Draw)
  | add (type increment : Nat)
  | remove (type increment : Nat)
  | set_type (type particle_nr : Nat)
  | clear

/-- The engine after one such call. -/
def Gillespie.step (g : Gillespie) : Step → Gillespie
  | Step.evolve d => g.evolve d
  | Step.add type increment => g.add type increment
  | Step.remove type increment => g.remove type increment
  | Step.set_type type particle_nr => g.set_type type particle_nr
  | Step.clear => g.clear

/-- The engine after a sequence of such calls. -/
def Gillespie.steps (g : Gillespie) (calls : List Step) : Gillespie :=
  calls.foldl Gillespie.step g

end gillespie

namespace streamtube

/-- Class `PatchGenerator_alternating`. The three functors are the sequences of their
answers, and a counter per functor records how many answers have been taken. -/
structure PatchGenerator_alternating (Mass : Type) where
  reactive_length : Nat → ℚ
  conservative_length : Nat → ℚ
  particle_generator : Nat → List Mass
  reactive_length_calls : Nat
  conservative_length_calls : Nat
  particle_generator_calls : Nat
  current_particles : List Mass
  current_length : ℚ
  current_reactive : Bool

namespace PatchGenerator_alternating

variable {Mass : Type}

/-- Method `reactive()`. -/
def reactive (patch : PatchGenerator_alternating Mass) : Bool := patch.current_reactive

/-- Method `length()`. -/
def length (patch : PatchGenerator_alternating Mass) : ℚ := patch.current_length

/-- Method `nr_types()`. -/
def nr_types (patch : PatchGenerator_alternating Mass) : Nat := patch.current_particles.length

/-- Method `mass(type)`. -/
def mass [Zero Mass] (patch : PatchGenerator_alternating Mass) (type : Nat) : Mass :=
  patch.current_particles.getD type 0

/-- Method `mass(type, particles)`. -/
def mass_set (patch : PatchGenerator_alternating Mass) (type : Nat) (particles : Mass) :
    PatchGenerator_alternating Mass :=
  { patch with current_particles := patch.current_particles.set type particles }

/-- Method `generate()`. -/
def generate (patch : PatchGenerator_alternating Mass) : PatchGenerator_alternating Mass :=
  let patch1 := { patch with current_reactive := !patch.current_reactive }
  if patch1.reactive then
    { patch1 with
      current_length := patch1.reactive_length patch1.reactive_length_calls
      reactive_length_calls := patch1.reactive_length_calls + 1
      current_particles := patch1.particle_generator patch1.particle_generator_calls
      particle_generator_calls := patch1.particle_generator_calls + 1 }
  else
    { patch1 with
      current_length := patch1.conservative_length patch1.conservative_length_calls
      conservative_length_calls := patch1.conservative_length_calls + 1 }

/-- The constructor: the functors are stored, `current_particles` is empty,
`current_reactive` is `0` and `current_length` has no initializer (`uninitialized` stands
for its value); then `generate()` is called. -/
def construct (reactive_length conservative_length : Nat → ℚ)
    (particle_generator : Nat → List Mass) (uninitialized : ℚ) :
    PatchGenerator_alternating Mass :=
  generate
    { reactive_length := reactive_length
      conservative_length := conservative_length
      particle_generator := particle_generator
      reactive_length_calls := 0
      conservative_length_calls := 0
      particle_generator_calls := 0
      current_particles := []
      current_length := uninitialized
      current_reactive := false }

/-- The patch after `k` further calls of `generate()`. -/
def generate_n (patch : PatchGenerator_alternating Mass) : Nat → PatchGenerator_alternating Mass
  | 0 => patch
  | k + 1 => (generate_n patch k).generate

end PatchGenerator_alternating

/-- The members that `StreamTubeDynamics` uses of its template argument `Advection`, whose
objects are the values of `A`. -/
structure Advection (A : Type) where
  generate : A → A
  value : A → ℚ

/-- Class `Advection_uniform` of `Models.h`: `generate()` does nothing and `operator()`
returns the stored constant. -/
def Advection_uniform : Advection ℚ :=
  { generate := fun advection => advection, value := fun advection => advection }

/-- The members that `StreamTubeDynamics` uses of its template argument `Reactor`, whose
objects are the values of `R`. -/
structure Reactor (R Mass : Type) where
  set : R → Nat → Mass → R
  time : R → ℚ → R
  evolve : R → ℚ → R
  particles : R → Nat → Mass

/-- Class `StreamTubeDynamics` with `Patch = PatchGenerator_alternating`. -/
structure StreamTubeDynamics (A R Mass : Type) where
  patch : PatchGenerator_alternating Mass
  reactor : R
  advection : A
  mass_mobile : List Mass
  current_position : ℚ
  current_time : ℚ
  position_in_patch : ℚ
  nr_types_mobile : Nat
  nr_types_immobile : Nat

namespace StreamTubeDynamics

variable {A R Mass : Type} [Zero Mass]

/-- The constructor, with the default member initializers. -/
def construct (patch : PatchGenerator_alternating Mass) (advection : A) (reactor : R)
    (mass : List Mass) (position time : ℚ) : StreamTubeDynamics A R Mass :=
  { patch := patch
    reactor := reactor
    advection := advection
    mass_mobile := mass
    current_position := position
    current_time := time
    position_in_patch := 0
    nr_types_mobile := mass.length
    nr_types_immobile := patch.nr_types }

/-- Method `position()`. -/
def position (s : StreamTubeDynamics A R Mass) : ℚ := s.current_position

/-- Method `time()`. -/
def time (s : StreamTubeDynamics A R Mass) : ℚ := s.current_time

/-- Private method `set_reactor()`. -/
def set_reactor (reactor_ops : Reactor R Mass) (s : StreamTubeDynamics A R Mass) :
    StreamTubeDynamics A R Mass :=
  let reactor1 := (List.range s.nr_types_mobile).foldl
    (fun reactor type => reactor_ops.set reactor type (s.mass_mobile.getD type 0)) s.reactor
  let reactor2 := (List.range s.nr_types_immobile).foldl
    (fun reactor type => reactor_ops.set reactor (s.nr_types_mobile + type) (s.patch.mass type))
    reactor1
  { s with reactor := reactor_ops.time reactor2 s.current_time }

/-- Private method `set_state()`. -/
def set_state (reactor_ops : Reactor R Mass) (s : StreamTubeDynamics A R Mass) :
    StreamTubeDynamics A R Mass :=
  let mass_mobile1 := (List.range s.nr_types_mobile).foldl
    (fun mass_mobile type => mass_mobile.set type (reactor_ops.particles s.reactor type))
    s.mass_mobile
  let patch1 := (List.range s.nr_types_immobile).foldl
    (fun patch type =>
      patch.mass_set type (reactor_ops.particles s.reactor (s.nr_types_mobile + type)))
    s.patch
  { s with mass_mobile := mass_mobile1, patch := patch1 }

/-- Private method `react(position_increment)`. -/
def react (advection_ops : Advection A) (reactor_ops : Reactor R Mass)
    (s : StreamTubeDynamics A R Mass) (position_increment : ℚ) : StreamTubeDynamics A R Mass :=
  let time_increment := position_increment / advection_ops.value s.advection
  let s1 :=
    if s.patch.reactive then
      let s2 := s.set_reactor reactor_ops
      let s3 := { s2 with reactor := reactor_ops.evolve s2.reactor (s2.current_time + time_increment) }
      s3.set_state reactor_ops
    else s
  { s1 with
    current_position := s1.current_position + position_increment
    current_time := s1.current_time + time_increment }

/-- Private method `generate()`. -/
def generate (advection_ops : Advection A) (s : StreamTubeDynamics A R Mass) :
    StreamTubeDynamics A R Mass :=
  { s with patch := s.patch.generate, advection := advection_ops.generate s.advection }

/-- The `while` loop of `evolve_position(final_position)`, for at most `fuel` passes. The
second component lists, for each call of `react` so far, the position increment and the
value of `advection()` during the call. -/
def evolve_position_loop (advection_ops : Advection A) (reactor_ops : Reactor R Mass)
    (final_position : ℚ) :
    Nat → StreamTubeDynamics A R Mass → List (ℚ × ℚ) →
      Option (StreamTubeDynamics A R Mass × List (ℚ × ℚ))
  | 0, s, segments =>
    if s.current_position + s.patch.length < final_position then none else some (s, segments)
  | fuel + 1, s, segments =>
    if s.current_position + s.patch.length < final_position then
      evolve_position_loop advection_ops reactor_ops final_position fuel
        ((s.react advection_ops reactor_ops s.patch.length).generate advection_ops)
        (segments ++ [(s.patch.length, advection_ops.value s.advection)])
    else some (s, segments)

/-- Method `evolve_position(final_position)`, with at most `fuel` passes of its loop. -/
def evolve_position (advection_ops : Advection A) (reactor_ops : Reactor R Mass)
    (s : StreamTubeDynamics A R Mass) (final_position : ℚ) (fuel : Nat) :
    Option (StreamTubeDynamics A R Mass × List (ℚ × ℚ)) :=
  if s.current_position + s.patch.length - s.position_in_patch < final_position then
    let s1 := (s.react advection_ops reactor_ops (s.patch.length - s.position_in_patch)).generate
      advection_ops
    match evolve_position_loop advection_ops reactor_ops final_position fuel s1
        [(s.patch.length - s.position_in_patch, advection_ops.value s.advection)] with
    | none => none
    | some (s2, segments) =>
      let position_increment := final_position - s2.current_position
      let s3 := { s2 with position_in_patch := position_increment }
      some (s3.react advection_ops reactor_ops position_increment,
        segments ++ [(position_increment, advection_ops.value s3.advection)])
  else
    let position_increment := final_position - s.current_position
    let s1 := s.react advection_ops reactor_ops position_increment
    some ({ s1 with position_in_patch := s1.position_in_patch + position_increment },
      [(position_increment, advection_ops.value s.advection)])

/-- Method `evolve_time(final_time)`. -/
def evolve_time (advection_ops : Advection A) (reactor_ops : Reactor R Mass)
    (s : StreamTubeDynamics A R Mass) (final_time : ℚ) (fuel : Nat) :
    Option (StreamTubeDynamics A R Mass × List (ℚ × ℚ)) :=
  s.evolve_position advection_ops reactor_ops (advection_ops.value s.advection * final_time) fuel

end StreamTubeDynamics

end streamtube

namespace streamtube

/-- A patch generator with reactive lengths 2, conservative lengths 3 and one immobile
species of mass 1 in each reactive patch. -/
def patch_1 : PatchGenerator_alternating ℚ :=
  PatchGenerator_alternating.construct (fun _ => 2) (fun _ => 3) (fun _ => [1]) 0

/-- A reactor that stores the masses it is given and does not change them. -/
def reactor_idle : Reactor (List ℚ) ℚ :=
  { set := fun reactor type value => reactor.set type value
    time := fun reactor _ => reactor
    evolve := fun reactor _ => reactor
    particles := fun reactor type => reactor.getD type 0 }

/-- A streamtube over `patch_1` with advection `1 / 2`, one mobile species of mass 5,
starting at position 0 and time 0. -/
def streamtube_1 : StreamTubeDynamics ℚ (List ℚ) ℚ :=
  StreamTubeDynamics.construct patch_1 (1 / 2) [0, 0] [5] 0 0

end streamtube

namespace stochastic

/-- Class `Reaction_concentration_bimolecular_analytical` (`nr_types` is the constant 2).
The type `K` of the `double` members is left open, so that the class can be read over the
rationals or over the reals. -/
structure Reaction_concentration_bimolecular_analytical (K : Type) where
  reaction_rate : K
  masses : List K
  time_current : K
  tol : K

namespace Reaction_concentration_bimolecular_analytical

variable {K : Type} [LinearOrderedField K]

/-- The constructor taking the two masses; `time_current` starts at 0. -/
def construct (reaction_rate mass0 mass1 tol : K) :
    Reaction_concentration_bimolecular_analytical K :=
  { reaction_rate := reaction_rate, masses := [mass0, mass1], time_current := 0, tol := tol }

/-- Method `set(type, val)`. -/
def set (r : Reaction_concentration_bimolecular_analytical K) (type : Nat) (val : K) :
    Reaction_concentration_bimolecular_analytical K :=
  { r with masses := r.masses.set type val }

/-- Method `time(val)`. -/
def time (r : Reaction_concentration_bimolecular_analytical K) (val : K) :
    Reaction_concentration_bimolecular_analytical K :=
  { r with time_current := val }

/-- Method `mass(type)`. -/
def mass (r : Reaction_concentration_bimolecular_analytical K) (type : Nat) : K :=
  r.masses.getD type 0

/-- Method `particles(type)`. -/
def particles (r : Reaction_concentration_bimolecular_analytical K) (type : Nat) : K :=
  r.mass type

/-- The index `!max_idx`. -/
def other_idx (max_idx : Nat) : Nat := if max_idx = 0 then 1 else 0

/-- Method `evolve(time_max)`; `exp` stands for `std::exp`. -/
def evolve (exp : K → K) (r : Reaction_concentration_bimolecular_analytical K) (time_max : K) :
    Reaction_concentration_bimolecular_analytical K :=
  let time_step := time_max - r.time_current
  let r1 := { r with time_current := time_max }
  let max_idx : Nat := if r1.masses.getD 0 0 > r1.masses.getD 1 0 then 0 else 1
  let mass_max := r1.masses.getD max_idx 0
  let mass_min := r1.masses.getD (other_idx max_idx) 0
  let diff := mass_max - mass_min
  if diff > r1.tol then
    let exp_val := exp (-r1.reaction_rate * time_step * diff)
    let sol_base := diff / (mass_max - exp_val * mass_min)
    let r2 := r1.set max_idx (mass_max * sol_base)
    r2.set (other_idx max_idx) (mass_min * sol_base * exp (-r1.reaction_rate * time_step * diff))
  else
    let solution_equal := mass_max / (1 + r1.reaction_rate * mass_max * time_step)
    (r1.set 0 solution_equal).set 1 solution_equal

end Reaction_concentration_bimolecular_analytical

end stochastic

/-! ## Concrete engines used to evaluate the model -/

namespace gillespie

/-- The reaction `A + B -> (nothing)` of `batch_delay.cpp`, with base rate 1. -/
def stoichiometry_1 : stochastic.Stoichiometry :=
  { reaction_rate := 1, reactants := [(0, 1), (1, 1)], products := [] }

/-- The reaction `A -> B` with base rate 1. -/
def stoichiometry_2 : stochastic.Stoichiometry :=
  { reaction_rate := 1, reactants := [(0, 1)], products := [(1, 1)] }

/-- An engine at time 0 with the given particle numbers and reaction handlers. -/
def engine_of (particles : List Nat) (reactions : List Reaction) : Gillespie :=
  { particle_container := particles
    time_current := 0
    reactions := reactions
    time_last_reaction := 0
    time_next_reaction := 0
    last_reaction := 0
    next_reaction := 0
    reacted := false
    rate_container := reactions.map (fun _ => 0) }

/-- The engine of `batch_delay.cpp` with the given particle numbers. -/
def engine_1 (particles : List Nat) : Gillespie :=
  engine_of particles [of_MassAction (stochastic.Reaction_MassAction.make stoichiometry_1)]

/-- An engine with the two reactions `A + B -> (nothing)` and `A -> B`. -/
def engine_2 (particles : List Nat) : Gillespie :=
  engine_of particles
    [of_MassAction (stochastic.Reaction_MassAction.make stoichiometry_1),
     of_MassAction (stochastic.Reaction_MassAction.make stoichiometry_2)]

/-- A pass that picks reaction `index`, waits `waiting` and adds no delay
(`DelayTime_NoDelay`). -/
def draw_of (index : Nat) (waiting : ℚ) : Draw :=
  { pick := fun _ => index, waiting := fun _ => waiting, delay := fun _ => 0 }

/-- A pass that waits 1 and takes its delay from
`DelayTime_Subordinator_SkewedLevyStable_JustDelay` with `alpha = gamma = 1`, `mu = 0`
and the stable draw `-1/2` (`std::pow(x, 1.)` is `x`). -/
def draw_just_delay : Draw :=
  { pick := fun _ => 0
    waiting := fun _ => 1
    delay := stochastic.DelayTime_Subordinator_SkewedLevyStable_JustDelay (fun x _ => x) 1 1 0 (-1 / 2) }

/-- An engine with the two reactions `2 A -> (nothing)` and `A + B -> (nothing)`, both
with base rate 1. -/
def engine_3 (particles : List Nat) : Gillespie :=
  engine_of particles
    [of_MassAction (stochastic.Reaction_MassAction.make stochastic.stoichiometry_pair),
     of_MassAction (stochastic.Reaction_MassAction.make stoichiometry_1)]

end gillespie

/-! ## The single step `evolve()` -/

namespace gillespie

theorem max_element_foldl_ge (xs : List ℚ) (x : ℚ) : x ≤ xs.foldl max x := by
  induction xs generalizing x with
  | nil => simp
  | cons y ys ih => exact le_trans (le_max_left x y) (ih (max x y))

theorem max_element_foldl_mem_le (xs : List ℚ) (x y : ℚ) (hy : y ∈ xs) : y ≤ xs.foldl max x := by
  induction xs generalizing x with
  | nil => simp at hy
  | cons z zs ih =>
    rcases List.mem_cons.1 hy with h | h
    · subst h
      exact le_trans (le_max_right x y) (max_element_foldl_ge zs (max x y))
    · exact ih (max x z) h

theorem max_element_ge (l : List ℚ) (y : ℚ) (hy : y ∈ l) : y ≤ max_element l := by
  cases l with
  | nil => simp at hy
  | cons x xs =>
    rcases List.mem_cons.1 hy with h | h
    · subst h
      exact max_element_foldl_ge xs y
    · exact max_element_foldl_mem_le xs x y h

theorem max_element_foldl_zero (xs : List ℚ) (h : ∀ y ∈ xs, y = 0) : xs.foldl max 0 = 0 := by
  induction xs with
  | nil => rfl
  | cons z zs ih =>
    have hz : z = 0 := h z (List.mem_cons_self z zs)
    subst hz
    simpa using ih (fun y hy => h y (List.mem_cons_of_mem _ hy))

theorem max_element_zero (l : List ℚ) (h : ∀ y ∈ l, y = 0) : max_element l = 0 := by
  cases l with
  | nil => rfl
  | cons x xs =>
    have hx : x = 0 := h x (List.mem_cons_self x xs)
    subst hx
    exact max_element_foldl_zero xs (fun y hy => h y (List.mem_cons_of_mem _ hy))


theorem max_element_rates_zero (g : Gillespie)
    (h : ∀ reaction ∈ g.reactions, reaction.rate g.particle_container = 0) :
    max_element (g.reactions.map (fun reaction => reaction.rate g.particle_container)) = 0 := by
  apply max_element_zero
  intro y hy
  obtain ⟨reaction, hmem, rfl⟩ := List.mem_map.1 hy
  exact h reaction hmem

theorem max_element_rates_pos (g : Gillespie)
    (h : ∃ reaction ∈ g.reactions, 0 < reaction.rate g.particle_container) :
    max_element (g.reactions.map (fun reaction => reaction.rate g.particle_container)) ≠ 0 := by
  obtain ⟨reaction, hmem, hpos⟩ := h
  have hle := max_element_ge (g.reactions.map (fun reaction => reaction.rate g.particle_container))
    (reaction.rate g.particle_container) (List.mem_map.2 ⟨reaction, hmem, rfl⟩)
  exact ne_of_gt (lt_of_lt_of_le hpos hle)

/-- C1: when every channel's rate is zero in the current state, `evolve()` leaves
`reaction()` false, leaves the particle numbers unchanged and sets `time_next()` to
`+infinity`. -/
theorem evolve_all_rates_zero (g : Gillespie) (d : Draw)
    (h : ∀ reaction ∈ g.reactions, reaction.rate g.particle_container = 0) :
    (g.evolve d).reacted = false ∧
      (g.evolve d).particle_container = g.particle_container ∧
      (g.evolve d).time_next_reaction = ⊤ := by
  have hmax := max_element_rates_zero g h
  simp [Gillespie.evolve, Gillespie.rates, hmax]

theorem evolve_all_rates_zero_witness :
    (∀ reaction ∈ (engine_1 [0, 3]).reactions,
        reaction.rate (engine_1 [0, 3]).particle_container = 0) ∧
      ((engine_1 [0, 3]).evolve (draw_of 0 1)).reacted = false ∧
      ((engine_1 [0, 3]).evolve (draw_of 0 1)).particle_container =
        (engine_1 [0, 3]).particle_container ∧
      ((engine_1 [0, 3]).evolve (draw_of 0 1)).time_next_reaction = ⊤ :=
  have h : ∀ reaction ∈ (engine_1 [0, 3]).reactions,
      reaction.rate (engine_1 [0, 3]).particle_container = 0 := by
    simp [engine_1, engine_of, of_MassAction, stochastic.Reaction_MassAction.rate,
      stochastic.Reaction_MassAction.combinations, stochastic.Reaction_MassAction.make,
      stochastic.Reaction_MassAction.factor, stoichiometry_1, stochastic.size_t_mul,
      stochastic.size_t_range, operation.factorial_incomplete, operation.factorial]
  ⟨h, evolve_all_rates_zero (engine_1 [0, 3]) (draw_of 0 1) h⟩

/-- C2: when at least one channel's rate is positive in the current state, `evolve()`
sets `reaction()` to true, whatever channel, waiting time and delay are drawn (the
absence of negative rates is not needed). -/
theorem evolve_rate_positive_reacted (g : Gillespie) (d : Draw)
    (h : ∃ reaction ∈ g.reactions, 0 < reaction.rate g.particle_container) :
    (g.evolve d).reacted = true := by
  have hmax := max_element_rates_pos g h
  simp [Gillespie.evolve, Gillespie.rates, hmax]

theorem evolve_rate_positive_reacted_witness :
    (∃ reaction ∈ (engine_2 [2, 3]).reactions,
        0 < reaction.rate (engine_2 [2, 3]).particle_container) ∧
      ((engine_2 [2, 3]).evolve (draw_of 1 1)).reacted = true :=
  have h : ∃ reaction ∈ (engine_2 [2, 3]).reactions,
      0 < reaction.rate (engine_2 [2, 3]).particle_container := by
    simp [engine_2, engine_of, of_MassAction, stochastic.Reaction_MassAction.rate,
      stochastic.Reaction_MassAction.combinations, stochastic.Reaction_MassAction.make,
      stochastic.Reaction_MassAction.factor, stoichiometry_1, stoichiometry_2,
      stochastic.size_t_mul, stochastic.size_t_range, operation.factorial_incomplete,
      operation.factorial, Nat.descFactorial]
  ⟨h, evolve_rate_positive_reacted (engine_2 [2, 3]) (draw_of 1 1) h⟩

/-- C3, as stated, fails: in the engine of `A + B -> (nothing)` with counts `[2, 2]`
(rate 4) a pass that waits 1 and draws the delay `-3/2` from the just-delay subordinator
moves `time()` from 0 to `-1/2`. -/
theorem evolve_time_backwards :
    (∃ reaction ∈ (engine_1 [2, 2]).reactions,
        0 < reaction.rate (engine_1 [2, 2]).particle_container) ∧
      ((engine_1 [2, 2]).evolve draw_just_delay).time_current = ((-1 / 2 : ℚ) : Time) ∧
      ¬ ((engine_1 [2, 2]).time_current <
          ((engine_1 [2, 2]).evolve draw_just_delay).time_current) := by
  have hrate : (stochastic.Reaction_MassAction.make stoichiometry_1).rate [2, 2] = 4 := by
    have hc : (stochastic.Reaction_MassAction.make stoichiometry_1).combinations [2, 2] = 4 := by
      decide
    rw [stochastic.Reaction_MassAction.rate, hc]
    norm_num [stochastic.Reaction_MassAction.make, stochastic.Reaction_MassAction.factor,
      stoichiometry_1, operation.factorial]
  have htime : ((engine_1 [2, 2]).evolve draw_just_delay).time_current = ((-1 / 2 : ℚ) : Time) := by
    simp only [Gillespie.evolve, Gillespie.rates, engine_1, engine_of, of_MassAction,
      List.map, hrate, max_element, List.foldl]
    norm_num [Gillespie.pick_reaction, Gillespie.compute_time_next_reaction, Gillespie.react,
      draw_just_delay, stochastic.DelayTime_Subordinator_SkewedLevyStable_JustDelay]
    norm_cast
    norm_num
  refine ⟨?_, htime, ?_⟩
  · simp [engine_1, engine_of, of_MassAction, hrate]
  · rw [htime]
    simp only [engine_1, engine_of]
    rw [not_lt]
    exact_mod_cast (by norm_num : (-1 / 2 : ℚ) ≤ 0)

/-- C3, amended: when at least one channel's rate is positive, the current time is
finite and the drawn waiting time and delay have a positive sum (so in particular for a
positive waiting time and a non-negative delay), `time()` after `evolve()` is strictly
greater than `time()` before it. -/
theorem evolve_time_forward (g : Gillespie) (d : Draw)
    (h : ∃ reaction ∈ g.reactions, 0 < reaction.rate g.particle_container)
    (hfinite : g.time_current ≠ ⊤)
    (hsum : 0 < d.waiting (g.reactions.map (fun reaction => reaction.rate g.particle_container)) +
      d.delay (d.waiting (g.reactions.map (fun reaction => reaction.rate g.particle_container)))) :
    g.time_current < (g.evolve d).time_current := by
  have hmax := max_element_rates_pos g h
  obtain ⟨t, ht⟩ := WithTop.ne_top_iff_exists.1 hfinite
  simp only [Gillespie.evolve, Gillespie.rates, hmax, if_false, Gillespie.pick_reaction,
    Gillespie.compute_time_next_reaction, Gillespie.react, ← ht]
  rw [add_assoc, ← WithTop.coe_add, ← WithTop.coe_add, WithTop.coe_lt_coe]
  linarith

theorem evolve_time_forward_witness :
    (∃ reaction ∈ (engine_2 [2, 3]).reactions,
        0 < reaction.rate (engine_2 [2, 3]).particle_container) ∧
      (engine_2 [2, 3]).time_current ≠ ⊤ ∧
      (engine_2 [2, 3]).time_current < ((engine_2 [2, 3]).evolve (draw_of 1 1)).time_current :=
  have h : ∃ reaction ∈ (engine_2 [2, 3]).reactions,
      0 < reaction.rate (engine_2 [2, 3]).particle_container := by
    simp [engine_2, engine_of, of_MassAction, stochastic.Reaction_MassAction.rate,
      stochastic.Reaction_MassAction.combinations, stochastic.Reaction_MassAction.make,
      stochastic.Reaction_MassAction.factor, stoichiometry_1, stoichiometry_2,
      stochastic.size_t_mul, stochastic.size_t_range, operation.factorial_incomplete,
      operation.factorial, Nat.descFactorial]
  have hfinite : (engine_2 [2, 3]).time_current ≠ ⊤ := by
    simp [engine_2, engine_of]
  ⟨h, hfinite, evolve_time_forward (engine_2 [2, 3]) (draw_of 1 1) h hfinite
    (by simp [draw_of])⟩


theorem more_than_one_reaction_iff (g : Gillespie) :
    g.more_than_one_reaction = true ↔ 2 ≤ g.reactions.length := by
  simp only [Gillespie.more_than_one_reaction, bne_iff_ne, ne_eq]
  omega

theorem pick_reaction_impl_eq (g : Gillespie) (d : Draw) :
    g.pick_reaction_impl d = if 2 ≤ g.reactions.length then d.pick g.rate_container else 0 := by
  unfold Gillespie.pick_reaction_impl
  by_cases hlen : 2 ≤ g.reactions.length
  · rw [if_pos ((more_than_one_reaction_iff g).2 hlen), if_pos hlen]
  · rw [if_neg (fun h => hlen ((more_than_one_reaction_iff g).1 h)), if_neg hlen]

/-- C4: when the maximum channel rate is non-zero, `evolve()` selects a channel (index 0
without a draw for a single reaction), draws the waiting time from the rates of the
incoming state and the delay from that waiting time, sets `time_next()` to the incoming
time plus waiting plus delay, applies the update of the selected channel to the incoming
particle numbers, and ends with `time() = time_next() = time_last()` and
`last() = next() =` the selected index. -/
theorem evolve_commits_selected (g : Gillespie) (d : Draw) (rates : List ℚ) (selected : Nat)
    (waiting delay : ℚ) (reaction : Reaction)
    (hrates : rates = g.reactions.map (fun reaction => reaction.rate g.particle_container))
    (hmax : max_element rates ≠ 0)
    (hselected : selected = if 2 ≤ g.reactions.length then d.pick rates else 0)
    (hwaiting : waiting = d.waiting rates)
    (hdelay : delay = d.delay waiting)
    (hreaction : g.reactions.get? selected = some reaction) :
    (g.evolve d).time_next_reaction = g.time_current + (waiting : Time) + (delay : Time) ∧
      (g.evolve d).particle_container = reaction.react g.particle_container ∧
      (g.evolve d).time_current = (g.evolve d).time_next_reaction ∧
      (g.evolve d).time_last_reaction = (g.evolve d).time_next_reaction ∧
      (g.evolve d).next_reaction = selected ∧
      (g.evolve d).last_reaction = selected ∧
      (g.evolve d).reacted = true := by
  subst hrates
  have hget : g.reactions[selected]? = some reaction := by
    rw [← List.get?_eq_getElem?]
    exact hreaction
  have hmax2 : ¬ max_element ({ g with reacted := false } : Gillespie).rates.rate_container = 0 :=
    hmax
  simp only [Gillespie.evolve, hmax2, if_false, Gillespie.pick_reaction,
    Gillespie.compute_time_next_reaction, Gillespie.react, pick_reaction_impl_eq]
  simp [Gillespie.rates, hwaiting, hdelay, ← hselected, hget]

theorem evolve_commits_selected_witness :
    max_element ((engine_2 [2, 3]).reactions.map
        (fun reaction => reaction.rate (engine_2 [2, 3]).particle_container)) ≠ 0 ∧
      ((engine_2 [2, 3]).evolve (draw_of 1 (1 / 4))).time_next_reaction = ((1 / 4 : ℚ) : Time) ∧
      ((engine_2 [2, 3]).evolve (draw_of 1 (1 / 4))).particle_container = [1, 4] ∧
      ((engine_2 [2, 3]).evolve (draw_of 1 (1 / 4))).next_reaction = 1 := by
  have hmax : max_element ((engine_2 [2, 3]).reactions.map
      (fun reaction => reaction.rate (engine_2 [2, 3]).particle_container)) ≠ 0 := by
    apply max_element_rates_pos
    simp [engine_2, engine_of, of_MassAction, stochastic.Reaction_MassAction.rate,
      stochastic.Reaction_MassAction.combinations, stochastic.Reaction_MassAction.make,
      stochastic.Reaction_MassAction.factor, stoichiometry_1, stoichiometry_2,
      stochastic.size_t_mul, stochastic.size_t_range, operation.factorial_incomplete,
      operation.factorial, Nat.descFactorial]
  have h := evolve_commits_selected (engine_2 [2, 3]) (draw_of 1 (1 / 4)) _ 1 (1 / 4) 0
    (of_MassAction (stochastic.Reaction_MassAction.make stoichiometry_2)) rfl hmax
    (by simp [engine_2, engine_of, draw_of]) (by simp [draw_of]) (by simp [draw_of])
    (by simp [engine_2, engine_of])
  refine ⟨hmax, ?_, ?_, h.2.2.2.2.1⟩
  · rw [h.1]
    simp [engine_2, engine_of]
  · rw [h.2.1]
    decide


/-! ## The bulk advance `evolve(time_max)` -/

theorem evolve_time_next_of_max_zero (g : Gillespie) (d : Draw)
    (h : max_element (g.reactions.map (fun reaction => reaction.rate g.particle_container)) = 0) :
    (g.evolve d).time_next_reaction = ⊤ := by
  simp [Gillespie.evolve, Gillespie.rates, h]

/-- A pass of the loop whose candidate time is before `time_max` leaves the engine as a
call of `evolve()` does and goes round again. -/
theorem evolve_loop_commit (time_max : Time) (fuel : Nat) (draws : Nat → Draw) (g : Gillespie)
    (h : (g.evolve (draws 0)).time_next_reaction < time_max) :
    Gillespie.evolve_loop time_max (fuel + 1) draws g =
      (Gillespie.evolve_loop time_max fuel (fun n => draws (n + 1)) (g.evolve (draws 0))).map
        (fun p => (p.1, p.2 + 1)) := by
  by_cases hmax : max_element (g.reactions.map (fun reaction => reaction.rate g.particle_container)) = 0
  · rw [evolve_time_next_of_max_zero g (draws 0) hmax] at h
    exact absurd h (not_top_lt)
  · have hmax1 : ¬ max_element g.rates.rate_container = 0 := hmax
    have ht : ((g.rates.pick_reaction (draws 0)).compute_time_next_reaction (draws 0)).time_next_reaction
        < time_max := by
      simpa [Gillespie.evolve, hmax, Gillespie.rates, Gillespie.pick_reaction,
        Gillespie.compute_time_next_reaction, Gillespie.react] using h
    have hstate : g.evolve (draws 0) =
        { ({ (g.rates.pick_reaction (draws 0)).compute_time_next_reaction (draws 0) with
              time_current := ((g.rates.pick_reaction (draws 0)).compute_time_next_reaction
                (draws 0)).time_next_reaction } : Gillespie).react
            ((g.rates.pick_reaction (draws 0)).compute_time_next_reaction (draws 0)).next_reaction
          with reacted := true } := by
      simp [Gillespie.evolve, hmax, Gillespie.rates, Gillespie.pick_reaction,
        Gillespie.compute_time_next_reaction, Gillespie.react, Gillespie.pick_reaction_impl,
        Gillespie.more_than_one_reaction]
    rw [Gillespie.evolve_loop]
    simp only [hmax1, if_false, ht, if_true]
    rw [hstate]

/-- A pass of the loop whose candidate time is not before `time_max` leaves the loop: the
time is pinned at `time_max` and no reaction is applied. -/
theorem evolve_loop_stop (time_max : Time) (fuel : Nat) (draws : Nat → Draw) (g : Gillespie)
    (h : ¬ (g.evolve (draws 0)).time_next_reaction < time_max) :
    ∃ g1 : Gillespie, Gillespie.evolve_loop time_max (fuel + 1) draws g = some (g1, 0) ∧
      g1.time_current = time_max ∧ g1.particle_container = g.particle_container ∧
      g1.time_last_reaction = g.time_last_reaction ∧ g1.reacted = g.reacted ∧
      g1.time_next_reaction = (g.evolve (draws 0)).time_next_reaction := by
  by_cases hmax : max_element (g.reactions.map (fun reaction => reaction.rate g.particle_container)) = 0
  · have hmax1 : max_element g.rates.rate_container = 0 := hmax
    refine ⟨{ ({ g.rates with time_next_reaction := ⊤ } : Gillespie) with time_current := time_max },
      ?_, rfl, rfl, rfl, rfl, ?_⟩
    · rw [Gillespie.evolve_loop]
      simp [hmax1]
    · rw [evolve_time_next_of_max_zero g (draws 0) hmax]
  · have hmax1 : ¬ max_element g.rates.rate_container = 0 := hmax
    have hnext : (g.evolve (draws 0)).time_next_reaction =
        ((g.rates.pick_reaction (draws 0)).compute_time_next_reaction (draws 0)).time_next_reaction := by
      simp [Gillespie.evolve, hmax, Gillespie.rates, Gillespie.pick_reaction,
        Gillespie.compute_time_next_reaction, Gillespie.react]
    refine ⟨{ (g.rates.pick_reaction (draws 0)).compute_time_next_reaction (draws 0) with
      time_current := time_max }, ?_, rfl, rfl, rfl, rfl, hnext.symm⟩
    rw [Gillespie.evolve_loop]
    rw [hnext] at h
    simp only [hmax1, if_false, h]

/-- The loop invariant behind C5: on leaving, the time is `time_max`; the last committed
reaction time is before `time_max` if a pass committed and is the incoming one if none did. -/
theorem evolve_loop_times (time_max : Time) (fuel : Nat) (draws : Nat → Draw) (g : Gillespie)
    (p : Gillespie × Nat) (h : Gillespie.evolve_loop time_max fuel draws g = some p) :
    p.1.time_current = time_max ∧
      (p.2 = 0 → p.1.time_last_reaction = g.time_last_reaction ∧ p.1.reacted = g.reacted) ∧
      (0 < p.2 → p.1.time_last_reaction < time_max ∧ p.1.reacted = true) := by
  induction fuel generalizing draws g p with
  | zero => simp [Gillespie.evolve_loop] at h
  | succ fuel ih =>
    by_cases hc : (g.evolve (draws 0)).time_next_reaction < time_max
    · rw [evolve_loop_commit time_max fuel draws g hc] at h
      obtain ⟨q, hq, hpq⟩ := Option.map_eq_some'.1 h
      subst hpq
      have hq2 := ih _ _ q hq
      have hmax : ¬ max_element
          (g.reactions.map (fun reaction => reaction.rate g.particle_container)) = 0 := by
        intro hz
        rw [evolve_time_next_of_max_zero g (draws 0) hz] at hc
        exact absurd hc not_top_lt
      have hlast : (g.evolve (draws 0)).time_last_reaction =
          (g.evolve (draws 0)).time_next_reaction ∧ (g.evolve (draws 0)).reacted = true := by
        simp [Gillespie.evolve, hmax, Gillespie.rates, Gillespie.pick_reaction,
          Gillespie.compute_time_next_reaction, Gillespie.react]
      refine ⟨hq2.1, fun h0 => absurd h0 (Nat.succ_ne_zero _), fun _ => ?_⟩
      rcases Nat.eq_zero_or_pos q.2 with hz | hpos
      · have := hq2.2.1 hz
        exact ⟨by rw [this.1, hlast.1]; exact hc, by rw [this.2, hlast.2]⟩
      · exact hq2.2.2 hpos
    · obtain ⟨g1, hg1, ht, _, hl, hr, _⟩ := evolve_loop_stop time_max fuel draws g hc
      rw [hg1] at h
      have hp : p = (g1, 0) := (Option.some.inj h).symm
      subst hp
      exact ⟨ht, fun _ => ⟨hl, hr⟩, fun h0 => absurd h0 (lt_irrefl 0)⟩


/-- The loop commits the longest prefix of the `evolve()` reactions whose times are all
before `time_max`: if the first `m` are and the next one is not, `m + 1` passes leave the
loop with `m` commits and the particle numbers of `m` calls of `evolve()`. -/
theorem evolve_loop_commits_leading (time_max : Time) (m : Nat) (draws : Nat → Draw) (g : Gillespie)
    (hbefore : ∀ j < m, (Gillespie.evolve_n (j + 1) draws g).time_next_reaction < time_max)
    (hstop : ¬ (Gillespie.evolve_n (m + 1) draws g).time_next_reaction < time_max) :
    ∃ g1 : Gillespie, Gillespie.evolve_loop time_max (m + 1) draws g = some (g1, m) ∧
      g1.particle_container = (Gillespie.evolve_n m draws g).particle_container := by
  induction m generalizing draws g with
  | zero =>
    obtain ⟨g1, hg1, _, hp, _⟩ := evolve_loop_stop time_max 0 draws g hstop
    exact ⟨g1, hg1, hp⟩
  | succ m ih =>
    have hc : (g.evolve (draws 0)).time_next_reaction < time_max := hbefore 0 (Nat.succ_pos m)
    obtain ⟨g1, hg1, hp⟩ := ih (fun n => draws (n + 1)) (g.evolve (draws 0))
      (fun j hj => hbefore (j + 1) (Nat.succ_lt_succ hj)) hstop
    refine ⟨g1, ?_, hp⟩
    rw [evolve_loop_commit time_max (m + 1) draws g hc, hg1]
    rfl

theorem evolve_n_reset (n : Nat) (draws : Nat → Draw) (g : Gillespie) :
    (Gillespie.evolve_n n draws { g with reacted := false }).particle_container =
        (Gillespie.evolve_n n draws g).particle_container ∧
      (Gillespie.evolve_n n draws { g with reacted := false }).time_next_reaction =
        (Gillespie.evolve_n n draws g).time_next_reaction := by
  cases n with
  | zero => exact ⟨rfl, rfl⟩
  | succ n => exact ⟨rfl, rfl⟩

/-- C5: when `evolve(time_max)` returns, `time()` is not greater than `time_max` (it is
equal to it), and if at least one reaction was committed during the call then
`time_last()` is strictly less than `time_max`. -/
theorem evolve_time_max_bound (g : Gillespie) (time_max : Time) (fuel : Nat) (draws : Nat → Draw)
    (p : Gillespie × Nat) (h : g.evolve_time_max time_max fuel draws = some p) :
    p.1.time_current ≤ time_max ∧ (0 < p.2 → p.1.time_last_reaction < time_max) := by
  have hloop := evolve_loop_times time_max fuel draws _ p h
  exact ⟨le_of_eq hloop.1, fun hpos => (hloop.2.2 hpos).1⟩

/-- C6: when all channel rates are zero, `evolve(time_max)` terminates after a single pass
of its loop without committing a reaction, with `time()` equal to `time_max`,
`time_next()` equal to `+infinity`, `reaction()` false and the particle numbers unchanged. -/
theorem evolve_time_max_all_rates_zero (g : Gillespie) (time_max : Time) (draws : Nat → Draw)
    (h : ∀ reaction ∈ g.reactions, reaction.rate g.particle_container = 0) :
    ∃ g1 : Gillespie, g.evolve_time_max time_max 1 draws = some (g1, 0) ∧
      g1.time_current = time_max ∧ g1.time_next_reaction = ⊤ ∧ g1.reacted = false ∧
      g1.particle_container = g.particle_container := by
  have hmax := max_element_rates_zero g h
  have hstop : ¬ (({ g with reacted := false } : Gillespie).evolve (draws 0)).time_next_reaction
      < time_max := by
    rw [evolve_time_next_of_max_zero { g with reacted := false } (draws 0) hmax]
    exact not_top_lt
  obtain ⟨g1, hg1, ht, hp, _, hr, hn⟩ := evolve_loop_stop time_max 0 draws _ hstop
  refine ⟨g1, hg1, ht, ?_, hr, hp⟩
  rw [hn]
  exact evolve_time_next_of_max_zero { g with reacted := false } (draws 0) hmax

/-- C7: for the same initial engine and the same draws, if the first `m` reactions that
successive `evolve()` calls commit have times strictly less than `time_max` and the next
candidate has not, then `evolve(time_max)` returns after `m + 1` passes having committed
exactly those `m` reactions: the particle numbers are those after `m` calls of `evolve()`
and the next candidate is not applied. -/
theorem evolve_time_max_commits_leading (g : Gillespie) (time_max : Time) (m : Nat)
    (draws : Nat → Draw)
    (hbefore : ∀ j < m, (Gillespie.evolve_n (j + 1) draws g).time_next_reaction < time_max)
    (hstop : ¬ (Gillespie.evolve_n (m + 1) draws g).time_next_reaction < time_max) :
    ∃ g1 : Gillespie, g.evolve_time_max time_max (m + 1) draws = some (g1, m) ∧
      g1.particle_container = (Gillespie.evolve_n m draws g).particle_container := by
  obtain ⟨g1, hg1, hp⟩ := evolve_loop_commits_leading time_max m draws { g with reacted := false }
    (fun j hj => by rw [(evolve_n_reset (j + 1) draws g).2]; exact hbefore j hj)
    (by rw [(evolve_n_reset (m + 1) draws g).2]; exact hstop)
  exact ⟨g1, hg1, by rw [hp, (evolve_n_reset m draws g).1]⟩


/-! ### A run of the engine of `batch_delay.cpp` from `[2, 2]` with unit waiting times -/

theorem rate_stoichiometry_1 (a b : Nat) :
    (stochastic.Reaction_MassAction.make stoichiometry_1).rate [a, b] =
      ((a * b % 2 ^ 64 : Nat) : ℚ) := by
  have hc : (stochastic.Reaction_MassAction.make stoichiometry_1).combinations [a, b] =
      stochastic.size_t_mul (stochastic.size_t_mul 1 (Nat.descFactorial a 1))
        (Nat.descFactorial b 1) := rfl
  have hs : (stochastic.Reaction_MassAction.make stoichiometry_1).reaction_rate_scaled = 1 := by
    simp [stochastic.Reaction_MassAction.make, stochastic.Reaction_MassAction.factor,
      stoichiometry_1, operation.factorial]
  rw [stochastic.Reaction_MassAction.rate, hc, hs, one_mul]
  simp only [stochastic.size_t_mul, stochastic.size_t_range, Nat.descFactorial_one, one_mul,
    Nat.mod_mul_mod]

theorem react_stoichiometry_1_two :
    (stochastic.Reaction_MassAction.make stoichiometry_1).react [2, 2] = [1, 1] := by
  decide

theorem react_stoichiometry_1_one :
    (stochastic.Reaction_MassAction.make stoichiometry_1).react [1, 1] = [0, 0] := by
  decide

theorem evolve_engine_1_first :
    (engine_1 [2, 2]).evolve (draw_of 0 1) =
      { engine_1 [1, 1] with
        time_current := 1, time_last_reaction := 1, time_next_reaction := 1, reacted := true,
        rate_container := [4] } := by
  simp [Gillespie.evolve, Gillespie.rates, engine_1, engine_of, of_MassAction,
    rate_stoichiometry_1, max_element, Gillespie.pick_reaction,
    Gillespie.compute_time_next_reaction, Gillespie.react, draw_of, Gillespie.pick_reaction_impl,
    Gillespie.more_than_one_reaction, react_stoichiometry_1_two]

theorem evolve_engine_1_second :
    (({ engine_1 [1, 1] with
        time_current := 1, time_last_reaction := 1, time_next_reaction := 1, reacted := true,
        rate_container := [4] } : Gillespie).evolve (draw_of 0 1)).time_next_reaction = 2 := by
  simp [Gillespie.evolve, Gillespie.rates, engine_1, engine_of, of_MassAction,
    rate_stoichiometry_1, max_element, Gillespie.pick_reaction,
    Gillespie.compute_time_next_reaction, Gillespie.react, draw_of, Gillespie.pick_reaction_impl,
    Gillespie.more_than_one_reaction, react_stoichiometry_1_one]
  norm_num

theorem engine_1_before : ∀ j < 1,
    (Gillespie.evolve_n (j + 1) (fun _ => draw_of 0 1) (engine_1 [2, 2])).time_next_reaction
      < ((3 / 2 : ℚ) : Time) := by
  intro j hj
  obtain rfl : j = 0 := by omega
  show ((engine_1 [2, 2]).evolve (draw_of 0 1)).time_next_reaction < ((3 / 2 : ℚ) : Time)
  rw [evolve_engine_1_first]
  show ((1 : ℚ) : Time) < ((3 / 2 : ℚ) : Time)
  rw [WithTop.coe_lt_coe]
  norm_num

theorem engine_1_stop :
    ¬ (Gillespie.evolve_n 2 (fun _ => draw_of 0 1) (engine_1 [2, 2])).time_next_reaction
      < ((3 / 2 : ℚ) : Time) := by
  show ¬ (((engine_1 [2, 2]).evolve (draw_of 0 1)).evolve (draw_of 0 1)).time_next_reaction
    < ((3 / 2 : ℚ) : Time)
  rw [evolve_engine_1_first, evolve_engine_1_second, not_lt]
  show ((3 / 2 : ℚ) : Time) ≤ ((2 : ℚ) : Time)
  rw [WithTop.coe_le_coe]
  norm_num

theorem engine_1_run :
    ∃ g1 : Gillespie, (engine_1 [2, 2]).evolve_time_max ((3 / 2 : ℚ) : Time) 2
      (fun _ => draw_of 0 1) = some (g1, 1) := by
  obtain ⟨g1, hg1, _⟩ := evolve_loop_commits_leading ((3 / 2 : ℚ) : Time) 1 (fun _ => draw_of 0 1)
    { engine_1 [2, 2] with reacted := false } engine_1_before engine_1_stop
  exact ⟨g1, hg1⟩

theorem evolve_time_max_bound_witness :
    ∃ p : Gillespie × Nat,
      (engine_1 [2, 2]).evolve_time_max ((3 / 2 : ℚ) : Time) 2 (fun _ => draw_of 0 1) = some p ∧
      0 < p.2 ∧ p.1.time_current ≤ ((3 / 2 : ℚ) : Time) ∧
      p.1.time_last_reaction < ((3 / 2 : ℚ) : Time) := by
  obtain ⟨g1, hg1⟩ := engine_1_run
  have h := evolve_time_max_bound (engine_1 [2, 2]) ((3 / 2 : ℚ) : Time) 2
    (fun _ => draw_of 0 1) (g1, 1) hg1
  exact ⟨(g1, 1), hg1, Nat.one_pos, h.1, h.2 Nat.one_pos⟩

theorem evolve_time_max_all_rates_zero_witness :
    (∀ reaction ∈ (engine_1 [0, 3]).reactions,
        reaction.rate (engine_1 [0, 3]).particle_container = 0) ∧
      ∃ g1 : Gillespie,
        (engine_1 [0, 3]).evolve_time_max 5 1 (fun _ => draw_of 0 1) = some (g1, 0) ∧
        g1.time_current = 5 ∧ g1.time_next_reaction = ⊤ ∧ g1.reacted = false ∧
        g1.particle_container = (engine_1 [0, 3]).particle_container :=
  have h : ∀ reaction ∈ (engine_1 [0, 3]).reactions,
      reaction.rate (engine_1 [0, 3]).particle_container = 0 := by
    simp [engine_1, engine_of, of_MassAction, rate_stoichiometry_1]
  ⟨h, evolve_time_max_all_rates_zero (engine_1 [0, 3]) 5 (fun _ => draw_of 0 1) h⟩

theorem evolve_time_max_commits_leading_witness :
    (∀ j < 1,
        (Gillespie.evolve_n (j + 1) (fun _ => draw_of 0 1) (engine_1 [2, 2])).time_next_reaction
          < ((3 / 2 : ℚ) : Time)) ∧
      (¬ (Gillespie.evolve_n 2 (fun _ => draw_of 0 1) (engine_1 [2, 2])).time_next_reaction
          < ((3 / 2 : ℚ) : Time)) ∧
      ∃ g1 : Gillespie,
        (engine_1 [2, 2]).evolve_time_max ((3 / 2 : ℚ) : Time) 2 (fun _ => draw_of 0 1)
          = some (g1, 1) ∧
        g1.particle_container =
          (Gillespie.evolve_n 1 (fun _ => draw_of 0 1) (engine_1 [2, 2])).particle_container :=
  ⟨engine_1_before, engine_1_stop,
    evolve_time_max_commits_leading (engine_1 [2, 2]) ((3 / 2 : ℚ) : Time) 1
      (fun _ => draw_of 0 1) engine_1_before engine_1_stop⟩

end gillespie

/-! ## Mass-action channels -/

namespace stochastic

theorem foldl_size_t_mul_mod (f : Nat × Nat → Nat) (l : List (Nat × Nat)) (c : Nat) :
    (l.foldl (fun c sto => size_t_mul c (f sto)) c) % size_t_range =
      (c * (l.map f).prod) % size_t_range := by
  induction l generalizing c with
  | nil => simp
  | cons x xs ih =>
    rw [List.foldl_cons, ih, List.map_cons, List.prod_cons, size_t_mul, Nat.mod_mul_mod,
      Nat.mul_assoc]

theorem foldl_size_t_mul_lt (f : Nat × Nat → Nat) (l : List (Nat × Nat)) (c : Nat)
    (hc : c < size_t_range) :
    l.foldl (fun c sto => size_t_mul c (f sto)) c < size_t_range := by
  induction l generalizing c with
  | nil => exact hc
  | cons x xs ih =>
    rw [List.foldl_cons]
    exact ih _ (Nat.mod_lt _ (by decide))

/-- The `std::size_t` product of the discrete `rate` is the product of the falling
factorials reduced modulo `2 ^ 64`. -/
theorem combinations_eq (r : Reaction_MassAction) (numbers : List Nat) :
    r.combinations numbers =
      (r.stoichiometry.reactants.map
        (fun sto => Nat.descFactorial (numbers.getD sto.1 0) sto.2)).prod % 2 ^ 64 := by
  have hlt := foldl_size_t_mul_lt
    (fun sto => operation.factorial_incomplete (numbers.getD sto.1 0) sto.2)
    r.stoichiometry.reactants 1 (by decide)
  have hmod := foldl_size_t_mul_mod
    (fun sto => operation.factorial_incomplete (numbers.getD sto.1 0) sto.2)
    r.stoichiometry.reactants 1
  rw [Nat.mod_eq_of_lt hlt, one_mul] at hmod
  exact hmod

theorem factor_eq (stoichiometry : Stoichiometry) :
    Reaction_MassAction.factor stoichiometry =
      (((stoichiometry.reactants.map (fun sto => Nat.factorial sto.2)).prod : Nat) : ℚ) := by
  have h : ∀ (l : List (Nat × Nat)) (c : ℚ),
      l.foldl (fun factor react => factor * (operation.factorial react.2 : ℚ)) c =
        c * (((l.map (fun sto => Nat.factorial sto.2)).prod : Nat) : ℚ) := by
    intro l
    induction l with
    | nil => intro c; simp
    | cons x xs ih =>
      intro c
      rw [List.foldl_cons, ih, List.map_cons, List.prod_cons, Nat.cast_mul, operation.factorial,
        mul_assoc]
  rw [Reaction_MassAction.factor, h, one_mul]

/-- C8: if some reactant's count is smaller than its stoichiometric coefficient, the
discrete `rate` is exactly 0 (with `operation::factorial_incomplete` the falling
factorial). -/
theorem rate_zero_of_insufficient (r : Reaction_MassAction) (numbers : List Nat)
    (h : ∃ sto ∈ r.stoichiometry.reactants, numbers.getD sto.1 0 < sto.2) :
    r.rate numbers = 0 := by
  obtain ⟨sto, hmem, hlt⟩ := h
  have hzero : (r.stoichiometry.reactants.map
      (fun sto => Nat.descFactorial (numbers.getD sto.1 0) sto.2)).prod = 0 := by
    apply List.prod_eq_zero
    exact List.mem_map.2 ⟨sto, hmem, Nat.descFactorial_eq_zero_iff_lt.2 hlt⟩
  rw [Reaction_MassAction.rate, combinations_eq, hzero]
  simp

theorem rate_zero_of_insufficient_witness :
    (∃ sto ∈ (Reaction_MassAction.make stoichiometry_pair).stoichiometry.reactants,
        ([1] : List Nat).getD sto.1 0 < sto.2) ∧
      (Reaction_MassAction.make stoichiometry_pair).rate [1] = 0 :=
  have h : ∃ sto ∈ (Reaction_MassAction.make stoichiometry_pair).stoichiometry.reactants,
      ([1] : List Nat).getD sto.1 0 < sto.2 := ⟨(0, 2), by decide, by decide⟩
  ⟨h, rate_zero_of_insufficient (Reaction_MassAction.make stoichiometry_pair) [1] h⟩

/-- C9, as stated, fails: for `2 A -> (nothing)` with base rate 1 the scaled rate is `1/2`
and in state `[2]` the code returns `1/2 * (2 * 1) = 1`, whereas the binomial coefficient
`C(2, 2) = 1` times the scaled rate is `1/2`. -/
theorem rate_ne_binomial_scaled :
    (Reaction_MassAction.make stoichiometry_pair).reaction_rate_scaled = 1 / 2 ∧
      (Reaction_MassAction.make stoichiometry_pair).rate [2] = 1 ∧
      (Reaction_MassAction.make stoichiometry_pair).rate_binomial_scaled [2] = 1 / 2 ∧
      (Reaction_MassAction.make stoichiometry_pair).rate [2] ≠
        (Reaction_MassAction.make stoichiometry_pair).rate_binomial_scaled [2] := by
  have hs : (Reaction_MassAction.make stoichiometry_pair).reaction_rate_scaled = 1 / 2 := by
    simp [Reaction_MassAction.make, Reaction_MassAction.factor, stoichiometry_pair,
      operation.factorial]
  have hc : (Reaction_MassAction.make stoichiometry_pair).combinations [2] = 2 := by decide
  have hr : (Reaction_MassAction.make stoichiometry_pair).rate [2] = 1 := by
    rw [Reaction_MassAction.rate, hc, hs]
    norm_num
  have hb : (Reaction_MassAction.make stoichiometry_pair).rate_binomial_scaled [2] = 1 / 2 := by
    have hp : ((Reaction_MassAction.make stoichiometry_pair).stoichiometry.reactants.map
        (fun sto => Nat.choose (([2] : List Nat).getD sto.1 0) sto.2)).prod = 1 := by decide
    rw [Reaction_MassAction.rate_binomial_scaled, hp, hs]
    norm_num
  refine ⟨hs, hr, hb, ?_⟩
  rw [hr, hb]
  norm_num

/-- C9, amended: the discrete `rate` is the scaled rate, which is the base rate divided
by the product of the reactant coefficients' factorials, times the product over the
reactants of `coefficient! * C(numbers[species], coefficient)` (the falling factorial),
that product being reduced modulo `2 ^ 64`. -/
theorem rate_eq_scaled_mul_falling (stoichiometry : Stoichiometry) (numbers : List Nat) :
    (Reaction_MassAction.make stoichiometry).reaction_rate_scaled =
        stoichiometry.reaction_rate /
          (((stoichiometry.reactants.map (fun sto => Nat.factorial sto.2)).prod : Nat) : ℚ) ∧
      (Reaction_MassAction.make stoichiometry).rate numbers =
        (Reaction_MassAction.make stoichiometry).reaction_rate_scaled *
          (((stoichiometry.reactants.map
              (fun sto => Nat.factorial sto.2 * Nat.choose (numbers.getD sto.1 0) sto.2)).prod
            % 2 ^ 64 : Nat) : ℚ) := by
  constructor
  · show stoichiometry.reaction_rate / Reaction_MassAction.factor stoichiometry = _
    rw [factor_eq]
  · rw [Reaction_MassAction.rate, combinations_eq]
    have hfun : (fun sto : Nat × Nat => Nat.descFactorial (numbers.getD sto.1 0) sto.2) =
        (fun sto => Nat.factorial sto.2 * Nat.choose (numbers.getD sto.1 0) sto.2) := by
      funext sto
      exact Nat.descFactorial_eq_factorial_mul_choose _ _
    show _ * ((((Reaction_MassAction.make stoichiometry).stoichiometry.reactants.map _).prod
      % 2 ^ 64 : Nat) : ℚ) = _
    rw [hfun]
    rfl


/-- A loop `numbers[sto.first] = f(numbers[sto.first], sto.second)` over a side whose
species indices are pairwise distinct updates every listed species once. -/
theorem foldl_set_getD (f : Nat → Nat → Nat) (side : List (Nat × Nat)) (numbers : List Nat)
    (hnodup : (side.map Prod.fst).Nodup) :
    (side.foldl (fun numbers sto => numbers.set sto.1 (f (numbers.getD sto.1 0) sto.2))
        numbers).length = numbers.length ∧
      ∀ s < numbers.length,
        (side.foldl (fun numbers sto => numbers.set sto.1 (f (numbers.getD sto.1 0) sto.2))
            numbers).getD s 0 =
          match side.lookup s with
          | some k => f (numbers.getD s 0) k
          | none => numbers.getD s 0 := by
  induction side generalizing numbers with
  | nil => exact ⟨rfl, fun s _ => rfl⟩
  | cons x xs ih =>
    obtain ⟨i, k⟩ := x
    rw [List.map_cons, List.nodup_cons] at hnodup
    obtain ⟨hlen, hget⟩ := ih (numbers.set i (f (numbers.getD i 0) k)) hnodup.2
    rw [List.length_set] at hlen hget
    refine ⟨hlen, fun s hs => ?_⟩
    rw [List.foldl_cons, hget s hs, List.lookup_cons]
    by_cases hsi : s = i
    · subst hsi
      have hnone : xs.lookup s = none := by
        rw [List.lookup_eq_none_iff]
        intro p hp
        have hmem : p.1 ∈ xs.map Prod.fst := List.mem_map.2 ⟨p, hp, rfl⟩
        have hne : s ≠ p.1 := fun h => hnodup.1 (h ▸ hmem)
        simpa using hne
      have hv : (numbers.set s (f (numbers.getD s 0) k)).getD s 0 = f (numbers.getD s 0) k := by
        rw [List.getD_eq_getElem?_getD, List.getElem?_set_self hs]
        rfl
      rw [hnone, hv]
      simp
    · have hbeq : (s == i) = false := by simpa using hsi
      have hne : i ≠ s := fun h => hsi h.symm
      have hv : (numbers.set i (f (numbers.getD i 0) k)).getD s 0 = numbers.getD s 0 := by
        rw [List.getD_eq_getElem?_getD, List.getElem?_set_ne hne, ← List.getD_eq_getElem?_getD]
      rw [hbeq, hv]


theorem mem_of_lookup_eq_some (side : List (Nat × Nat)) (s k : Nat)
    (h : side.lookup s = some k) : (s, k) ∈ side := by
  induction side with
  | nil => simp at h
  | cons x xs ih =>
    obtain ⟨i, c⟩ := x
    rw [List.lookup_cons] at h
    by_cases hsi : s = i
    · subst hsi
      simp only [beq_self_eq_true, Option.some.injEq] at h
      subst h
      exact List.mem_cons_self _ _
    · have hbeq : (s == i) = false := by simpa using hsi
      rw [hbeq] at h
      exact List.mem_cons_of_mem _ (ih h)

theorem getD_lt_of_forall_lt (numbers : List Nat) (bound s : Nat) (hs : s < numbers.length)
    (h : ∀ n ∈ numbers, n < bound) : numbers.getD s 0 < bound := by
  rw [List.getD_eq_getElem?_getD, List.getElem?_eq_getElem hs]
  exact h _ (List.getElem_mem hs)

/-- C10, as stated, fails: `(nothing) -> A` applied to the count `2 ^ 64 - 1` leaves the
count 0, not `2 ^ 64 - 1 - 0 + 1`. -/
theorem react_count_wraps :
    ((Reaction_MassAction.make stoichiometry_birth).stoichiometry.reactants.map Prod.fst).Nodup ∧
      ((Reaction_MassAction.make stoichiometry_birth).stoichiometry.products.map Prod.fst).Nodup ∧
      (∀ sto ∈ (Reaction_MassAction.make stoichiometry_birth).stoichiometry.reactants,
        sto.2 ≤ ([18446744073709551615] : List Nat).getD sto.1 0) ∧
      (Reaction_MassAction.make stoichiometry_birth).react [18446744073709551615] = [0] ∧
      ¬ (∀ s < 1,
        ((Reaction_MassAction.make stoichiometry_birth).react [18446744073709551615]).getD s 0 =
          ([18446744073709551615] : List Nat).getD s 0 -
            coefficient (Reaction_MassAction.make stoichiometry_birth).stoichiometry.reactants s +
            coefficient (Reaction_MassAction.make stoichiometry_birth).stoichiometry.products s) := by
  refine ⟨by decide, by decide, by decide, by decide, ?_⟩
  intro h
  have h0 := h 0 Nat.one_pos
  revert h0
  decide

/-- C10, amended: for pairwise distinct reactant indices, pairwise distinct product
indices and a state of `std::size_t` counts in which each reactant's count is at least its
coefficient, the discrete `react` leaves the number of species unchanged and sets the
count of every species `s` to `old(s) - reactant_coefficient(s) + product_coefficient(s)`
reduced modulo `2 ^ 64` (a species absent from a side contributing 0 for that side). -/
theorem react_counts_mod (r : Reaction_MassAction) (numbers : List Nat)
    (hreactants : (r.stoichiometry.reactants.map Prod.fst).Nodup)
    (hproducts : (r.stoichiometry.products.map Prod.fst).Nodup)
    (hsize : ∀ n ∈ numbers, n < 2 ^ 64)
    (hge : ∀ sto ∈ r.stoichiometry.reactants, sto.2 ≤ numbers.getD sto.1 0) :
    (r.react numbers).length = numbers.length ∧
      ∀ s < numbers.length,
        (r.react numbers).getD s 0 =
          (numbers.getD s 0 - coefficient r.stoichiometry.reactants s +
            coefficient r.stoichiometry.products s) % 2 ^ 64 := by
  obtain ⟨hlen1, hget1⟩ := foldl_set_getD size_t_sub r.stoichiometry.reactants numbers hreactants
  obtain ⟨hlen2, hget2⟩ := foldl_set_getD size_t_add r.stoichiometry.products
    (Reaction_MassAction.react_reactants r.stoichiometry.reactants numbers) hproducts
  have hlen1b : (Reaction_MassAction.react_reactants r.stoichiometry.reactants numbers).length =
      numbers.length := hlen1
  refine ⟨?_, fun s hs => ?_⟩
  · show (Reaction_MassAction.react_products r.stoichiometry.products
      (Reaction_MassAction.react_reactants r.stoichiometry.reactants numbers)).length = _
    rw [← hlen1b]
    exact hlen2
  · have h2 := hget2 s (by rw [hlen1b]; exact hs)
    have h1 : (Reaction_MassAction.react_reactants r.stoichiometry.reactants numbers).getD s 0 =
        match r.stoichiometry.reactants.lookup s with
        | some k => size_t_sub (numbers.getD s 0) k
        | none => numbers.getD s 0 := hget1 s hs
    have hn : numbers.getD s 0 < 2 ^ 64 := getD_lt_of_forall_lt numbers _ s hs hsize
    show (Reaction_MassAction.react_products r.stoichiometry.products
      (Reaction_MassAction.react_reactants r.stoichiometry.reactants numbers)).getD s 0 = _
    rw [Reaction_MassAction.react_products, h2, h1]
    simp only [coefficient]
    cases hr : r.stoichiometry.reactants.lookup s with
    | none =>
      cases hp : r.stoichiometry.products.lookup s with
      | none =>
        simp only [Option.getD_none, Nat.sub_zero, Nat.add_zero]
        exact (Nat.mod_eq_of_lt hn).symm
      | some c =>
        simp only [Option.getD_none, Option.getD_some, Nat.sub_zero, size_t_add, size_t_range]
    | some k =>
      have hk : k ≤ numbers.getD s 0 :=
        hge (s, k) (mem_of_lookup_eq_some _ s k hr)
      have hsub : size_t_sub (numbers.getD s 0) k = numbers.getD s 0 - k := by
        simp only [size_t_sub, size_t_range]
        omega
      cases hp : r.stoichiometry.products.lookup s with
      | none =>
        simp only [Option.getD_none, Option.getD_some, Nat.add_zero, hsub]
        omega
      | some c =>
        simp only [Option.getD_some, hsub, size_t_add, size_t_range]

theorem react_counts_mod_witness :
    ((Reaction_MassAction.make stoichiometry_header).stoichiometry.reactants.map Prod.fst).Nodup ∧
      ((Reaction_MassAction.make stoichiometry_header).stoichiometry.products.map Prod.fst).Nodup ∧
      (∀ n ∈ ([1, 0, 3, 0] : List Nat), n < 2 ^ 64) ∧
      (∀ sto ∈ (Reaction_MassAction.make stoichiometry_header).stoichiometry.reactants,
        sto.2 ≤ ([1, 0, 3, 0] : List Nat).getD sto.1 0) ∧
      (Reaction_MassAction.make stoichiometry_header).react [1, 0, 3, 0] = [2, 0, 0, 1] ∧
      ((Reaction_MassAction.make stoichiometry_header).react [1, 0, 3, 0]).length =
        ([1, 0, 3, 0] : List Nat).length ∧
      ∀ s < ([1, 0, 3, 0] : List Nat).length,
        ((Reaction_MassAction.make stoichiometry_header).react [1, 0, 3, 0]).getD s 0 =
          (([1, 0, 3, 0] : List Nat).getD s 0 -
            coefficient (Reaction_MassAction.make stoichiometry_header).stoichiometry.reactants s +
            coefficient (Reaction_MassAction.make stoichiometry_header).stoichiometry.products s)
            % 2 ^ 64 :=
  ⟨by decide, by decide, by decide, by decide, by decide,
    react_counts_mod (Reaction_MassAction.make stoichiometry_header) [1, 0, 3, 0]
      (by decide) (by decide) (by decide) (by decide)⟩

end stochastic

/-! ## Waiting-time and delay functors -/

namespace gillespie

/-- C16: for a rate vector with positive sum `WaitingTime_Exponential` returns the unit
exponential draw divided by the sum of the rates, whatever its reaction-index argument,
and for a fixed draw multiplying every rate by `c > 0` divides the result by `c`. -/
theorem WaitingTime_Exponential_scaling (dist : ℚ) (rates : List ℚ) (reaction other : Nat)
    (c : ℚ) (hsum : 0 < rates.sum) (hc : 0 < c) :
    WaitingTime_Exponential dist rates reaction = dist / rates.sum ∧
      WaitingTime_Exponential dist rates other = WaitingTime_Exponential dist rates reaction ∧
      WaitingTime_Exponential dist (rates.map (fun rate => c * rate)) reaction =
        WaitingTime_Exponential dist rates reaction / c := by
  refine ⟨rfl, rfl, ?_⟩
  have hmap : (rates.map (fun rate => c * rate)).sum = c * rates.sum := by
    simpa using List.sum_map_mul_left rates (fun rate => rate) c
  have hsum0 : rates.sum ≠ 0 := ne_of_gt hsum
  have hc0 : c ≠ 0 := ne_of_gt hc
  simp only [WaitingTime_Exponential, operation.sum, hmap]
  rw [div_div, div_eq_div_iff (mul_ne_zero hc0 hsum0) (mul_ne_zero hsum0 hc0)]
  ring

theorem WaitingTime_Exponential_scaling_witness :
    (0 : ℚ) < ([1, 3] : List ℚ).sum ∧ (0 : ℚ) < 2 ∧
      WaitingTime_Exponential 6 [1, 3] 0 = 6 / ([1, 3] : List ℚ).sum ∧
      WaitingTime_Exponential 6 [1, 3] 1 = WaitingTime_Exponential 6 [1, 3] 0 ∧
      WaitingTime_Exponential 6 (([1, 3] : List ℚ).map (fun rate => 2 * rate)) 0 =
        WaitingTime_Exponential 6 [1, 3] 0 / 2 :=
  have hsum : (0 : ℚ) < ([1, 3] : List ℚ).sum := by norm_num
  have hc : (0 : ℚ) < 2 := by norm_num
  ⟨hsum, hc, WaitingTime_Exponential_scaling 6 [1, 3] 0 1 2 hsum hc⟩

end gillespie
namespace stochastic

theorem DelayTime_Compound_loop (waiting_process : Nat → ℚ) (number : Nat) :
    (List.range number).foldl
        (fun (state : ℚ × Nat) _ => (state.1 + waiting_process state.2, state.2 + 1)) (0, 0) =
      (((List.range number).map waiting_process).sum, number) := by
  induction number with
  | zero => rfl
  | succ n ih =>
    rw [List.range_succ, List.foldl_append, ih, List.map_append, List.sum_append]
    simp

/-- C17: if the number process returns `N` and the waiting process then yields
`w_1, ..., w_N` (calls 0 to `N - 1`), `DelayTime_Compound` returns `w_1 + ... + w_N` after
exactly `N` calls of the waiting process; for `N = 0` it returns 0 after no call. -/
theorem DelayTime_Compound_sum (number_process : ℚ → Nat) (waiting_process : Nat → ℚ)
    (time : ℚ) :
    DelayTime_Compound number_process waiting_process time =
        (((List.range (number_process time)).map waiting_process).sum, number_process time) ∧
      (number_process time = 0 →
        DelayTime_Compound number_process waiting_process time = (0, 0)) := by
  have h := DelayTime_Compound_loop waiting_process (number_process time)
  refine ⟨h, fun h0 => ?_⟩
  show (List.range (number_process time)).foldl _ (0, 0) = (0, 0)
  rw [h0]
  rfl

theorem DelayTime_Compound_sum_witness :
    DelayTime_Compound (fun _ => 3) (fun j => (j : ℚ) + 1) 5 = (6, 3) ∧
      DelayTime_Compound (fun _ => 0) (fun j => (j : ℚ) + 1) 5 = (0, 0) := by
  refine ⟨?_, (DelayTime_Compound_sum (fun _ => 0) (fun j => (j : ℚ) + 1) 5).2 rfl⟩
  rw [(DelayTime_Compound_sum (fun _ => 3) (fun j => (j : ℚ) + 1) 5).1]
  norm_num [List.range_succ]

/-- C18: `DelayTime_CompoundExponential` returns exactly 0, without a gamma draw, when its
number process returns 0, and otherwise one draw of the gamma distribution of shape `N`
and scale `mu`, the configured scale; the member `gamma` plays no part. -/
theorem DelayTime_CompoundExponential_cases (number_process : ℚ → Nat)
    (gamma_distribution : ℚ → ℚ → ℚ) (gamma mu time : ℚ) :
    (number_process time = 0 →
        DelayTime_CompoundExponential number_process gamma_distribution gamma mu time = (0, 0)) ∧
      (number_process time ≠ 0 →
        DelayTime_CompoundExponential number_process gamma_distribution gamma mu time =
          (gamma_distribution (number_process time : ℚ) mu, 1)) ∧
      ∀ other : ℚ,
        DelayTime_CompoundExponential number_process gamma_distribution other mu time =
          DelayTime_CompoundExponential number_process gamma_distribution gamma mu time := by
  refine ⟨fun h0 => ?_, fun hne => ?_, fun _ => rfl⟩
  · simp [DelayTime_CompoundExponential, h0]
  · simp [DelayTime_CompoundExponential, hne]

theorem DelayTime_CompoundExponential_cases_witness :
    DelayTime_CompoundExponential (fun _ => 0) (fun shape scale => shape * scale) 7 2 5 = (0, 0) ∧
      DelayTime_CompoundExponential (fun _ => 3) (fun shape scale => shape * scale) 7 2 5 =
        ((fun shape scale : ℚ => shape * scale) ((3 : Nat) : ℚ) 2, 1) :=
  ⟨(DelayTime_CompoundExponential_cases (fun _ => 0) (fun shape scale => shape * scale) 7 2 5).1
      rfl,
    (DelayTime_CompoundExponential_cases (fun _ => 3) (fun shape scale => shape * scale) 7 2
      5).2.1 (by decide)⟩

/-- C19: when its number process returns `N > 0`, `DelayTime_CompoundSkewedLevyStable`
returns one draw of the stable sampler called with index `alpha`, scale
`sigma * N^(1/alpha)` and location `mu * N`; when `N = 0` it returns 0 without a draw. -/
theorem DelayTime_CompoundSkewedLevyStable_cases (number_process : ℚ → Nat) (pow : ℚ → ℚ → ℚ)
    (skewedlevystable_distribution : ℚ → ℚ → ℚ → ℚ) (alpha sigma mu time : ℚ) :
    (0 < number_process time →
        DelayTime_CompoundSkewedLevyStable number_process pow skewedlevystable_distribution
            alpha sigma mu time =
          (skewedlevystable_distribution alpha
            (sigma * pow (number_process time : ℚ) (1 / alpha))
            (mu * (number_process time : ℚ)), 1)) ∧
      (number_process time = 0 →
        DelayTime_CompoundSkewedLevyStable number_process pow skewedlevystable_distribution
            alpha sigma mu time = (0, 0)) := by
  refine ⟨fun hpos => ?_, fun h0 => ?_⟩
  · have hne : number_process time ≠ 0 := Nat.pos_iff_ne_zero.1 hpos
    simp [DelayTime_CompoundSkewedLevyStable, hne, mul_comm]
  · simp [DelayTime_CompoundSkewedLevyStable, h0]

theorem DelayTime_CompoundSkewedLevyStable_cases_witness :
    DelayTime_CompoundSkewedLevyStable (fun _ => 3) (fun x _ => x) (stable_of_standard 1)
        1 2 5 7 =
      (stable_of_standard 1 1 (2 * (fun x _ : ℚ => x) ((3 : Nat) : ℚ) (1 / 1))
        (5 * ((3 : Nat) : ℚ)), 1) ∧
      DelayTime_CompoundSkewedLevyStable (fun _ => 0) (fun x _ => x) (stable_of_standard 1)
        1 2 5 7 = (0, 0) :=
  ⟨(DelayTime_CompoundSkewedLevyStable_cases (fun _ => 3) (fun x _ => x) (stable_of_standard 1)
      1 2 5 7).1 (by decide),
    (DelayTime_CompoundSkewedLevyStable_cases (fun _ => 0) (fun x _ => x) (stable_of_standard 1)
      1 2 5 7).2 rfl⟩

/-- C20, as stated, fails: with `alpha = gamma = 1`, `sigma = 2`, `mu = 0`, the window 1
and a sampler whose standard draw is 1, the functor returns `1 * (2 * 1) + 0 = 2`, not
`(gamma dt)^(1/alpha) * Z + mu = 1` for the standard draw `Z = 1`. -/
theorem Subordinator_draw_not_standard :
    DelayTime_Subordinator_SkewedLevyStable (fun x _ => x) (stable_of_standard 1) 1 1 2 0 1 = 2 ∧
      DelayTime_Subordinator_standard (fun x _ => x) (stable_of_standard 1) 1 1 0 1 = 1 ∧
      DelayTime_Subordinator_SkewedLevyStable (fun x _ => x) (stable_of_standard 1) 1 1 2 0 1 ≠
        DelayTime_Subordinator_standard (fun x _ => x) (stable_of_standard 1) 1 1 0 1 := by
  have hcode :
      DelayTime_Subordinator_SkewedLevyStable (fun x _ => x) (stable_of_standard 1) 1 1 2 0 1 = 2 := by
    norm_num [DelayTime_Subordinator_SkewedLevyStable, stable_of_standard]
  have hspec :
      DelayTime_Subordinator_standard (fun x _ => x) (stable_of_standard 1) 1 1 0 1 = 1 := by
    norm_num [DelayTime_Subordinator_standard, stable_of_standard]
  refine ⟨hcode, hspec, ?_⟩
  rw [hcode, hspec]
  norm_num

/-- C20, amended: for every time window `dt`, `DelayTime_Subordinator_SkewedLevyStable`
returns `(gamma dt)^(1/alpha) * Z + mu`, where `Z` is a draw of the skewed stable
distribution of index `alpha`, scale `sigma` and location 0: the standard draw when
`sigma = 1`, the default, and `sigma` times the standard draw for a sampler that scales. -/
theorem Subordinator_draw_scale_sigma (pow : ℚ → ℚ → ℚ)
    (skewedlevystable_distribution : ℚ → ℚ → ℚ → ℚ) (alpha gamma sigma mu delta_time : ℚ) :
    DelayTime_Subordinator_SkewedLevyStable pow skewedlevystable_distribution alpha gamma sigma
        mu delta_time =
      pow (gamma * delta_time) (1 / alpha) * skewedlevystable_distribution alpha sigma 0 + mu ∧
    DelayTime_Subordinator_SkewedLevyStable pow skewedlevystable_distribution alpha gamma 1
        mu delta_time =
      DelayTime_Subordinator_standard pow skewedlevystable_distribution alpha gamma mu
        delta_time ∧
    ∀ z : ℚ,
      DelayTime_Subordinator_SkewedLevyStable pow (stable_of_standard z) alpha gamma sigma mu
          delta_time =
        pow (gamma * delta_time) (1 / alpha) * (sigma * z) + mu := by
  refine ⟨rfl, rfl, fun z => ?_⟩
  simp [DelayTime_Subordinator_SkewedLevyStable, stable_of_standard]

end stochastic

/-! ## Mutators and the single-reaction engine -/

namespace gillespie

theorem size_t_sub_of_le (a b : Nat) (hb : b ≤ a) (ha : a < 2 ^ 64) :
    stochastic.size_t_sub a b = a - b := by
  simp only [stochastic.size_t_sub, stochastic.size_t_range]
  omega

/-- C15: for a valid species index, `remove(type, increment)` subtracts `increment` from
that species' count when `increment` is strictly less than the count, and otherwise
leaves every count unchanged, so a request that would bring the count exactly to zero is
refused; no other species' count, and not the time, changes in either case. -/
theorem remove_strictly_less (g : Gillespie) (type increment : Nat)
    (htype : type < g.particle_container.length)
    (hsize : ∀ n ∈ g.particle_container, n < 2 ^ 64) :
    (increment < g.particle_container.getD type 0 →
        (g.remove type increment).particle_container.getD type 0 =
          g.particle_container.getD type 0 - increment) ∧
      (¬ increment < g.particle_container.getD type 0 →
        (g.remove type increment).particle_container = g.particle_container) ∧
      (increment = g.particle_container.getD type 0 →
        (g.remove type increment).particle_container = g.particle_container) ∧
      (∀ s, s ≠ type →
        (g.remove type increment).particle_container.getD s 0 =
          g.particle_container.getD s 0) ∧
      (g.remove type increment).particle_container.length = g.particle_container.length ∧
      (g.remove type increment).time_current = g.time_current := by
  have hcount : g.particle_container.getD type 0 < 2 ^ 64 :=
    stochastic.getD_lt_of_forall_lt g.particle_container _ type htype hsize
  have hno : ¬ increment < g.particle_container.getD type 0 →
      (g.remove type increment).particle_container = g.particle_container := by
    intro h
    have h2 : ¬ g.particle_container.getD type 0 > increment := h
    rw [Gillespie.remove, if_neg h2]
  refine ⟨fun h => ?_, hno, fun h => hno (by omega), fun s hs => ?_, ?_, ?_⟩
  · have h2 : g.particle_container.getD type 0 > increment := h
    rw [Gillespie.remove, if_pos h2]
    show (g.particle_container.set type _).getD type 0 = _
    rw [List.getD_eq_getElem?_getD, List.getElem?_set_self htype,
      size_t_sub_of_le _ _ (le_of_lt h) hcount]
    rfl
  · by_cases h : g.particle_container.getD type 0 > increment
    · rw [Gillespie.remove, if_pos h]
      show (g.particle_container.set type _).getD s 0 = _
      rw [List.getD_eq_getElem?_getD, List.getElem?_set_ne (fun hts => hs hts.symm),
        ← List.getD_eq_getElem?_getD]
    · rw [Gillespie.remove, if_neg h]
  · by_cases h : g.particle_container.getD type 0 > increment
    · rw [Gillespie.remove, if_pos h]
      exact List.length_set _ _ _
    · rw [Gillespie.remove, if_neg h]
  · by_cases h : g.particle_container.getD type 0 > increment
    · rw [Gillespie.remove, if_pos h]
    · rw [Gillespie.remove, if_neg h]

theorem remove_strictly_less_witness :
    (1 < (engine_1 [5, 3]).particle_container.length) ∧
      (∀ n ∈ (engine_1 [5, 3]).particle_container, n < 2 ^ 64) ∧
      ((engine_1 [5, 3]).remove 1 2).particle_container = [5, 1] ∧
      ((engine_1 [5, 3]).remove 1 3).particle_container = [5, 3] ∧
      ((engine_1 [5, 3]).remove 1 2).particle_container.getD 1 0 =
        (engine_1 [5, 3]).particle_container.getD 1 0 - 2 ∧
      ((engine_1 [5, 3]).remove 1 3).particle_container = (engine_1 [5, 3]).particle_container :=
  have htype : 1 < (engine_1 [5, 3]).particle_container.length := by decide
  have hsize : ∀ n ∈ (engine_1 [5, 3]).particle_container, n < 2 ^ 64 := by decide
  ⟨htype, hsize, by decide, by decide,
    (remove_strictly_less (engine_1 [5, 3]) 1 2 htype hsize).1 (by decide),
    (remove_strictly_less (engine_1 [5, 3]) 1 3 htype hsize).2.2.1 (by decide)⟩

end gillespie
namespace gillespie

theorem evolve_reactions (g : Gillespie) (d : Draw) : (g.evolve d).reactions = g.reactions := by
  unfold Gillespie.evolve
  dsimp only
  split <;> rfl

theorem pick_reaction_impl_single (g : Gillespie) (d : Draw) (hone : g.reactions.length = 1) :
    g.pick_reaction_impl d = 0 := by
  rw [pick_reaction_impl_eq, if_neg (by omega)]

/-- The state in which a pass of the loop leaves when its candidate is not before
`time_max`. -/
theorem evolve_loop_stop_eq (time_max : Time) (fuel : Nat) (draws : Nat → Draw) (g : Gillespie)
    (h : ¬ (g.evolve (draws 0)).time_next_reaction < time_max) :
    Gillespie.evolve_loop time_max (fuel + 1) draws g =
      some ({ (if max_element g.rates.rate_container = 0 then
                ({ g.rates with time_next_reaction := ⊤ } : Gillespie)
              else (g.rates.pick_reaction (draws 0)).compute_time_next_reaction (draws 0)) with
              time_current := time_max }, 0) := by
  by_cases hmax : max_element (g.reactions.map (fun reaction => reaction.rate g.particle_container)) = 0
  · have hmax1 : max_element g.rates.rate_container = 0 := hmax
    rw [Gillespie.evolve_loop]
    simp [hmax1]
  · have hmax1 : ¬ max_element g.rates.rate_container = 0 := hmax
    have hnext : (g.evolve (draws 0)).time_next_reaction =
        ((g.rates.pick_reaction (draws 0)).compute_time_next_reaction (draws 0)).time_next_reaction := by
      simp [Gillespie.evolve, hmax, Gillespie.rates, Gillespie.pick_reaction,
        Gillespie.compute_time_next_reaction, Gillespie.react]
    rw [Gillespie.evolve_loop]
    rw [hnext] at h
    simp only [hmax1, if_false, h]

theorem evolve_next_single (g : Gillespie) (d : Draw) (hone : g.reactions.length = 1)
    (hmax : max_element (g.reactions.map (fun reaction => reaction.rate g.particle_container)) ≠ 0) :
    (g.evolve d).next_reaction = 0 := by
  have hpick : ({ g with reacted := false } : Gillespie).rates.pick_reaction_impl d = 0 :=
    pick_reaction_impl_single _ d hone
  have hmax2 : ¬ max_element ({ g with reacted := false } : Gillespie).rates.rate_container = 0 :=
    hmax
  simp only [Gillespie.evolve, hmax2, if_false, Gillespie.pick_reaction,
    Gillespie.compute_time_next_reaction, Gillespie.react, hpick]

theorem evolve_eq_of_same_times_single (g : Gillespie) (d other : Draw)
    (hone : g.reactions.length = 1) (hwaiting : other.waiting = d.waiting)
    (hdelay : other.delay = d.delay) :
    g.evolve other = g.evolve d := by
  have hpick : ({ g with reacted := false } : Gillespie).rates.pick_reaction_impl d = 0 :=
    pick_reaction_impl_single _ d hone
  have hpick2 : ({ g with reacted := false } : Gillespie).rates.pick_reaction_impl other = 0 :=
    pick_reaction_impl_single _ other hone
  simp only [Gillespie.evolve, Gillespie.pick_reaction, hpick, hpick2,
    Gillespie.compute_time_next_reaction, hwaiting, hdelay]

/-- With a single reaction the loop leaves `next_reaction` at 0 as soon as one pass picks:
otherwise no pass has committed, the last pass found all rates zero and `next_reaction`
is the incoming one. -/
theorem evolve_loop_next_single (time_max : Time) (fuel : Nat) (draws : Nat → Draw)
    (g : Gillespie) (hone : g.reactions.length = 1) (p : Gillespie × Nat)
    (h : Gillespie.evolve_loop time_max fuel draws g = some p) :
    p.1.next_reaction = 0 ∨
      (p.2 = 0 ∧ max_element p.1.rate_container = 0 ∧ p.1.next_reaction = g.next_reaction) := by
  induction fuel generalizing draws g p with
  | zero => simp [Gillespie.evolve_loop] at h
  | succ fuel ih =>
    by_cases hc : (g.evolve (draws 0)).time_next_reaction < time_max
    · rw [evolve_loop_commit time_max fuel draws g hc] at h
      obtain ⟨q, hq, hpq⟩ := Option.map_eq_some'.1 h
      subst hpq
      have hmax : max_element
          (g.reactions.map (fun reaction => reaction.rate g.particle_container)) ≠ 0 := by
        intro hz
        rw [evolve_time_next_of_max_zero g (draws 0) hz] at hc
        exact absurd hc not_top_lt
      have hnext := evolve_next_single g (draws 0) hone hmax
      have hone2 : (g.evolve (draws 0)).reactions.length = 1 := by
        rw [evolve_reactions]
        exact hone
      rcases ih _ _ hone2 q hq with h0 | ⟨_, _, h2⟩
      · exact Or.inl h0
      · exact Or.inl (by rw [h2, hnext])
    · rw [evolve_loop_stop_eq time_max fuel draws g hc] at h
      have hp := (Option.some.inj h).symm
      subst hp
      by_cases hmax1 : max_element g.rates.rate_container = 0
      · right
        rw [if_pos hmax1]
        exact ⟨rfl, hmax1, rfl⟩
      · left
        rw [if_neg hmax1]
        exact pick_reaction_impl_single g.rates (draws 0) hone

theorem evolve_loop_eq_of_same_times_single (time_max : Time) (fuel : Nat)
    (draws others : Nat → Draw) (g : Gillespie) (hone : g.reactions.length = 1)
    (hsame : ∀ n, (others n).waiting = (draws n).waiting ∧ (others n).delay = (draws n).delay) :
    Gillespie.evolve_loop time_max fuel others g = Gillespie.evolve_loop time_max fuel draws g := by
  induction fuel generalizing draws others g with
  | zero => rfl
  | succ fuel ih =>
    have hev : g.evolve (others 0) = g.evolve (draws 0) :=
      evolve_eq_of_same_times_single g (draws 0) (others 0) hone (hsame 0).1 (hsame 0).2
    by_cases hc : (g.evolve (draws 0)).time_next_reaction < time_max
    · have hc2 : (g.evolve (others 0)).time_next_reaction < time_max := by
        rw [hev]
        exact hc
      rw [evolve_loop_commit time_max fuel draws g hc,
        evolve_loop_commit time_max fuel others g hc2, hev,
        ih (fun n => draws (n + 1)) (fun n => others (n + 1)) (g.evolve (draws 0))
          (by rw [evolve_reactions]; exact hone) (fun n => hsame (n + 1))]
    · have hc2 : ¬ (g.evolve (others 0)).time_next_reaction < time_max := by
        rw [hev]
        exact hc
      rw [evolve_loop_stop_eq time_max fuel draws g hc,
        evolve_loop_stop_eq time_max fuel others g hc2]
      have hpick : g.rates.pick_reaction_impl (draws 0) = 0 :=
        pick_reaction_impl_single g.rates (draws 0) hone
      have hpick2 : g.rates.pick_reaction_impl (others 0) = 0 :=
        pick_reaction_impl_single g.rates (others 0) hone
      simp only [Gillespie.pick_reaction, hpick, hpick2, Gillespie.compute_time_next_reaction,
        (hsame 0).1, (hsame 0).2]

/-- C14: in an engine with exactly one reaction the selected index is 0 and does not
depend on the engine's random source: the outcome of `evolve()` and of
`evolve(time_max)` is the same for every answer of the weighted selector, and after an
`evolve()` or an `evolve(time_max)` in which a reaction is picked `next()` is 0. -/
theorem single_reaction_next_zero (g : Gillespie) (hone : g.reactions.length = 1) :
    (∀ d : Draw, g.pick_reaction_impl d = 0) ∧
      (∀ (d : Draw) (pick : List ℚ → Nat), g.evolve { d with pick := pick } = g.evolve d) ∧
      (∀ (time_max : Time) (fuel : Nat) (draws : Nat → Draw) (picks : Nat → List ℚ → Nat),
        g.evolve_time_max time_max fuel (fun n => { draws n with pick := picks n }) =
          g.evolve_time_max time_max fuel draws) ∧
      (∀ d : Draw,
        max_element (g.reactions.map (fun reaction => reaction.rate g.particle_container)) ≠ 0 →
          (g.evolve d).next_reaction = 0) ∧
      (∀ (time_max : Time) (fuel : Nat) (draws : Nat → Draw) (p : Gillespie × Nat),
        g.evolve_time_max time_max fuel draws = some p →
          (0 < p.2 ∨ max_element p.1.rate_container ≠ 0) → p.1.next_reaction = 0) := by
  refine ⟨fun d => pick_reaction_impl_single g d hone,
    fun d pick => evolve_eq_of_same_times_single g d { d with pick := pick } hone rfl rfl,
    fun time_max fuel draws picks =>
      evolve_loop_eq_of_same_times_single time_max fuel draws
        (fun n => { draws n with pick := picks n }) { g with reacted := false } hone
        (fun _ => ⟨rfl, rfl⟩),
    fun d hmax => evolve_next_single g d hone hmax, ?_⟩
  intro time_max fuel draws p h hpicked
  rcases evolve_loop_next_single time_max fuel draws { g with reacted := false } hone p h
    with h0 | ⟨hz, hm, _⟩
  · exact h0
  · rcases hpicked with hpos | hne
    · omega
    · exact absurd hm hne

end gillespie
/-! ## The scenario `A + B -> (nothing)` -/

namespace gillespie

theorem evolve_of_max_zero (g : Gillespie) (d : Draw)
    (h : max_element (g.reactions.map (fun reaction => reaction.rate g.particle_container)) = 0) :
    (g.evolve d).reacted = false ∧ (g.evolve d).particle_container = g.particle_container ∧
      (g.evolve d).time_next_reaction = ⊤ := by
  simp [Gillespie.evolve, Gillespie.rates, h]

theorem evolve_of_max_ne_zero_single (g : Gillespie) (d : Draw) (reaction : Reaction)
    (hreactions : g.reactions = [reaction])
    (h : max_element (g.reactions.map (fun reaction => reaction.rate g.particle_container)) ≠ 0) :
    (g.evolve d).reacted = true ∧
      (g.evolve d).particle_container = reaction.react g.particle_container := by
  have hone : g.reactions.length = 1 := by rw [hreactions]; rfl
  have hpick : ({ g with reacted := false } : Gillespie).rates.pick_reaction_impl d = 0 :=
    pick_reaction_impl_single _ d hone
  have hmax2 : ¬ max_element ({ g with reacted := false } : Gillespie).rates.rate_container = 0 :=
    h
  simp only [Gillespie.evolve, hmax2, if_false, Gillespie.pick_reaction,
    Gillespie.compute_time_next_reaction, Gillespie.react, hpick]
  simp [Gillespie.rates, hreactions]

theorem rate_annihilation (r : ℚ) (a b : Nat) :
    (stochastic.Reaction_MassAction.make (stochastic.stoichiometry_annihilation r)).rate [a, b] =
      r * ((a * b % 2 ^ 64 : Nat) : ℚ) := by
  have hc : (stochastic.Reaction_MassAction.make
      (stochastic.stoichiometry_annihilation r)).combinations [a, b] =
      stochastic.size_t_mul (stochastic.size_t_mul 1 (Nat.descFactorial a 1))
        (Nat.descFactorial b 1) := rfl
  have hs : (stochastic.Reaction_MassAction.make
      (stochastic.stoichiometry_annihilation r)).reaction_rate_scaled = r := by
    simp [stochastic.Reaction_MassAction.make, stochastic.Reaction_MassAction.factor,
      stochastic.stoichiometry_annihilation, operation.factorial]
  rw [stochastic.Reaction_MassAction.rate, hc, hs]
  simp only [stochastic.size_t_mul, stochastic.size_t_range, Nat.descFactorial_one, one_mul,
    Nat.mod_mul_mod]

theorem react_annihilation (r : ℚ) (a b : Nat) (ha : a + 1 < 2 ^ 64) (hb : b + 1 < 2 ^ 64) :
    (stochastic.Reaction_MassAction.make (stochastic.stoichiometry_annihilation r)).react
      [a + 1, b + 1] = [a, b] := by
  have h : (stochastic.Reaction_MassAction.make (stochastic.stoichiometry_annihilation r)).react
      [a + 1, b + 1] = [stochastic.size_t_sub (a + 1) 1, stochastic.size_t_sub (b + 1) 1] := rfl
  rw [h, size_t_sub_of_le _ _ (Nat.le_add_left 1 a) ha,
    size_t_sub_of_le _ _ (Nat.le_add_left 1 b) hb]
  rfl

/-- One call of `evolve()` in the scenario from equal counts `[c, c]`: either the rate is
zero and nothing changes, or one pair is consumed. -/
theorem evolve_annihilation_step (r : ℚ) (c : Nat) (g : Gillespie) (d : Draw)
    (hc : c < 2 ^ 64)
    (hreactions : g.reactions = [of_MassAction
      (stochastic.Reaction_MassAction.make (stochastic.stoichiometry_annihilation r))])
    (hparticles : g.particle_container = [c, c]) :
    ((r * ((c * c % 2 ^ 64 : Nat) : ℚ) = 0 ∧ (g.evolve d).reacted = false ∧
        (g.evolve d).particle_container = [c, c] ∧ (g.evolve d).time_next_reaction = ⊤) ∨
      (r * ((c * c % 2 ^ 64 : Nat) : ℚ) ≠ 0 ∧ 1 ≤ c ∧ (g.evolve d).reacted = true ∧
        (g.evolve d).particle_container = [c - 1, c - 1])) := by
  have hrates : g.reactions.map (fun reaction => reaction.rate g.particle_container) =
      [r * ((c * c % 2 ^ 64 : Nat) : ℚ)] := by
    rw [hreactions, hparticles]
    simp [of_MassAction, rate_annihilation]
  by_cases hz : r * ((c * c % 2 ^ 64 : Nat) : ℚ) = 0
  · left
    have hmax : max_element
        (g.reactions.map (fun reaction => reaction.rate g.particle_container)) = 0 := by
      rw [hrates]
      exact hz
    obtain ⟨h1, h2, h3⟩ := evolve_of_max_zero g d hmax
    exact ⟨hz, h1, by rw [h2, hparticles], h3⟩
  · right
    have hmax : max_element
        (g.reactions.map (fun reaction => reaction.rate g.particle_container)) ≠ 0 := by
      rw [hrates]
      exact hz
    have hpos : 1 ≤ c := by
      rcases Nat.eq_zero_or_pos c with h0 | h0
      · subst h0
        exact absurd (by simp) hz
      · exact h0
    obtain ⟨h1, h2⟩ := evolve_of_max_ne_zero_single g d _ hreactions hmax
    refine ⟨hz, hpos, h1, ?_⟩
    rw [h2, hparticles]
    obtain ⟨m, rfl⟩ : ∃ m, c = m + 1 := ⟨c - 1, by omega⟩
    exact react_annihilation r m m hc hc

theorem evolve_n_succ_last (k : Nat) (draws : Nat → Draw) (g : Gillespie) :
    Gillespie.evolve_n (k + 1) draws g = (Gillespie.evolve_n k draws g).evolve (draws k) := by
  induction k generalizing draws g with
  | zero => rfl
  | succ k ih =>
    show Gillespie.evolve_n (k + 1) (fun j => draws (j + 1)) (g.evolve (draws 0)) = _
    rw [ih]
    rfl

/-- C12: in the engine of the single reaction `A + B -> (nothing)` started from the
`std::size_t` counts `[n, n]`, after every number of `evolve()` calls the counts of A and
B are equal and have not wrapped below zero (they are at most `n`); this holds for every
base rate and every drawn waiting time and delay. -/
theorem annihilation_counts_equal (r : ℚ) (n : Nat) (g : Gillespie) (draws : Nat → Draw)
    (k : Nat) (hn : n < 2 ^ 64)
    (hreactions : g.reactions = [of_MassAction
      (stochastic.Reaction_MassAction.make (stochastic.stoichiometry_annihilation r))])
    (hparticles : g.particle_container = [n, n]) :
    ∃ c, c ≤ n ∧ (Gillespie.evolve_n k draws g).particle_container = [c, c] := by
  induction k generalizing draws g n with
  | zero => exact ⟨n, le_refl n, hparticles⟩
  | succ k ih =>
    have hreactions2 : (g.evolve (draws 0)).reactions = [of_MassAction
        (stochastic.Reaction_MassAction.make (stochastic.stoichiometry_annihilation r))] := by
      rw [evolve_reactions]
      exact hreactions
    rcases evolve_annihilation_step r n g (draws 0) hn hreactions hparticles with
      ⟨_, _, hp, _⟩ | ⟨_, hpos, _, hp⟩
    · exact ih n (g.evolve (draws 0)) (fun j => draws (j + 1)) hn hreactions2 hp
    · obtain ⟨c, hc, hcc⟩ := ih (n - 1) (g.evolve (draws 0)) (fun j => draws (j + 1))
        (by omega) hreactions2 hp
      exact ⟨c, by omega, hcc⟩

theorem annihilation_counts_equal_witness :
    (2 : Nat) < 2 ^ 64 ∧
      ∃ c, c ≤ 2 ∧
        (Gillespie.evolve_n 5 (fun _ => draw_of 0 1) (engine_1 [2, 2])).particle_container =
          [c, c] :=
  ⟨by decide,
    annihilation_counts_equal 1 2 (engine_1 [2, 2]) (fun _ => draw_of 0 1) 5 (by decide) rfl rfl⟩

end gillespie
namespace gillespie

theorem annihilation_rate_ne_zero (r : ℚ) (c : Nat) (hr : r ≠ 0) (hpos : 1 ≤ c)
    (hc : c < 2 ^ 32) : r * ((c * c % 2 ^ 64 : Nat) : ℚ) ≠ 0 := by
  have hlt : c * c < 2 ^ 64 := by nlinarith
  have hne : c * c ≠ 0 := Nat.mul_ne_zero (by omega) (by omega)
  rw [Nat.mod_eq_of_lt hlt]
  exact mul_ne_zero hr (Nat.cast_ne_zero.2 hne)

/-- The scenario below `2 ^ 32`: after `k ≤ n` calls of `evolve()` the counts are
`[n - k, n - k]`. -/
theorem annihilation_run (r : ℚ) (n k : Nat) (g : Gillespie) (draws : Nat → Draw)
    (hr : r ≠ 0) (hn : n < 2 ^ 32) (hk : k ≤ n)
    (hreactions : g.reactions = [of_MassAction
      (stochastic.Reaction_MassAction.make (stochastic.stoichiometry_annihilation r))])
    (hparticles : g.particle_container = [n, n]) :
    (Gillespie.evolve_n k draws g).reactions = [of_MassAction
        (stochastic.Reaction_MassAction.make (stochastic.stoichiometry_annihilation r))] ∧
      (Gillespie.evolve_n k draws g).particle_container = [n - k, n - k] := by
  induction k with
  | zero => exact ⟨hreactions, hparticles⟩
  | succ k ih =>
    obtain ⟨hre, hpa⟩ := ih (by omega)
    rw [evolve_n_succ_last]
    refine ⟨by rw [evolve_reactions]; exact hre, ?_⟩
    rcases evolve_annihilation_step r (n - k) (Gillespie.evolve_n k draws g) (draws k)
      (by omega) hre hpa with ⟨hz, _⟩ | ⟨_, _, _, hp⟩
    · exact absurd hz (annihilation_rate_ne_zero r (n - k) hr (by omega) (by omega))
    · rw [hp]
      have h : n - k - 1 = n - (k + 1) := by omega
      rw [h]

/-- C13, as stated, fails: from the counts `[2 ^ 32, 2 ^ 32]` the `std::size_t` product of
the counts wraps to 0, so with base rate 1 the first call of `evolve()` already reports
no reaction and leaves the counts unchanged. -/
theorem annihilation_stalls_at_wrap :
    (0 : ℚ) < (stochastic.stoichiometry_annihilation 1).reaction_rate ∧
      (engine_1 [4294967296, 4294967296]).reactions = [of_MassAction
        (stochastic.Reaction_MassAction.make (stochastic.stoichiometry_annihilation 1))] ∧
      ((engine_1 [4294967296, 4294967296]).evolve (draw_of 0 1)).reacted = false ∧
      ((engine_1 [4294967296, 4294967296]).evolve (draw_of 0 1)).particle_container =
        [4294967296, 4294967296] := by
  have hzero : (1 : ℚ) * ((4294967296 * 4294967296 % 2 ^ 64 : Nat) : ℚ) = 0 := by
    have h : 4294967296 * 4294967296 % 2 ^ 64 = 0 := by decide
    rw [h]
    norm_num
  refine ⟨by norm_num [stochastic.stoichiometry_annihilation], rfl, ?_⟩
  rcases evolve_annihilation_step 1 4294967296 (engine_1 [4294967296, 4294967296])
    (draw_of 0 1) (by decide) rfl rfl with ⟨_, h1, h2, _⟩ | ⟨hne, _⟩
  · exact ⟨h1, h2⟩
  · exact absurd hzero hne

/-- C13, amended: for the single reaction `A + B -> (nothing)` with positive rate and
initial counts `[n, n]` with `n < 2 ^ 32` (so that the `std::size_t` product of the counts
does not wrap), each of the first `n` calls of `evolve()` commits one reaction, after
exactly `n` calls both counts are 0, and call `n + 1` reports `reaction()` false with
`time_next()` infinite. -/
theorem annihilation_terminates (r : ℚ) (n : Nat) (g : Gillespie) (draws : Nat → Draw)
    (hr : 0 < r) (hn : n < 2 ^ 32)
    (hreactions : g.reactions = [of_MassAction
      (stochastic.Reaction_MassAction.make (stochastic.stoichiometry_annihilation r))])
    (hparticles : g.particle_container = [n, n]) :
    (∀ k < n, (Gillespie.evolve_n (k + 1) draws g).reacted = true ∧
        (Gillespie.evolve_n (k + 1) draws g).particle_container = [n - (k + 1), n - (k + 1)]) ∧
      (Gillespie.evolve_n n draws g).particle_container = [0, 0] ∧
      (Gillespie.evolve_n (n + 1) draws g).reacted = false ∧
      (Gillespie.evolve_n (n + 1) draws g).time_next_reaction = ⊤ ∧
      (Gillespie.evolve_n (n + 1) draws g).particle_container = [0, 0] := by
  have hr0 : r ≠ 0 := ne_of_gt hr
  refine ⟨fun k hk => ?_, ?_, ?_⟩
  · obtain ⟨hre, hpa⟩ := annihilation_run r n k g draws hr0 hn (le_of_lt hk) hreactions hparticles
    rw [evolve_n_succ_last]
    rcases evolve_annihilation_step r (n - k) (Gillespie.evolve_n k draws g) (draws k)
      (by omega) hre hpa with ⟨hz, _⟩ | ⟨_, _, h1, hp⟩
    · exact absurd hz (annihilation_rate_ne_zero r (n - k) hr0 (by omega) (by omega))
    · refine ⟨h1, ?_⟩
      rw [hp]
      have h : n - k - 1 = n - (k + 1) := by omega
      rw [h]
  · have h := (annihilation_run r n n g draws hr0 hn (le_refl n) hreactions hparticles).2
    rw [Nat.sub_self] at h
    exact h
  · obtain ⟨hre, hpa⟩ := annihilation_run r n n g draws hr0 hn (le_refl n) hreactions hparticles
    rw [Nat.sub_self] at hpa
    rw [evolve_n_succ_last]
    rcases evolve_annihilation_step r 0 (Gillespie.evolve_n n draws g) (draws n)
      (by decide) hre hpa with ⟨_, h1, h2, h3⟩ | ⟨_, hpos, _⟩
    · exact ⟨h1, h3, h2⟩
    · omega

theorem annihilation_terminates_witness :
    (0 : ℚ) < 1 ∧ (2 : Nat) < 2 ^ 32 ∧
      (∀ k < 2,
        (Gillespie.evolve_n (k + 1) (fun _ => draw_of 0 1) (engine_1 [2, 2])).reacted = true ∧
        (Gillespie.evolve_n (k + 1) (fun _ => draw_of 0 1) (engine_1 [2, 2])).particle_container =
          [2 - (k + 1), 2 - (k + 1)]) ∧
      (Gillespie.evolve_n 2 (fun _ => draw_of 0 1) (engine_1 [2, 2])).particle_container = [0, 0] ∧
      (Gillespie.evolve_n 3 (fun _ => draw_of 0 1) (engine_1 [2, 2])).reacted = false ∧
      (Gillespie.evolve_n 3 (fun _ => draw_of 0 1) (engine_1 [2, 2])).time_next_reaction = ⊤ ∧
      (Gillespie.evolve_n 3 (fun _ => draw_of 0 1) (engine_1 [2, 2])).particle_container = [0, 0] :=
  ⟨by norm_num, by decide,
    annihilation_terminates 1 2 (engine_1 [2, 2]) (fun _ => draw_of 0 1) (by norm_num)
      (by decide) rfl rfl⟩

theorem single_reaction_next_zero_witness :
    (engine_1 [2, 2]).reactions.length = 1 ∧
      ((engine_1 [2, 2]).evolve (draw_of 7 1)).next_reaction = 0 ∧
      ∃ p : Gillespie × Nat,
        (engine_1 [2, 2]).evolve_time_max ((3 / 2 : ℚ) : Time) 2 (fun _ => draw_of 0 1) = some p ∧
        0 < p.2 ∧ p.1.next_reaction = 0 := by
  have hone : (engine_1 [2, 2]).reactions.length = 1 := rfl
  have hmax : max_element ((engine_1 [2, 2]).reactions.map
      (fun reaction => reaction.rate (engine_1 [2, 2]).particle_container)) ≠ 0 := by
    apply max_element_rates_pos
    simp [engine_1, engine_of, of_MassAction, rate_stoichiometry_1]
  obtain ⟨g1, hg1⟩ := engine_1_run
  exact ⟨hone, (single_reaction_next_zero (engine_1 [2, 2]) hone).2.2.2.1 (draw_of 7 1) hmax,
    (g1, 1), hg1, Nat.one_pos,
    (single_reaction_next_zero (engine_1 [2, 2]) hone).2.2.2.2 _ _ _ (g1, 1) hg1
      (Or.inl Nat.one_pos)⟩

end gillespie

/-! ## No reactant count wraps below zero -/

namespace stochastic

theorem rate_ne_zero_suffices (r : Reaction_MassAction) (numbers : List Nat)
    (h : r.rate numbers ≠ 0) :
    ∀ sto ∈ r.stoichiometry.reactants, sto.2 ≤ numbers.getD sto.1 0 := by
  intro sto hmem
  by_contra hlt
  apply h
  have hzero : (r.stoichiometry.reactants.map
      (fun sto => Nat.descFactorial (numbers.getD sto.1 0) sto.2)).prod = 0 := by
    apply List.prod_eq_zero
    exact List.mem_map.2 ⟨sto, hmem, Nat.descFactorial_eq_zero_iff_lt.2 (Nat.lt_of_not_le hlt)⟩
  rw [Reaction_MassAction.rate, combinations_eq, hzero]
  simp

theorem rate_nonneg (stoichiometry : Stoichiometry) (numbers : List Nat)
    (h : 0 ≤ stoichiometry.reaction_rate) :
    0 ≤ (Reaction_MassAction.make stoichiometry).rate numbers := by
  have hscaled : 0 ≤ (Reaction_MassAction.make stoichiometry).reaction_rate_scaled := by
    show 0 ≤ stoichiometry.reaction_rate / Reaction_MassAction.factor stoichiometry
    rw [factor_eq]
    exact div_nonneg h (Nat.cast_nonneg _)
  exact mul_nonneg hscaled (Nat.cast_nonneg _)

theorem reactants_suffice_of_distinct (reactants : List (Nat × Nat)) (numbers : List Nat)
    (hnodup : (reactants.map Prod.fst).Nodup)
    (h : ∀ sto ∈ reactants, sto.2 ≤ numbers.getD sto.1 0) :
    reactants_suffice reactants numbers = true := by
  induction reactants generalizing numbers with
  | nil => rfl
  | cons x xs ih =>
    rw [List.map_cons, List.nodup_cons] at hnodup
    rw [reactants_suffice, Bool.and_eq_true, decide_eq_true_eq]
    refine ⟨h x (List.mem_cons_self _ _), ih _ hnodup.2 (fun sto hsto => ?_)⟩
    have hne : x.1 ≠ sto.1 := fun heq =>
      hnodup.1 (heq ▸ List.mem_map.2 ⟨sto, hsto, rfl⟩)
    rw [List.getD_eq_getElem?_getD, List.getElem?_set_ne hne, ← List.getD_eq_getElem?_getD]
    exact h sto (List.mem_cons_of_mem _ hsto)

end stochastic

namespace gillespie

theorem exists_pos_of_max_ne_zero (l : List ℚ) (hnonneg : ∀ x ∈ l, 0 ≤ x)
    (hmax : max_element l ≠ 0) : ∃ x ∈ l, 0 < x := by
  by_contra hno
  apply hmax
  apply max_element_zero
  intro y hy
  have hle : ¬ 0 < y := fun hpos => hno ⟨y, hy, hpos⟩
  exact le_antisymm (not_lt.1 hle) (hnonneg y hy)

/-- In an engine of mass-action reactions with non-negative base rates, the reaction
selected in a state whose maximum rate is non-zero has a non-zero rate in that state. -/
theorem selected_rate_ne_zero (stoichiometries : List stochastic.Stoichiometry) (g : Gillespie)
    (d : Draw)
    (hreactions : g.reactions =
      stoichiometries.map (fun st => of_MassAction (stochastic.Reaction_MassAction.make st)))
    (hrates : ∀ st ∈ stoichiometries, 0 ≤ st.reaction_rate)
    (hselector : d.selects_positive)
    (hmax : max_element (g.reactions.map (fun reaction => reaction.rate g.particle_container)) ≠ 0) :
    ∃ st, stoichiometries.get? (g.rates.pick_reaction_impl d) = some st ∧
      (stochastic.Reaction_MassAction.make st).rate g.particle_container ≠ 0 := by
  have hmap : g.reactions.map (fun reaction => reaction.rate g.particle_container) =
      stoichiometries.map
        (fun st => (stochastic.Reaction_MassAction.make st).rate g.particle_container) := by
    rw [hreactions, List.map_map]
    rfl
  rw [hmap] at hmax
  have hlen : g.reactions.length = stoichiometries.length := by
    rw [hreactions, List.length_map]
  have hpick : g.rates.pick_reaction_impl d =
      if 2 ≤ stoichiometries.length then
        d.pick (stoichiometries.map
          (fun st => (stochastic.Reaction_MassAction.make st).rate g.particle_container))
      else 0 := by
    rw [pick_reaction_impl_eq]
    show (if 2 ≤ g.reactions.length then
      d.pick (g.reactions.map (fun reaction => reaction.rate g.particle_container)) else 0) = _
    rw [hmap, hlen]
  rw [hpick]
  by_cases h2 : 2 ≤ stoichiometries.length
  · rw [if_pos h2]
    have hnonneg : ∀ x ∈ stoichiometries.map
        (fun st => (stochastic.Reaction_MassAction.make st).rate g.particle_container),
        0 ≤ x := by
      intro x hx
      obtain ⟨st, hst, rfl⟩ := List.mem_map.1 hx
      exact stochastic.rate_nonneg st _ (hrates st hst)
    obtain ⟨hlt, hpos⟩ := hselector _ (exists_pos_of_max_ne_zero _ hnonneg hmax)
    rw [List.length_map] at hlt
    refine ⟨stoichiometries.get ⟨_, hlt⟩, List.get?_eq_get hlt, ?_⟩
    rw [List.getD_eq_getElem?_getD, List.getElem?_map, List.getElem?_eq_getElem hlt] at hpos
    exact ne_of_gt hpos
  · rw [if_neg h2]
    match stoichiometries, hmax, h2 with
    | [], hmax, _ => exact absurd rfl hmax
    | [st], hmax, _ => exact ⟨st, rfl, hmax⟩
    | _ :: _ :: _, _, h2 => exact absurd (by simp) h2

/-- The reaction applied by `evolve()` finds every reactant count at least its
coefficient throughout the reactant loop. -/
theorem evolve_applied_suffices (stoichiometries : List stochastic.Stoichiometry) (g : Gillespie)
    (d : Draw)
    (hreactions : g.reactions =
      stoichiometries.map (fun st => of_MassAction (stochastic.Reaction_MassAction.make st)))
    (hrates : ∀ st ∈ stoichiometries, 0 ≤ st.reaction_rate)
    (hdistinct : ∀ st ∈ stoichiometries, (st.reactants.map Prod.fst).Nodup)
    (hselector : d.selects_positive)
    (hmax : max_element (g.reactions.map (fun reaction => reaction.rate g.particle_container)) ≠ 0) :
    ∃ st, stoichiometries.get? (g.rates.pick_reaction_impl d) = some st ∧
      stochastic.reactants_suffice st.reactants g.particle_container = true := by
  obtain ⟨st, hget, hne⟩ := selected_rate_ne_zero stoichiometries g d hreactions hrates
    hselector hmax
  have hmem : st ∈ stoichiometries := List.get?_mem hget
  exact ⟨st, hget, stochastic.reactants_suffice_of_distinct _ _ (hdistinct st hmem)
    (stochastic.rate_ne_zero_suffices _ _ hne)⟩

end gillespie
namespace gillespie

theorem evolve_applied_eq (g : Gillespie) (d : Draw) :
    g.evolve_applied d =
      if max_element (g.reactions.map (fun reaction => reaction.rate g.particle_container)) = 0
      then [] else [(g.rates.pick_reaction_impl d, g.particle_container)] := by
  have hpick : ({ g with reacted := false } : Gillespie).rates.pick_reaction_impl d =
      g.rates.pick_reaction_impl d := by
    rw [pick_reaction_impl_eq, pick_reaction_impl_eq]
    rfl
  by_cases hmax :
      max_element (g.reactions.map (fun reaction => reaction.rate g.particle_container)) = 0
  · have hmax2 : max_element ({ g with reacted := false } : Gillespie).rates.rate_container = 0 :=
      hmax
    rw [if_pos hmax]
    simp only [Gillespie.evolve_applied, hmax2, if_true]
  · have hmax2 : ¬ max_element ({ g with reacted := false } : Gillespie).rates.rate_container = 0 :=
      hmax
    rw [if_neg hmax]
    simp only [Gillespie.evolve_applied, hmax2, if_false, Gillespie.pick_reaction,
      Gillespie.compute_time_next_reaction, hpick]
    rfl

theorem evolve_loop_applied_commit (time_max : Time) (fuel : Nat) (draws : Nat → Draw)
    (g : Gillespie) (h : (g.evolve (draws 0)).time_next_reaction < time_max) :
    Gillespie.evolve_loop_applied time_max (fuel + 1) draws g =
      (g.rates.pick_reaction_impl (draws 0), g.particle_container) ::
        Gillespie.evolve_loop_applied time_max fuel (fun n => draws (n + 1))
          (g.evolve (draws 0)) := by
  by_cases hmax : max_element (g.reactions.map (fun reaction => reaction.rate g.particle_container)) = 0
  · rw [evolve_time_next_of_max_zero g (draws 0) hmax] at h
    exact absurd h (not_top_lt)
  · have hmax1 : ¬ max_element g.rates.rate_container = 0 := hmax
    have ht : ((g.rates.pick_reaction (draws 0)).compute_time_next_reaction (draws 0)).time_next_reaction
        < time_max := by
      simpa [Gillespie.evolve, hmax, Gillespie.rates, Gillespie.pick_reaction,
        Gillespie.compute_time_next_reaction, Gillespie.react] using h
    have hstate : g.evolve (draws 0) =
        { ({ (g.rates.pick_reaction (draws 0)).compute_time_next_reaction (draws 0) with
              time_current := ((g.rates.pick_reaction (draws 0)).compute_time_next_reaction
                (draws 0)).time_next_reaction } : Gillespie).react
            ((g.rates.pick_reaction (draws 0)).compute_time_next_reaction (draws 0)).next_reaction
          with reacted := true } := by
      simp [Gillespie.evolve, hmax, Gillespie.rates, Gillespie.pick_reaction,
        Gillespie.compute_time_next_reaction, Gillespie.react, Gillespie.pick_reaction_impl,
        Gillespie.more_than_one_reaction]
    rw [Gillespie.evolve_loop_applied]
    simp only [hmax1, if_false, ht, if_true]
    rw [hstate]
    rfl

theorem evolve_loop_applied_stop (time_max : Time) (fuel : Nat) (draws : Nat → Draw)
    (g : Gillespie) (h : ¬ (g.evolve (draws 0)).time_next_reaction < time_max) :
    Gillespie.evolve_loop_applied time_max (fuel + 1) draws g = [] := by
  by_cases hmax : max_element (g.reactions.map (fun reaction => reaction.rate g.particle_container)) = 0
  · have hmax1 : max_element g.rates.rate_container = 0 := hmax
    rw [Gillespie.evolve_loop_applied]
    simp [hmax1]
  · have hmax1 : ¬ max_element g.rates.rate_container = 0 := hmax
    have hnext : (g.evolve (draws 0)).time_next_reaction =
        ((g.rates.pick_reaction (draws 0)).compute_time_next_reaction (draws 0)).time_next_reaction := by
      simp [Gillespie.evolve, hmax, Gillespie.rates, Gillespie.pick_reaction,
        Gillespie.compute_time_next_reaction, Gillespie.react]
    rw [Gillespie.evolve_loop_applied]
    rw [hnext] at h
    simp only [hmax1, if_false, h]

theorem evolve_loop_reactions (time_max : Time) (fuel : Nat) (draws : Nat → Draw) (g : Gillespie)
    (p : Gillespie × Nat) (h : Gillespie.evolve_loop time_max fuel draws g = some p) :
    p.1.reactions = g.reactions := by
  induction fuel generalizing draws g p with
  | zero => simp [Gillespie.evolve_loop] at h
  | succ fuel ih =>
    by_cases hc : (g.evolve (draws 0)).time_next_reaction < time_max
    · rw [evolve_loop_commit time_max fuel draws g hc] at h
      obtain ⟨q, hq, hpq⟩ := Option.map_eq_some'.1 h
      subst hpq
      rw [ih _ _ q hq, evolve_reactions]
    · rw [evolve_loop_stop_eq time_max fuel draws g hc] at h
      have hp := (Option.some.inj h).symm
      subst hp
      by_cases hmax1 : max_element g.rates.rate_container = 0
      · rw [if_pos hmax1]
        rfl
      · rw [if_neg hmax1]
        rfl

/-- Every reaction applied by the loop of `evolve(time_max)` finds every reactant count at
least its coefficient throughout the reactant loop. -/
theorem evolve_loop_applied_suffices (stoichiometries : List stochastic.Stoichiometry)
    (time_max : Time) (fuel : Nat) (draws : Nat → Draw) (g : Gillespie)
    (hreactions : g.reactions =
      stoichiometries.map (fun st => of_MassAction (stochastic.Reaction_MassAction.make st)))
    (hrates : ∀ st ∈ stoichiometries, 0 ≤ st.reaction_rate)
    (hdistinct : ∀ st ∈ stoichiometries, (st.reactants.map Prod.fst).Nodup)
    (hselector : ∀ n, (draws n).selects_positive) :
    ∀ a ∈ Gillespie.evolve_loop_applied time_max fuel draws g,
      ∃ st, stoichiometries.get? a.1 = some st ∧
        stochastic.reactants_suffice st.reactants a.2 = true := by
  induction fuel generalizing draws g with
  | zero =>
    intro a ha
    simp [Gillespie.evolve_loop_applied] at ha
  | succ fuel ih =>
    intro a ha
    by_cases hc : (g.evolve (draws 0)).time_next_reaction < time_max
    · rw [evolve_loop_applied_commit time_max fuel draws g hc] at ha
      have hmax : max_element
          (g.reactions.map (fun reaction => reaction.rate g.particle_container)) ≠ 0 := by
        intro hz
        rw [evolve_time_next_of_max_zero g (draws 0) hz] at hc
        exact absurd hc not_top_lt
      rcases List.mem_cons.1 ha with rfl | hrest
      · exact evolve_applied_suffices stoichiometries g (draws 0) hreactions hrates hdistinct
          (hselector 0) hmax
      · exact ih (fun n => draws (n + 1)) (g.evolve (draws 0))
          (by rw [evolve_reactions]; exact hreactions) (fun n => hselector (n + 1)) a hrest
    · rw [evolve_loop_applied_stop time_max fuel draws g hc] at ha
      simp at ha

/-- C11: in an engine of mass-action reactions with non-negative base rates and pairwise
distinct reactant indices, started from any particle numbers, whenever a sequence of
`evolve()` and `evolve(time_max)` calls applies a reaction, each statement
`numbers[sto.first] -= sto.second` of its reactant loop subtracts from a count that is at
least the coefficient, so no count wraps below zero; the weighted selector is assumed to
return only reactions of positive rate. -/
theorem applied_reactants_suffice (stoichiometries : List stochastic.Stoichiometry)
    (calls : List Call) (g : Gillespie)
    (hreactions : g.reactions =
      stoichiometries.map (fun st => of_MassAction (stochastic.Reaction_MassAction.make st)))
    (hrates : ∀ st ∈ stoichiometries, 0 ≤ st.reaction_rate)
    (hdistinct : ∀ st ∈ stoichiometries, (st.reactants.map Prod.fst).Nodup)
    (hselector : ∀ call ∈ calls, call.selects_positive) :
    ∀ a ∈ g.applied calls,
      ∃ st, stoichiometries.get? a.1 = some st ∧
        stochastic.reactants_suffice st.reactants a.2 = true := by
  induction calls generalizing g with
  | nil =>
    intro a ha
    simp [Gillespie.applied] at ha
  | cons call calls ih =>
    have hrest : ∀ call ∈ calls, call.selects_positive :=
      fun c hc => hselector c (List.mem_cons_of_mem _ hc)
    have hcall : call.selects_positive := hselector call (List.mem_cons_self _ _)
    intro a ha
    cases call with
    | evolve d =>
      rw [Gillespie.applied, List.mem_append] at ha
      rcases ha with ha | ha
      · rw [evolve_applied_eq] at ha
        by_cases hmax : max_element
            (g.reactions.map (fun reaction => reaction.rate g.particle_container)) = 0
        · rw [if_pos hmax] at ha
          simp at ha
        · rw [if_neg hmax, List.mem_singleton] at ha
          subst ha
          exact evolve_applied_suffices stoichiometries g d hreactions hrates hdistinct hcall hmax
      · exact ih (g.evolve d) (by rw [evolve_reactions]; exact hreactions) hrest a ha
    | evolve_time_max time_max fuel draws =>
      rw [Gillespie.applied, List.mem_append] at ha
      rcases ha with ha | ha
      · exact evolve_loop_applied_suffices stoichiometries time_max fuel draws
          { g with reacted := false } hreactions hrates hdistinct hcall a ha
      · cases hres : g.evolve_time_max time_max fuel draws with
        | none =>
          rw [hres] at ha
          simp at ha
        | some p =>
          rw [hres] at ha
          have hp : p.1.reactions = g.reactions :=
            evolve_loop_reactions time_max fuel draws { g with reacted := false } p hres
          exact ih p.1 (by rw [hp]; exact hreactions) hrest a ha

end gillespie
namespace gillespie

theorem draw_first_positive_selects (waiting : ℚ) : (draw_first_positive waiting).selects_positive := by
  intro rates hex
  have hex2 : ∃ x ∈ rates, (fun x : ℚ => decide (0 < x)) x = true := by
    obtain ⟨x, hx, hpos⟩ := hex
    exact ⟨x, hx, by simpa using hpos⟩
  have hlt : rates.findIdx (fun x => decide (0 < x)) < rates.length :=
    List.findIdx_lt_length_of_exists hex2
  refine ⟨hlt, ?_⟩
  show 0 < rates.getD (rates.findIdx (fun x => decide (0 < x))) 0
  rw [List.getD_eq_getElem?_getD, List.getElem?_eq_getElem hlt]
  have h := @List.findIdx_getElem ℚ (fun x => decide (0 < x)) rates hlt
  simpa using h

theorem rate_stoichiometry_2 (a b : Nat) :
    (stochastic.Reaction_MassAction.make stoichiometry_2).rate [a, b] =
      ((a % 2 ^ 64 : Nat) : ℚ) := by
  have hc : (stochastic.Reaction_MassAction.make stoichiometry_2).combinations [a, b] =
      stochastic.size_t_mul 1 (Nat.descFactorial a 1) := rfl
  have hs : (stochastic.Reaction_MassAction.make stoichiometry_2).reaction_rate_scaled = 1 := by
    simp [stochastic.Reaction_MassAction.make, stochastic.Reaction_MassAction.factor,
      stoichiometry_2, operation.factorial]
  rw [stochastic.Reaction_MassAction.rate, hc, hs, one_mul]
  simp only [stochastic.size_t_mul, stochastic.size_t_range, Nat.descFactorial_one, one_mul]

theorem engine_2_first_applied :
    (engine_2 [2, 3]).evolve_applied (draw_first_positive 1) = [(0, [2, 3])] := by
  rw [evolve_applied_eq]
  simp [engine_2, engine_of, of_MassAction, rate_stoichiometry_1, rate_stoichiometry_2,
    max_element, Gillespie.rates, Gillespie.pick_reaction_impl, Gillespie.more_than_one_reaction,
    draw_first_positive, List.findIdx_cons]
  norm_num

theorem applied_reactants_suffice_witness :
    (∀ st ∈ [stoichiometry_1, stoichiometry_2], 0 ≤ st.reaction_rate) ∧
      (∀ st ∈ [stoichiometry_1, stoichiometry_2], (st.reactants.map Prod.fst).Nodup) ∧
      (∀ call ∈ [Call.evolve (draw_first_positive 1),
          Call.evolve_time_max 10 5 (fun _ => draw_first_positive 1)],
        call.selects_positive) ∧
      (0, [2, 3]) ∈ (engine_2 [2, 3]).applied [Call.evolve (draw_first_positive 1),
        Call.evolve_time_max 10 5 (fun _ => draw_first_positive 1)] ∧
      ∀ a ∈ (engine_2 [2, 3]).applied [Call.evolve (draw_first_positive 1),
          Call.evolve_time_max 10 5 (fun _ => draw_first_positive 1)],
        ∃ st, [stoichiometry_1, stoichiometry_2].get? a.1 = some st ∧
          stochastic.reactants_suffice st.reactants a.2 = true := by
  have hrates : ∀ st ∈ [stoichiometry_1, stoichiometry_2], 0 ≤ st.reaction_rate := by
    intro st hst
    rcases List.mem_cons.1 hst with rfl | hst
    · norm_num [stoichiometry_1]
    · rcases List.mem_cons.1 hst with rfl | hst
      · norm_num [stoichiometry_2]
      · simp at hst
  have hdistinct : ∀ st ∈ [stoichiometry_1, stoichiometry_2],
      (st.reactants.map Prod.fst).Nodup := by
    intro st hst
    rcases List.mem_cons.1 hst with rfl | hst
    · decide
    · rcases List.mem_cons.1 hst with rfl | hst
      · decide
      · simp at hst
  have hselector : ∀ call ∈ [Call.evolve (draw_first_positive 1),
      Call.evolve_time_max 10 5 (fun _ => draw_first_positive 1)], call.selects_positive := by
    intro call hcall
    rcases List.mem_cons.1 hcall with rfl | hcall
    · exact draw_first_positive_selects 1
    · rcases List.mem_cons.1 hcall with rfl | hcall
      · exact fun _ => draw_first_positive_selects 1
      · simp at hcall
  refine ⟨hrates, hdistinct, hselector, ?_,
    applied_reactants_suffice [stoichiometry_1, stoichiometry_2] _ (engine_2 [2, 3]) rfl hrates
      hdistinct hselector⟩
  rw [Gillespie.applied, engine_2_first_applied]
  exact List.mem_append_left _ (List.mem_singleton.2 rfl)

end gillespie

/-! ## The just-delay subordinator and the stoichiometry maps -/

namespace stochastic

/-- C21: for equal parameters, the same time window and the same stable draw `Z`,
`DelayTime_Subordinator_SkewedLevyStable_JustDelay` returns the value of
`DelayTime_Subordinator_SkewedLevyStable` minus `dt`, that is
`-dt + (gamma dt)^(1/alpha) * Z + mu` (in exact arithmetic). -/
theorem JustDelay_eq_Subordinator_sub (pow : ℚ → ℚ → ℚ)
    (skewedlevystable_distribution : ℚ → ℚ → ℚ → ℚ) (alpha gamma sigma mu delta_time : ℚ) :
    DelayTime_Subordinator_SkewedLevyStable_JustDelay pow alpha gamma mu
        (skewedlevystable_distribution alpha sigma 0) delta_time =
      DelayTime_Subordinator_SkewedLevyStable pow skewedlevystable_distribution alpha gamma
        sigma mu delta_time - delta_time ∧
    DelayTime_Subordinator_SkewedLevyStable_JustDelay pow alpha gamma mu
        (skewedlevystable_distribution alpha sigma 0) delta_time =
      -delta_time +
        pow (gamma * delta_time) (1 / alpha) * skewedlevystable_distribution alpha sigma 0 + mu := by
  refine ⟨?_, rfl⟩
  simp only [DelayTime_Subordinator_SkewedLevyStable_JustDelay,
    DelayTime_Subordinator_SkewedLevyStable]
  ring

theorem foldl_map_assign (side : List (Nat × Nat)) (map : Nat → Option Nat) (s : Nat) :
    side.foldl (fun map rea => map_assign map rea.1 rea.2) map s =
      match side.reverse.lookup s with
      | some k => some k
      | none => map s := by
  induction side generalizing map with
  | nil => rfl
  | cons x xs ih =>
    obtain ⟨i, k⟩ := x
    rw [List.foldl_cons, ih, List.reverse_cons, List.lookup_append]
    cases hx : xs.reverse.lookup s with
    | some c => simp
    | none =>
      by_cases hsi : s = i
      · subst hsi
        simp [map_assign, List.lookup_cons]
      · have hbeq : (s == i) = false := by simpa using hsi
        simp [map_assign, hsi, List.lookup_cons, hbeq]

/-- The map built by the constructor holds, for each species, the coefficient of its last
pair in the list. -/
theorem map_at_foldl (side : List (Nat × Nat)) (s : Nat) :
    map_at (side.foldl (fun map rea => map_assign map rea.1 rea.2) (fun _ => none)) s =
      match side.reverse.lookup s with
      | some k => Except.ok k
      | none => Except.error Error.out_of_range := by
  rw [map_at, foldl_map_assign]
  cases side.reverse.lookup s <;> rfl

theorem lookup_reverse_of_nodup (side : List (Nat × Nat)) (s k : Nat)
    (hnodup : (side.map Prod.fst).Nodup) :
    side.reverse.lookup s = some k ↔ (s, k) ∈ side := by
  have hrev : (side.reverse.map Prod.fst).Nodup := by
    rw [List.map_reverse]
    exact List.nodup_reverse.2 hnodup
  constructor
  · intro h
    exact List.mem_reverse.1 (mem_of_lookup_eq_some _ s k h)
  · intro h
    have hmem : (s, k) ∈ side.reverse := List.mem_reverse.2 h
    cases hl : side.reverse.lookup s with
    | none =>
      rw [List.lookup_eq_none_iff] at hl
      have := hl (s, k) hmem
      simp at this
    | some c =>
      have hc : (s, c) ∈ side.reverse := mem_of_lookup_eq_some _ s c hl
      have heq : c = k := by
        by_contra hne
        have h1 := List.mem_iff_getElem.1 hmem
        have h2 := List.mem_iff_getElem.1 hc
        obtain ⟨i, hi, hgi⟩ := h1
        obtain ⟨j, hj, hgj⟩ := h2
        have hij : i = j := by
          have hi2 : i < (side.reverse.map Prod.fst).length := by
            rw [List.length_map]
            exact hi
          have hj2 : j < (side.reverse.map Prod.fst).length := by
            rw [List.length_map]
            exact hj
          have hinj := (@List.Nodup.getElem_inj_iff _ _ hrev i hi2 j hj2).1
          apply hinj
          rw [List.getElem_map, List.getElem_map, hgi, hgj]
        subst hij
        rw [hgi] at hgj
        exact hne (Prod.mk.inj hgj).2.symm
      rw [heq]

end stochastic
namespace stochastic

/-- C22: for a `Stoichiometry` built from lists with pairwise distinct species indices on
each side, `reactant_coefficient(s)` returns `k` exactly when the pair `(s, k)` is in the
reactant list and fails with `std::out_of_range` for every species not in that list;
`product_coefficient` does the same for the product list. -/
theorem coefficient_of_distinct (reaction_rate : ℚ) (reactants products : List (Nat × Nat))
    (st : Stoichiometry)
    (hbuilt : Stoichiometry.construct reaction_rate reactants products = Except.ok st)
    (hreactants : (reactants.map Prod.fst).Nodup)
    (hproducts : (products.map Prod.fst).Nodup) :
    (∀ s k, st.reactant_coefficient s = Except.ok k ↔ (s, k) ∈ reactants) ∧
      (∀ s, s ∉ reactants.map Prod.fst →
        st.reactant_coefficient s = Except.error Error.out_of_range) ∧
      (∀ s k, st.product_coefficient s = Except.ok k ↔ (s, k) ∈ products) ∧
      (∀ s, s ∉ products.map Prod.fst →
        st.product_coefficient s = Except.error Error.out_of_range) := by
  have hst : st = Stoichiometry.mk reaction_rate reactants products :=
    (Except.ok.inj hbuilt).symm
  subst hst
  have hside : ∀ side : List (Nat × Nat), (side.map Prod.fst).Nodup →
      (∀ s k, map_at (side.foldl (fun map rea => map_assign map rea.1 rea.2) (fun _ => none)) s
          = Except.ok k ↔ (s, k) ∈ side) ∧
        (∀ s, s ∉ side.map Prod.fst →
          map_at (side.foldl (fun map rea => map_assign map rea.1 rea.2) (fun _ => none)) s
            = Except.error Error.out_of_range) := by
    intro side hnodup
    refine ⟨fun s k => ?_, fun s hs => ?_⟩
    · rw [map_at_foldl, ← lookup_reverse_of_nodup side s k hnodup]
      cases side.reverse.lookup s with
      | none => simp
      | some c =>
        constructor
        · intro h
          rw [Except.ok.inj h]
        · intro h
          rw [Option.some.inj h]
    · rw [map_at_foldl]
      cases hl : side.reverse.lookup s with
      | none => rfl
      | some c =>
        exfalso
        apply hs
        exact List.mem_map.2 ⟨(s, c),
          List.mem_reverse.1 (mem_of_lookup_eq_some _ s c hl), rfl⟩
  exact ⟨(hside reactants hreactants).1, (hside reactants hreactants).2,
    (hside products hproducts).1, (hside products hproducts).2⟩

theorem coefficient_of_distinct_witness :
    Stoichiometry.construct 1 [(0, 1), (2, 3)] [(0, 2), (3, 1)] =
        Except.ok stoichiometry_header ∧
      (([(0, 1), (2, 3)] : List (Nat × Nat)).map Prod.fst).Nodup ∧
      (([(0, 2), (3, 1)] : List (Nat × Nat)).map Prod.fst).Nodup ∧
      stoichiometry_header.reactant_coefficient 2 = Except.ok 3 ∧
      stoichiometry_header.reactant_coefficient 1 = Except.error Error.out_of_range ∧
      stoichiometry_header.product_coefficient 3 = Except.ok 1 ∧
      stoichiometry_header.product_coefficient 2 = Except.error Error.out_of_range :=
  have h := coefficient_of_distinct 1 [(0, 1), (2, 3)] [(0, 2), (3, 1)] stoichiometry_header
    rfl (by decide) (by decide)
  ⟨rfl, by decide, by decide, (h.1 2 3).2 (by decide), h.2.1 1 (by decide),
    (h.2.2.1 3 1).2 (by decide), h.2.2.2 2 (by decide)⟩

/-- C23, as stated, fails: building a `Stoichiometry` whose reactant list names species 0
twice succeeds, the lists are stored as given, a mass-action channel is built from it,
and `reactant_coefficient(0)` answers with the coefficient of the last pair. -/
theorem construct_duplicate_succeeds :
    ¬ ((([(0, 1), (0, 2)] : List (Nat × Nat)).map Prod.fst).Nodup) ∧
      Stoichiometry.construct 1 [(0, 1), (0, 2)] [] = Except.ok stoichiometry_duplicate ∧
      (∀ e, Stoichiometry.construct 1 [(0, 1), (0, 2)] [] ≠ Except.error e) ∧
      (Reaction_MassAction.make stoichiometry_duplicate).stoichiometry.reactants =
        [(0, 1), (0, 2)] ∧
      stoichiometry_duplicate.reactant_coefficient 0 = Except.ok 2 := by
  refine ⟨by decide, rfl, fun e h => ?_, rfl, ?_⟩
  · exact Except.noConfusion h
  · rw [Stoichiometry.reactant_coefficient, Stoichiometry.reactants_map, map_at_foldl]
    rfl

/-- C23, amended: constructing a `Stoichiometry`, or a mass-action channel from it, never
fails, also when a list names a species more than once: both lists are stored as given
and `reactant_coefficient` and `product_coefficient` answer with the coefficient of the
last pair of the species in the list (and fail only for a species in no pair). -/
theorem construct_never_fails (reaction_rate : ℚ) (reactants products : List (Nat × Nat)) :
    ∃ st : Stoichiometry,
      Stoichiometry.construct reaction_rate reactants products = Except.ok st ∧
      st.reaction_rate = reaction_rate ∧ st.reactants = reactants ∧ st.products = products ∧
      (Reaction_MassAction.make st).stoichiometry = st ∧
      (∀ s, st.reactant_coefficient s =
        match reactants.reverse.lookup s with
        | some k => Except.ok k
        | none => Except.error Error.out_of_range) ∧
      (∀ s, st.product_coefficient s =
        match products.reverse.lookup s with
        | some k => Except.ok k
        | none => Except.error Error.out_of_range) :=
  ⟨Stoichiometry.mk reaction_rate reactants products,
    rfl, rfl, rfl, rfl, rfl, fun s => map_at_foldl reactants s, fun s => map_at_foldl products s⟩

end stochastic

/-! ## The mutators of the engine -/

namespace gillespie

/-- C24: after `set(p, t)` the particle numbers are `p` and the time is `t` (0 when the
time is omitted), and nothing else is reset: the reaction flag and the recorded last and
next reaction times and indices keep their values. -/
theorem set_resets_particles_and_time (g : Gillespie) (p : List Nat) (t : Time) :
    (g.set p t).particle_container = p ∧ (g.set p t).time_current = t ∧
      (g.set_default_time p).particle_container = p ∧ (g.set_default_time p).time_current = 0 ∧
      g.set p t = { g with particle_container := p, time_current := t } ∧
      (g.set p t).reacted = g.reacted ∧
      (g.set p t).time_last_reaction = g.time_last_reaction ∧
      (g.set p t).time_next_reaction = g.time_next_reaction ∧
      (g.set p t).last_reaction = g.last_reaction ∧
      (g.set p t).next_reaction = g.next_reaction ∧
      (g.set_default_time p).reacted = g.reacted ∧
      (g.set_default_time p).time_last_reaction = g.time_last_reaction ∧
      (g.set_default_time p).time_next_reaction = g.time_next_reaction ∧
      (g.set_default_time p).last_reaction = g.last_reaction ∧
      (g.set_default_time p).next_reaction = g.next_reaction :=
  ⟨rfl, rfl, rfl, rfl, rfl, rfl, rfl, rfl, rfl, rfl, rfl, rfl, rfl, rfl, rfl⟩

/-- C25: for a valid species index `i`, after `set(i, v)` the accessor `particles(i)`
returns `v`, every other species' count is unchanged and the time is unchanged; and
`time(t)` changes only the current time. -/
theorem set_type_frame (g : Gillespie) (i v : Nat) (t : Time)
    (hvalid : i < g.particle_container.length) :
    (g.set_type i v).particles i = v ∧
      (∀ s, s ≠ i → (g.set_type i v).particles s = g.particles s) ∧
      (g.set_type i v).particle_container.length = g.particle_container.length ∧
      (g.set_type i v).time_current = g.time_current ∧
      (g.time t).time_current = t ∧
      g.time t = { g with time_current := t } ∧
      (g.time t).particle_container = g.particle_container := by
  refine ⟨?_, fun s hs => ?_, ?_, rfl, rfl, rfl, rfl⟩
  · show (g.particle_container.set i v).getD i 0 = v
    rw [List.getD_eq_getElem?_getD, List.getElem?_set_self hvalid]
    rfl
  · show (g.particle_container.set i v).getD s 0 = g.particle_container.getD s 0
    rw [List.getD_eq_getElem?_getD, List.getElem?_set_ne (fun h => hs h.symm),
      ← List.getD_eq_getElem?_getD]
  · exact List.length_set _ _ _

theorem set_type_frame_witness :
    1 < (engine_1 [5, 3]).particle_container.length ∧
      ((engine_1 [5, 3]).set_type 1 9).particles 1 = 9 ∧
      ((engine_1 [5, 3]).set_type 1 9).particle_container = [5, 9] ∧
      ((engine_1 [5, 3]).set_type 1 9).time_current = (engine_1 [5, 3]).time_current ∧
      ((engine_1 [5, 3]).time 7).time_current = 7 :=
  have hvalid : 1 < (engine_1 [5, 3]).particle_container.length := by decide
  have h := set_type_frame (engine_1 [5, 3]) 1 9 7 hvalid
  ⟨hvalid, h.1, by decide, h.2.2.2.1, h.2.2.2.2.1⟩

/-- C27: `clear()` sets every species' count to 0 and leaves the number of species, the
current time and the reaction bookkeeping unchanged. -/
theorem clear_zeroes_counts (g : Gillespie) :
    (∀ n ∈ g.clear.particle_container, n = 0) ∧
      (∀ s, g.clear.particles s = 0) ∧
      g.clear.particle_container.length = g.particle_container.length ∧
      g.clear.time_current = g.time_current ∧
      g.clear.reacted = g.reacted ∧
      g.clear.time_last_reaction = g.time_last_reaction ∧
      g.clear.time_next_reaction = g.time_next_reaction ∧
      g.clear.last_reaction = g.last_reaction ∧
      g.clear.next_reaction = g.next_reaction ∧
      g.clear = { g with particle_container := List.replicate g.particle_container.length 0 } := by
  have hrep : g.particle_container.map (fun _ => 0) =
      List.replicate g.particle_container.length 0 := by
    simp [List.map_const']
  refine ⟨fun n hn => ?_, fun s => ?_, ?_, rfl, rfl, rfl, rfl, rfl, rfl, ?_⟩
  · obtain ⟨_, _, h⟩ := List.mem_map.1 hn
    exact h.symm
  · show (g.particle_container.map (fun _ => 0)).getD s 0 = 0
    rw [hrep, List.getD_eq_getElem?_getD]
    by_cases hs : s < g.particle_container.length
    · rw [List.getElem?_eq_getElem (by simpa using hs)]
      simp
    · rw [List.getElem?_eq_none (by simpa using hs)]
      rfl
  · exact List.length_map _ _
  · show ({ g with particle_container := g.particle_container.map (fun _ => 0) } : Gillespie) = _
    rw [hrep]

end gillespie

namespace gillespie

theorem getD_ne_of_nodup (types : List Nat) (j n : Nat) (hnodup : types.Nodup)
    (hj : j < types.length) (hn : n < types.length) (hjn : j ≠ n) :
    types.getD j 0 ≠ types.getD n 0 := by
  rw [List.getD_eq_getElem?_getD, List.getD_eq_getElem?_getD, List.getElem?_eq_getElem hj,
    List.getElem?_eq_getElem hn]
  intro h
  exact hjn ((List.Nodup.getElem_inj_iff hnodup).1 h)

/-- The loop of `set(types, particles)` after its first `n` passes. -/
theorem set_types_loop (g : Gillespie) (types particles : List Nat) (n : Nat)
    (hnodup : types.Nodup) (hvalid : ∀ t ∈ types, t < g.particle_container.length)
    (hn : n ≤ types.length) :
    ((List.range n).foldl
        (fun g type => g.set_type (types.getD type 0) (particles.getD type 0)) g
      ).particle_container.length = g.particle_container.length ∧
    (∀ j < n, ((List.range n).foldl
        (fun g type => g.set_type (types.getD type 0) (particles.getD type 0)) g
      ).particle_container.getD (types.getD j 0) 0 = particles.getD j 0) ∧
    (∀ s, (∀ j < n, types.getD j 0 ≠ s) → ((List.range n).foldl
        (fun g type => g.set_type (types.getD type 0) (particles.getD type 0)) g
      ).particle_container.getD s 0 = g.particle_container.getD s 0) ∧
    ((List.range n).foldl
        (fun g type => g.set_type (types.getD type 0) (particles.getD type 0)) g
      ).time_current = g.time_current := by
  induction n with
  | zero => exact ⟨rfl, fun j hj => absurd hj (Nat.not_lt_zero j), fun _ _ => rfl, rfl⟩
  | succ n ih =>
    obtain ⟨hlen, hset, hframe, htime⟩ := ih (Nat.le_of_succ_le hn)
    have hnlt : n < types.length := hn
    have hmem : types.getD n 0 ∈ types := by
      rw [List.getD_eq_getElem?_getD, List.getElem?_eq_getElem hnlt]
      exact List.getElem_mem hnlt
    rw [List.range_succ, List.foldl_append]
    generalize (List.range n).foldl
      (fun g type => g.set_type (types.getD type 0) (particles.getD type 0)) g = G
      at hlen hset hframe htime ⊢
    simp only [List.foldl_cons, List.foldl_nil, Gillespie.set_type]
    refine ⟨?_, fun j hj => ?_, fun s hs => ?_, htime⟩
    · rw [List.length_set]
      exact hlen
    · by_cases hjn : j = n
      · subst hjn
        rw [List.getD_eq_getElem?_getD, List.getElem?_set_self (by rw [hlen]; exact hvalid _ hmem)]
        rfl
      · have hjlt : j < n := by omega
        have hne := getD_ne_of_nodup types j n hnodup (by omega) hnlt hjn
        rw [List.getD_eq_getElem?_getD, List.getElem?_set_ne (fun h => hne h.symm),
          ← List.getD_eq_getElem?_getD]
        exact hset j hjlt
    · have hne : types.getD n 0 ≠ s := hs n (Nat.lt_succ_self n)
      rw [List.getD_eq_getElem?_getD, List.getElem?_set_ne hne, ← List.getD_eq_getElem?_getD]
      exact hframe s (fun j hj => hs j (Nat.lt_succ_of_lt hj))

/-- C26: for an index list `types` of pairwise distinct valid indices and a value list
`particles` no longer than `types`, after `set(types, particles)` the count of species
`types[j]` is `particles[j]` for every `j < particles.size()`, and every species that is
not one of those `types[j]` is unchanged (as is the time). -/
theorem set_types_assigns (g : Gillespie) (types particles : List Nat)
    (hnodup : types.Nodup) (hvalid : ∀ t ∈ types, t < g.particle_container.length)
    (hlen : particles.length ≤ types.length) :
    (∀ j < particles.length,
        (g.set_types types particles).particles (types.getD j 0) = particles.getD j 0) ∧
      (∀ s, (∀ j < particles.length, types.getD j 0 ≠ s) →
        (g.set_types types particles).particles s = g.particles s) ∧
      (g.set_types types particles).particle_container.length = g.particle_container.length ∧
      (g.set_types types particles).time_current = g.time_current := by
  obtain ⟨h1, h2, h3, h4⟩ := set_types_loop g types particles particles.length hnodup hvalid hlen
  exact ⟨h2, h3, h1, h4⟩

theorem set_types_assigns_witness :
    ([2, 0, 1] : List Nat).Nodup ∧
      (∀ t ∈ ([2, 0, 1] : List Nat), t < (engine_of [5, 6, 7, 8] []).particle_container.length) ∧
      ([10, 20] : List Nat).length ≤ ([2, 0, 1] : List Nat).length ∧
      ((engine_of [5, 6, 7, 8] []).set_types [2, 0, 1] [10, 20]).particle_container =
        [20, 6, 10, 8] ∧
      ((engine_of [5, 6, 7, 8] []).set_types [2, 0, 1] [10, 20]).particles
        (([2, 0, 1] : List Nat).getD 1 0) = ([10, 20] : List Nat).getD 1 0 :=
  have hnodup : ([2, 0, 1] : List Nat).Nodup := by decide
  have hvalid : ∀ t ∈ ([2, 0, 1] : List Nat),
      t < (engine_of [5, 6, 7, 8] []).particle_container.length := by decide
  have hlen : ([10, 20] : List Nat).length ≤ ([2, 0, 1] : List Nat).length := by decide
  ⟨hnodup, hvalid, hlen, by decide,
    (set_types_assigns (engine_of [5, 6, 7, 8] []) [2, 0, 1] [10, 20] hnodup hvalid hlen).1 1
      (by decide)⟩

end gillespie
/-! ## The continuous channel, the factories and the binomial form of the rate -/

namespace stochastic

/-- A loop `concentration[sto.first] += delta(sto.second)` adds to every species the
deltas of all the pairs that name it. -/
theorem foldl_set_add (delta : Nat → ℚ) (side : List (Nat × Nat)) (concentration : List ℚ) :
    (side.foldl (fun concentration sto =>
        concentration.set sto.1 (concentration.getD sto.1 0 + delta sto.2))
        concentration).length = concentration.length ∧
      ∀ s < concentration.length,
        (side.foldl (fun concentration sto =>
            concentration.set sto.1 (concentration.getD sto.1 0 + delta sto.2))
            concentration).getD s 0 =
          concentration.getD s 0 +
            ((side.filter (fun sto => sto.1 == s)).map (fun sto => delta sto.2)).sum := by
  induction side generalizing concentration with
  | nil => exact ⟨rfl, fun s _ => by simp⟩
  | cons x xs ih =>
    obtain ⟨i, k⟩ := x
    obtain ⟨hlen, hget⟩ := ih (concentration.set i (concentration.getD i 0 + delta k))
    rw [List.length_set] at hlen hget
    refine ⟨hlen, fun s hs => ?_⟩
    rw [List.foldl_cons, hget s hs]
    by_cases hsi : i = s
    · subst hsi
      have hv : (concentration.set i (concentration.getD i 0 + delta k)).getD i 0 =
          concentration.getD i 0 + delta k := by
        rw [List.getD_eq_getElem?_getD, List.getElem?_set_self hs]
        rfl
      rw [hv]
      simp [List.filter_cons, add_assoc]
    · have hv : (concentration.set i (concentration.getD i 0 + delta k)).getD s 0 =
          concentration.getD s 0 := by
        rw [List.getD_eq_getElem?_getD, List.getElem?_set_ne hsi, ← List.getD_eq_getElem?_getD]
      have hbeq : (i == s) = false := by simpa using hsi
      rw [hv]
      simp [List.filter_cons, hbeq]

theorem sum_map_coefficient_mul (side : List (Nat × Nat)) (x : ℚ) :
    (side.map (fun sto => (sto.2 : ℚ) * x)).sum = (((side.map Prod.snd).sum : Nat) : ℚ) * x := by
  induction side with
  | nil => simp
  | cons y ys ih =>
    rw [List.map_cons, List.sum_cons, ih, List.map_cons, List.sum_cons, Nat.cast_add, add_mul]

theorem foldl_mul_eq_prod (f : Nat × Nat → ℚ) (side : List (Nat × Nat)) (c : ℚ) :
    side.foldl (fun combinations sto => combinations * f sto) c = c * (side.map f).prod := by
  induction side generalizing c with
  | nil => simp
  | cons x xs ih => rw [List.foldl_cons, ih, List.map_cons, List.prod_cons, mul_assoc]

/-- C28: the continuous `rate` is the scaled rate constant (base rate divided by the
product of the coefficient factorials) times the product over the reactants of
`c[s]^k_s`; the continuous `react(c, dt)` evaluates that rate once on the incoming state,
subtracts `k_s * rate * dt` for each reactant pair and adds `k_s * rate * dt` for each
product pair, and leaves every other species and the number of species unchanged. -/
theorem continuous_rate_and_react (stoichiometry : Stoichiometry) (c : List ℚ) (dt : ℚ) :
    (Reaction_MassAction.make stoichiometry).reaction_rate_scaled =
        stoichiometry.reaction_rate /
          (((stoichiometry.reactants.map (fun sto => Nat.factorial sto.2)).prod : Nat) : ℚ) ∧
      (Reaction_MassAction.make stoichiometry).rate_continuous c =
        (Reaction_MassAction.make stoichiometry).reaction_rate_scaled *
          (stoichiometry.reactants.map (fun sto => (c.getD sto.1 0) ^ sto.2)).prod ∧
      ((Reaction_MassAction.make stoichiometry).react_continuous c dt).length = c.length ∧
      (∀ s < c.length,
        ((Reaction_MassAction.make stoichiometry).react_continuous c dt).getD s 0 =
          c.getD s 0 -
            (coefficient_sum stoichiometry.reactants s : ℚ) *
              (Reaction_MassAction.make stoichiometry).rate_continuous c * dt +
            (coefficient_sum stoichiometry.products s : ℚ) *
              (Reaction_MassAction.make stoichiometry).rate_continuous c * dt) ∧
      (∀ s < c.length, s ∉ stoichiometry.reactants.map Prod.fst →
        s ∉ stoichiometry.products.map Prod.fst →
        ((Reaction_MassAction.make stoichiometry).react_continuous c dt).getD s 0 =
          c.getD s 0) := by
  have hsub : (fun (concentration : List ℚ) (sto : Nat × Nat) =>
      concentration.set sto.1 (concentration.getD sto.1 0 -
        sto.2 * (Reaction_MassAction.make stoichiometry).rate_continuous c * dt)) =
      (fun concentration sto =>
        concentration.set sto.1 (concentration.getD sto.1 0 +
          (fun k : Nat => -((k : ℚ) *
            (Reaction_MassAction.make stoichiometry).rate_continuous c * dt)) sto.2)) := by
    funext concentration sto
    rw [sub_eq_add_neg]
  have hadd : (fun (concentration : List ℚ) (sto : Nat × Nat) =>
      concentration.set sto.1 (concentration.getD sto.1 0 +
        sto.2 * (Reaction_MassAction.make stoichiometry).rate_continuous c * dt)) =
      (fun concentration sto =>
        concentration.set sto.1 (concentration.getD sto.1 0 +
          (fun k : Nat => (k : ℚ) *
            (Reaction_MassAction.make stoichiometry).rate_continuous c * dt) sto.2)) := rfl
  have hreact : (Reaction_MassAction.make stoichiometry).react_continuous c dt =
      stoichiometry.products.foldl (fun concentration sto =>
        concentration.set sto.1 (concentration.getD sto.1 0 +
          (fun k : Nat => (k : ℚ) *
            (Reaction_MassAction.make stoichiometry).rate_continuous c * dt) sto.2))
        (stoichiometry.reactants.foldl (fun concentration sto =>
          concentration.set sto.1 (concentration.getD sto.1 0 +
            (fun k : Nat => -((k : ℚ) *
              (Reaction_MassAction.make stoichiometry).rate_continuous c * dt)) sto.2)) c) := by
    rw [← hsub, ← hadd]
    rfl
  obtain ⟨hlen1, hget1⟩ := foldl_set_add
    (fun k : Nat => -((k : ℚ) * (Reaction_MassAction.make stoichiometry).rate_continuous c * dt))
    stoichiometry.reactants c
  obtain ⟨hlen2, hget2⟩ := foldl_set_add
    (fun k : Nat => (k : ℚ) * (Reaction_MassAction.make stoichiometry).rate_continuous c * dt)
    stoichiometry.products
    (stoichiometry.reactants.foldl (fun concentration sto =>
      concentration.set sto.1 (concentration.getD sto.1 0 +
        (fun k : Nat => -((k : ℚ) *
          (Reaction_MassAction.make stoichiometry).rate_continuous c * dt)) sto.2)) c)
  have hvalue : ∀ s < c.length,
      ((Reaction_MassAction.make stoichiometry).react_continuous c dt).getD s 0 =
        c.getD s 0 -
          (coefficient_sum stoichiometry.reactants s : ℚ) *
            (Reaction_MassAction.make stoichiometry).rate_continuous c * dt +
          (coefficient_sum stoichiometry.products s : ℚ) *
            (Reaction_MassAction.make stoichiometry).rate_continuous c * dt := by
    intro s hs
    rw [hreact, hget2 s (by rw [hlen1]; exact hs), hget1 s hs]
    have h1 : ((stoichiometry.reactants.filter (fun sto => sto.1 == s)).map
        (fun sto => -((sto.2 : ℚ) *
          (Reaction_MassAction.make stoichiometry).rate_continuous c * dt))).sum =
        -((coefficient_sum stoichiometry.reactants s : ℚ) *
          (Reaction_MassAction.make stoichiometry).rate_continuous c * dt) := by
      have h := sum_map_coefficient_mul (stoichiometry.reactants.filter (fun sto => sto.1 == s))
        (-((Reaction_MassAction.make stoichiometry).rate_continuous c * dt))
      have hfun : (fun sto : Nat × Nat => -((sto.2 : ℚ) *
          (Reaction_MassAction.make stoichiometry).rate_continuous c * dt)) =
          (fun sto => (sto.2 : ℚ) *
            (-((Reaction_MassAction.make stoichiometry).rate_continuous c * dt))) := by
        funext sto
        ring
      rw [hfun, h, coefficient_sum]
      ring
    have h2 : ((stoichiometry.products.filter (fun sto => sto.1 == s)).map
        (fun sto => (sto.2 : ℚ) *
          (Reaction_MassAction.make stoichiometry).rate_continuous c * dt)).sum =
        (coefficient_sum stoichiometry.products s : ℚ) *
          (Reaction_MassAction.make stoichiometry).rate_continuous c * dt := by
      have h := sum_map_coefficient_mul (stoichiometry.products.filter (fun sto => sto.1 == s))
        ((Reaction_MassAction.make stoichiometry).rate_continuous c * dt)
      have hfun : (fun sto : Nat × Nat => (sto.2 : ℚ) *
          (Reaction_MassAction.make stoichiometry).rate_continuous c * dt) =
          (fun sto => (sto.2 : ℚ) *
            ((Reaction_MassAction.make stoichiometry).rate_continuous c * dt)) := by
        funext sto
        ring
      rw [hfun, h, coefficient_sum]
      ring
    rw [h1, h2]
    ring
  refine ⟨?_, ?_, ?_, hvalue, fun s hs hr hp => ?_⟩
  · show stoichiometry.reaction_rate / Reaction_MassAction.factor stoichiometry = _
    rw [factor_eq]
  · rw [Reaction_MassAction.rate_continuous, Reaction_MassAction.combinations_continuous,
      foldl_mul_eq_prod, one_mul]
    rfl
  · rw [hreact, hlen2, hlen1]
  · have hzero : ∀ side : List (Nat × Nat), s ∉ side.map Prod.fst → coefficient_sum side s = 0 := by
      intro side hside
      have hfilter : side.filter (fun sto => sto.1 == s) = [] := by
        rw [List.filter_eq_nil_iff]
        intro sto hsto hbeq
        apply hside
        have : sto.1 = s := by simpa using hbeq
        exact List.mem_map.2 ⟨sto, hsto, this⟩
      rw [coefficient_sum, hfilter]
      rfl
    rw [hvalue s hs, hzero _ hr, hzero _ hp]
    simp

end stochastic
namespace stochastic

theorem prod_factorial_ne_zero (side : List (Nat × Nat)) :
    (side.map (fun sto => Nat.factorial sto.2)).prod ≠ 0 := by
  induction side with
  | nil => simp
  | cons x xs ih =>
    rw [List.map_cons, List.prod_cons]
    exact Nat.mul_ne_zero (Nat.factorial_ne_zero _) ih

theorem prod_descFactorial_eq (side : List (Nat × Nat)) (numbers : List Nat) :
    (side.map (fun sto => Nat.descFactorial (numbers.getD sto.1 0) sto.2)).prod =
      (side.map (fun sto => Nat.factorial sto.2)).prod *
        (side.map (fun sto => Nat.choose (numbers.getD sto.1 0) sto.2)).prod := by
  induction side with
  | nil => simp
  | cons x xs ih =>
    rw [List.map_cons, List.prod_cons, ih, List.map_cons, List.prod_cons, List.map_cons,
      List.prod_cons, Nat.descFactorial_eq_factorial_mul_choose]
    ring

/-- C30: when the product of the falling factorials (the combination count) is below
`2 ^ 64`, the discrete `rate` is the base reaction rate times the product over the
reactants of the binomial coefficients `C(n_s, k_s)`, and equally the stored scaled
constant (base rate divided by the product of the `k_s!`) times the product of the
falling factorials; distinct reactant indices are not needed for this. -/
theorem rate_eq_base_mul_binomials (stoichiometry : Stoichiometry) (numbers : List Nat)
    (hcount : (stoichiometry.reactants.map
      (fun sto => Nat.descFactorial (numbers.getD sto.1 0) sto.2)).prod < 2 ^ 64) :
    (Reaction_MassAction.make stoichiometry).rate numbers =
        stoichiometry.reaction_rate *
          (((stoichiometry.reactants.map
            (fun sto => Nat.choose (numbers.getD sto.1 0) sto.2)).prod : Nat) : ℚ) ∧
      (Reaction_MassAction.make stoichiometry).rate numbers =
        (Reaction_MassAction.make stoichiometry).reaction_rate_scaled *
          (((stoichiometry.reactants.map
            (fun sto => Nat.descFactorial (numbers.getD sto.1 0) sto.2)).prod : Nat) : ℚ) ∧
      (Reaction_MassAction.make stoichiometry).reaction_rate_scaled =
        stoichiometry.reaction_rate /
          (((stoichiometry.reactants.map (fun sto => Nat.factorial sto.2)).prod : Nat) : ℚ) := by
  have hscaled : (Reaction_MassAction.make stoichiometry).reaction_rate_scaled =
      stoichiometry.reaction_rate /
        (((stoichiometry.reactants.map (fun sto => Nat.factorial sto.2)).prod : Nat) : ℚ) := by
    show stoichiometry.reaction_rate / Reaction_MassAction.factor stoichiometry = _
    rw [factor_eq]
  have hfalling : (Reaction_MassAction.make stoichiometry).rate numbers =
      (Reaction_MassAction.make stoichiometry).reaction_rate_scaled *
        (((stoichiometry.reactants.map
          (fun sto => Nat.descFactorial (numbers.getD sto.1 0) sto.2)).prod : Nat) : ℚ) := by
    rw [Reaction_MassAction.rate, combinations_eq]
    show _ * ((((stoichiometry.reactants.map
      (fun sto => Nat.descFactorial (numbers.getD sto.1 0) sto.2)).prod % 2 ^ 64 : Nat)) : ℚ) = _
    rw [Nat.mod_eq_of_lt hcount]
  refine ⟨?_, hfalling, hscaled⟩
  have hne : ((((stoichiometry.reactants.map (fun sto => Nat.factorial sto.2)).prod : Nat)) : ℚ)
      ≠ 0 := Nat.cast_ne_zero.2 (prod_factorial_ne_zero _)
  rw [hfalling, hscaled, prod_descFactorial_eq, Nat.cast_mul]
  generalize ((((stoichiometry.reactants.map (fun sto => Nat.factorial sto.2)).prod : Nat)) : ℚ)
    = F at hne ⊢
  generalize ((((stoichiometry.reactants.map
    (fun sto => Nat.choose (numbers.getD sto.1 0) sto.2)).prod : Nat)) : ℚ) = C
  field_simp
  ring

theorem rate_eq_base_mul_binomials_witness :
    ((Reaction_MassAction.make stoichiometry_pair).stoichiometry.reactants.map
        (fun sto => Nat.descFactorial (([5] : List Nat).getD sto.1 0) sto.2)).prod < 2 ^ 64 ∧
      (Reaction_MassAction.make stoichiometry_pair).rate [5] =
        stoichiometry_pair.reaction_rate *
          (((stoichiometry_pair.reactants.map
            (fun sto => Nat.choose (([5] : List Nat).getD sto.1 0) sto.2)).prod : Nat) : ℚ) ∧
      ((stoichiometry_pair.reactants.map
        (fun sto => Nat.choose (([5] : List Nat).getD sto.1 0) sto.2)).prod) = 10 :=
  ⟨by decide, (rate_eq_base_mul_binomials stoichiometry_pair [5] (by decide)).1, by decide⟩

end stochastic

namespace gillespie

theorem evolve_time_next_of_max_ne_zero (g : Gillespie) (d : Draw)
    (h : max_element (g.reactions.map (fun reaction => reaction.rate g.particle_container)) ≠ 0) :
    (g.evolve d).time_next_reaction =
      g.time_current +
        ((d.waiting (g.reactions.map (fun reaction => reaction.rate g.particle_container)) : ℚ)
          : Time) +
        ((d.delay (d.waiting
          (g.reactions.map (fun reaction => reaction.rate g.particle_container))) : ℚ) : Time) := by
  simp [Gillespie.evolve, Gillespie.rates, h, Gillespie.pick_reaction,
    Gillespie.compute_time_next_reaction, Gillespie.react]

/-- C29: an engine built by `make_Gillespie_MassAction` or
`make_Gillespie_MassAction_Delay` without a time argument starts with time 0, the given
particle numbers and `reaction()` false; with a time argument `t` it starts with time
`t`; and the delay functor of an engine built by `make_Gillespie_MassAction` answers 0 to
every waiting time, so that `evolve()` sets `time_next()` to the time plus the waiting
time. -/
theorem factories_initial_state (numbers : List Nat) (t : Time) (delay_time : Nat → ℚ → ℚ)
    (stoichiometry : List stochastic.Stoichiometry) (u : Uninitialized) :
    ((make_Gillespie_MassAction_default_time numbers stoichiometry u).1.time_current = 0 ∧
      (make_Gillespie_MassAction_default_time numbers stoichiometry u).1.particle_container =
        numbers ∧
      (make_Gillespie_MassAction_default_time numbers stoichiometry u).1.reacted = false) ∧
    ((make_Gillespie_MassAction_Delay_default_time numbers delay_time stoichiometry u
        ).1.time_current = 0 ∧
      (make_Gillespie_MassAction_Delay_default_time numbers delay_time stoichiometry u
        ).1.particle_container = numbers ∧
      (make_Gillespie_MassAction_Delay_default_time numbers delay_time stoichiometry u
        ).1.reacted = false) ∧
    ((make_Gillespie_MassAction numbers t stoichiometry u).1.time_current = t ∧
      (make_Gillespie_MassAction numbers t stoichiometry u).1.particle_container = numbers ∧
      (make_Gillespie_MassAction numbers t stoichiometry u).1.reacted = false) ∧
    ((make_Gillespie_MassAction_Delay numbers t delay_time stoichiometry u).1.time_current = t ∧
      (make_Gillespie_MassAction_Delay numbers t delay_time stoichiometry u
        ).1.particle_container = numbers ∧
      (make_Gillespie_MassAction_Delay numbers t delay_time stoichiometry u).1.reacted = false ∧
      (make_Gillespie_MassAction_Delay numbers t delay_time stoichiometry u).2 = delay_time) ∧
    (∀ (n : Nat) (waiting : ℚ),
      (make_Gillespie_MassAction numbers t stoichiometry u).2 n waiting = 0 ∧
      (make_Gillespie_MassAction_default_time numbers stoichiometry u).2 n waiting = 0) ∧
    (∀ (d : Draw) (n : Nat),
      d.delay = (make_Gillespie_MassAction numbers t stoichiometry u).2 n →
      max_element ((make_Gillespie_MassAction numbers t stoichiometry u).1.reactions.map
        (fun reaction => reaction.rate numbers)) ≠ 0 →
      ((make_Gillespie_MassAction numbers t stoichiometry u).1.evolve d).time_next_reaction =
        t + ((d.waiting ((make_Gillespie_MassAction numbers t stoichiometry u).1.reactions.map
          (fun reaction => reaction.rate numbers)) : ℚ) : Time)) := by
  refine ⟨⟨rfl, rfl, rfl⟩, ⟨rfl, rfl, rfl⟩, ⟨rfl, rfl, rfl⟩, ⟨rfl, rfl, rfl, rfl⟩,
    fun _ _ => ⟨rfl, rfl⟩, fun d n hd hmax => ?_⟩
  have h := evolve_time_next_of_max_ne_zero
    (make_Gillespie_MassAction numbers t stoichiometry u).1 d hmax
  rw [h, hd]
  show t + _ + (((0 : ℚ)) : Time) = t + _
  rw [WithTop.coe_zero, add_zero]
  rfl

theorem factories_initial_state_witness :
    (make_Gillespie_MassAction_default_time [100000, 100000] [stoichiometry_1]
        (Uninitialized.mk 3 4 5 6 [])).1.time_current = 0 ∧
      (make_Gillespie_MassAction_default_time [100000, 100000] [stoichiometry_1]
        (Uninitialized.mk 3 4 5 6 [])).1.particle_container = [100000, 100000] ∧
      (make_Gillespie_MassAction_default_time [100000, 100000] [stoichiometry_1]
        (Uninitialized.mk 3 4 5 6 [])).1.reacted = false ∧
      (make_Gillespie_MassAction [100000, 100000] 7 [stoichiometry_1]
        (Uninitialized.mk 3 4 5 6 [])).2 0 2 = 0 :=
  have h := factories_initial_state [100000, 100000] 7 (fun _ _ => 1) [stoichiometry_1]
    (Uninitialized.mk 3 4 5 6 [])
  ⟨h.1.1, h.1.2.1, h.1.2.2, (h.2.2.2.2.1 0 2).1⟩

end gillespie

/-! ## Time after a halt, and the flag and time of the bulk advance -/

namespace gillespie

theorem evolve_time_current_eq_next (g : Gillespie) (d : Draw) :
    (g.evolve d).time_current = (g.evolve d).time_next_reaction := rfl

theorem evolve_time_top (g : Gillespie) (d : Draw) (h : g.time_current = ⊤) :
    (g.evolve d).time_current = ⊤ := by
  rw [evolve_time_current_eq_next]
  by_cases hmax :
      max_element (g.reactions.map (fun reaction => reaction.rate g.particle_container)) = 0
  · exact (evolve_of_max_zero g d hmax).2.2
  · rw [evolve_time_next_of_max_ne_zero g d hmax, h, WithTop.top_add, WithTop.top_add]

theorem remove_time_current (g : Gillespie) (type increment : Nat) :
    (g.remove type increment).time_current = g.time_current := by
  unfold Gillespie.remove
  split <;> rfl

theorem step_time_top (g : Gillespie) (call : Step) (h : g.time_current = ⊤) :
    (g.step call).time_current = ⊤ := by
  cases call with
  | evolve d => exact evolve_time_top g d h
  | add type increment => exact h
  | remove type increment =>
    show (g.remove type increment).time_current = ⊤
    rw [remove_time_current]
    exact h
  | set_type type particle_nr => exact h
  | clear => exact h

theorem steps_time_top (calls : List Step) (g : Gillespie) (h : g.time_current = ⊤) :
    (g.steps calls).time_current = ⊤ := by
  induction calls generalizing g with
  | nil => exact h
  | cons call calls ih => exact ih (g.step call) (step_time_top g call h)

/-- C31: after an `evolve()` call made in a state where all rates are zero, `time()`
itself is `+infinity`, and it is still `+infinity` after any sequence of further
`evolve()` calls and of calls that add, remove or set particles (even when the rates
become positive); `set(particles, t)` and `time(t)` then put it to `t`. -/
theorem time_infinite_after_halt (g : Gillespie) (d : Draw) (calls : List Step)
    (p : List Nat) (t : Time)
    (h : ∀ reaction ∈ g.reactions, reaction.rate g.particle_container = 0) :
    (g.evolve d).time_current = ⊤ ∧
      ((g.evolve d).steps calls).time_current = ⊤ ∧
      (((g.evolve d).steps calls).set p t).time_current = t ∧
      (((g.evolve d).steps calls).time t).time_current = t := by
  have hmax := max_element_rates_zero g h
  have htop : (g.evolve d).time_current = ⊤ := by
    rw [evolve_time_current_eq_next]
    exact (evolve_of_max_zero g d hmax).2.2
  exact ⟨htop, steps_time_top calls _ htop, rfl, rfl⟩

theorem time_infinite_after_halt_witness :
    (∀ reaction ∈ (engine_1 [0, 3]).reactions,
        reaction.rate (engine_1 [0, 3]).particle_container = 0) ∧
      ((engine_1 [0, 3]).evolve (draw_of 0 1)).time_current = ⊤ ∧
      (((engine_1 [0, 3]).evolve (draw_of 0 1)).steps
        [Step.add 0 5, Step.evolve (draw_of 0 1)]).particle_container = [4, 2] ∧
      (((engine_1 [0, 3]).evolve (draw_of 0 1)).steps
        [Step.add 0 5, Step.evolve (draw_of 0 1)]).time_current = ⊤ ∧
      ((((engine_1 [0, 3]).evolve (draw_of 0 1)).steps
        [Step.add 0 5, Step.evolve (draw_of 0 1)]).time 2).time_current = 2 := by
  have h : ∀ reaction ∈ (engine_1 [0, 3]).reactions,
      reaction.rate (engine_1 [0, 3]).particle_container = 0 := by
    simp [engine_1, engine_of, of_MassAction, rate_stoichiometry_1]
  have hw := time_infinite_after_halt (engine_1 [0, 3]) (draw_of 0 1)
    [Step.add 0 5, Step.evolve (draw_of 0 1)] [] 2 h
  refine ⟨h, hw.1, ?_, hw.2.1, hw.2.2.2⟩
  have hfirst : ((engine_1 [0, 3]).evolve (draw_of 0 1)).particle_container = [0, 3] :=
    (evolve_of_max_zero (engine_1 [0, 3]) (draw_of 0 1) (max_element_rates_zero _ h)).2.1
  have hreactions : ((engine_1 [0, 3]).evolve (draw_of 0 1)).reactions =
      [of_MassAction (stochastic.Reaction_MassAction.make (stochastic.stoichiometry_annihilation 1))] :=
    evolve_reactions _ _
  have hadd : (((engine_1 [0, 3]).evolve (draw_of 0 1)).add 0 5).particle_container = [5, 3] := by
    show (((engine_1 [0, 3]).evolve (draw_of 0 1)).particle_container.set 0 _) = _
    rw [hfirst]
    decide
  show ((((engine_1 [0, 3]).evolve (draw_of 0 1)).add 0 5).evolve (draw_of 0 1)).particle_container
    = [4, 2]
  have hmax : max_element ((((engine_1 [0, 3]).evolve (draw_of 0 1)).add 0 5).reactions.map
      (fun reaction => reaction.rate
        (((engine_1 [0, 3]).evolve (draw_of 0 1)).add 0 5).particle_container)) ≠ 0 := by
    rw [hadd]
    show max_element (((engine_1 [0, 3]).evolve (draw_of 0 1)).reactions.map _) ≠ 0
    rw [hreactions]
    simp [max_element, of_MassAction, rate_annihilation]
  have hstep := evolve_of_max_ne_zero_single (((engine_1 [0, 3]).evolve (draw_of 0 1)).add 0 5)
    (draw_of 0 1) _ hreactions hmax
  rw [hstep.2, hadd]
  decide

end gillespie

namespace gillespie

theorem evolve_next_ge_of_nonneg (g : Gillespie) (d : Draw)
    (hwaiting : 0 ≤ d.waiting (g.reactions.map (fun reaction => reaction.rate g.particle_container)))
    (hdelay : 0 ≤ d.delay (d.waiting
      (g.reactions.map (fun reaction => reaction.rate g.particle_container)))) :
    g.time_current ≤ (g.evolve d).time_next_reaction := by
  by_cases hmax :
      max_element (g.reactions.map (fun reaction => reaction.rate g.particle_container)) = 0
  · rw [evolve_time_next_of_max_zero g d hmax]
    exact le_top
  · rw [evolve_time_next_of_max_ne_zero g d hmax, add_assoc]
    apply le_add_of_nonneg_right
    apply add_nonneg
    · exact WithTop.coe_nonneg.2 hwaiting
    · exact WithTop.coe_nonneg.2 hdelay

/-- C32: whenever `evolve(time_max)` returns, `time()` equals `time_max`; and when
`time_max` is earlier than the time before the call and the waiting time and the delay of
the first pass are non-negative, the call returns after one pass without committing a
reaction, with the particle numbers unchanged and the time moved back to `time_max`. -/
theorem evolve_time_max_time_exact (g : Gillespie) (time_max : Time) (fuel : Nat)
    (draws : Nat → Draw) :
    (∀ p, g.evolve_time_max time_max fuel draws = some p → p.1.time_current = time_max) ∧
      (time_max < g.time_current →
        0 ≤ (draws 0).waiting
          (g.reactions.map (fun reaction => reaction.rate g.particle_container)) →
        0 ≤ (draws 0).delay ((draws 0).waiting
          (g.reactions.map (fun reaction => reaction.rate g.particle_container))) →
        ∃ g1 : Gillespie, g.evolve_time_max time_max (fuel + 1) draws = some (g1, 0) ∧
          g1.time_current = time_max ∧ g1.time_current < g.time_current ∧
          g1.particle_container = g.particle_container) := by
  refine ⟨fun p h => (evolve_loop_times time_max fuel draws _ p h).1, ?_⟩
  intro hback hwaiting hdelay
  have hge := evolve_next_ge_of_nonneg ({ g with reacted := false } : Gillespie) (draws 0)
    hwaiting hdelay
  have hstop : ¬ (({ g with reacted := false } : Gillespie).evolve (draws 0)).time_next_reaction
      < time_max := fun hlt => absurd (lt_of_le_of_lt hge hlt) (not_lt.2 (le_of_lt hback))
  obtain ⟨g1, hg1, htime, hparticles, _⟩ := evolve_loop_stop time_max fuel draws _ hstop
  exact ⟨g1, hg1, htime, by rw [htime]; exact hback, hparticles⟩

/-- An instance of the second part of C32: from time 2 with `time_max = 1` the engine of
`batch_delay.cpp` with particles `[2, 2]` commits nothing and ends at time 1. -/
theorem evolve_time_max_moves_back :
    ∃ g1 : Gillespie,
      ((engine_1 [2, 2]).time 2).evolve_time_max 1 1 (fun _ => draw_of 0 1) = some (g1, 0) ∧
      g1.time_current = 1 ∧ g1.particle_container = [2, 2] := by
  have h := (evolve_time_max_time_exact ((engine_1 [2, 2]).time 2) 1 0
    (fun _ => draw_of 0 1)).2
  have hback : (1 : Time) < ((engine_1 [2, 2]).time 2).time_current := by
    show ((1 : ℚ) : Time) < ((2 : ℚ) : Time)
    rw [WithTop.coe_lt_coe]
    norm_num
  obtain ⟨g1, hg1, htime, _, hparticles⟩ := h hback (by simp [draw_of]) (by simp [draw_of])
  exact ⟨g1, hg1, htime, hparticles⟩

/-- C34: after `evolve(time_max)` has returned, `reaction()` is true if and only if at
least one reaction was committed during the call, and the call does not depend on the
flag that an earlier call left. -/
theorem evolve_time_max_reacted_iff (g : Gillespie) (time_max : Time) (fuel : Nat)
    (draws : Nat → Draw) (p : Gillespie × Nat)
    (h : g.evolve_time_max time_max fuel draws = some p) :
    (p.1.reacted = true ↔ 0 < p.2) ∧
      ∀ flag : Bool,
        ({ g with reacted := flag } : Gillespie).evolve_time_max time_max fuel draws = some p := by
  have hloop := evolve_loop_times time_max fuel draws _ p h
  refine ⟨⟨fun hflag => ?_, fun hpos => (hloop.2.2 hpos).2⟩, fun flag => h⟩
  by_contra hzero
  have hfalse : p.1.reacted = false := (hloop.2.1 (by omega)).2
  rw [hflag] at hfalse
  exact Bool.noConfusion hfalse

theorem evolve_time_max_reacted_iff_witness :
    ∃ p : Gillespie × Nat,
      (engine_1 [2, 2]).evolve_time_max ((3 / 2 : ℚ) : Time) 2 (fun _ => draw_of 0 1) = some p ∧
      p.2 = 1 ∧ p.1.reacted = true ∧
      ({ engine_1 [2, 2] with reacted := true } : Gillespie).evolve_time_max
        ((3 / 2 : ℚ) : Time) 2 (fun _ => draw_of 0 1) = some p := by
  obtain ⟨g1, hg1⟩ := engine_1_run
  have h := evolve_time_max_reacted_iff (engine_1 [2, 2]) ((3 / 2 : ℚ) : Time) 2
    (fun _ => draw_of 0 1) (g1, 1) hg1
  exact ⟨(g1, 1), hg1, rfl, h.1.2 Nat.one_pos, h.2 true⟩

/-- C35: for a valid species index and `k >= 1` with `count + k` below `2 ^ 64`,
`add(type, k)` followed by `remove(type, k)` gives back the original particle numbers if
and only if the species' original count is positive; when it is 0 the removal is refused
and the count stays `k`. -/
theorem add_remove_restores_iff (g : Gillespie) (type k : Nat)
    (htype : type < g.particle_container.length) (hk : 1 ≤ k)
    (hsize : g.particle_container.getD type 0 + k < 2 ^ 64) :
    (((g.add type k).remove type k).particle_container = g.particle_container ↔
        0 < g.particle_container.getD type 0) ∧
      (g.particle_container.getD type 0 = 0 →
        ((g.add type k).remove type k).particle_container = (g.add type k).particle_container ∧
        ((g.add type k).remove type k).particle_container.getD type 0 = k) := by
  have hadd : stochastic.size_t_add (g.particle_container.getD type 0) k =
      g.particle_container.getD type 0 + k := by
    simp only [stochastic.size_t_add, stochastic.size_t_range]
    omega
  have hget : (g.add type k).particle_container.getD type 0 =
      g.particle_container.getD type 0 + k := by
    show (g.particle_container.set type _).getD type 0 = _
    rw [hadd, List.getD_eq_getElem?_getD, List.getElem?_set_self htype]
    rfl
  by_cases hpos : 0 < g.particle_container.getD type 0
  · have hgt : (g.add type k).particle_container.getD type 0 > k := by rw [hget]; omega
    have hremove : ((g.add type k).remove type k).particle_container = g.particle_container := by
      unfold Gillespie.remove
      rw [if_pos hgt, hget, size_t_sub_of_le _ _ (Nat.le_add_left _ _) hsize,
        Nat.add_sub_cancel]
      show (g.particle_container.set type _).set type _ = _
      rw [List.set_set]
      apply List.ext_getElem
      · simp
      · intro i h1 h2
        by_cases hi : type = i
        · subst hi
          simp [List.getD_eq_getElem?_getD, List.getElem?_eq_getElem h2]
        · simp [List.getElem_set_ne hi]
    exact ⟨⟨fun _ => hpos, fun _ => hremove⟩, fun hzero => absurd hzero (by omega)⟩
  · have hzero : g.particle_container.getD type 0 = 0 := by omega
    have hle : ¬ (g.add type k).particle_container.getD type 0 > k := by rw [hget]; omega
    have hremove : ((g.add type k).remove type k).particle_container =
        (g.add type k).particle_container := by
      unfold Gillespie.remove
      rw [if_neg hle]
    refine ⟨⟨fun heq => ?_, fun h => absurd h hpos⟩, fun _ => ⟨hremove, ?_⟩⟩
    · have hcount : ((g.add type k).remove type k).particle_container.getD type 0 = k := by
        rw [hremove, hget, hzero, Nat.zero_add]
      rw [heq, hzero] at hcount
      omega
    · rw [hremove, hget, hzero, Nat.zero_add]

theorem add_remove_restores_iff_witness :
    (1 < (engine_1 [0, 3]).particle_container.length) ∧
      (((engine_1 [0, 3]).add 1 2).remove 1 2).particle_container = [0, 3] ∧
      (((engine_1 [0, 3]).add 0 2).remove 0 2).particle_container = [2, 3] ∧
      ((((engine_1 [0, 3]).add 1 2).remove 1 2).particle_container =
          (engine_1 [0, 3]).particle_container ↔
        0 < (engine_1 [0, 3]).particle_container.getD 1 0) :=
  ⟨by decide, by decide, by decide,
    (add_remove_restores_iff (engine_1 [0, 3]) 1 2 (by decide) (by decide) (by decide)).1⟩

end gillespie

/-! ## Patches and streamtubes -/

namespace streamtube

theorem generate_reactive {Mass : Type} (patch : PatchGenerator_alternating Mass) :
    patch.generate.reactive = !patch.reactive := by
  unfold PatchGenerator_alternating.generate PatchGenerator_alternating.reactive
  cases h : patch.current_reactive <;> simp [PatchGenerator_alternating.reactive, h]

theorem generate_n_reactive {Mass : Type} (patch : PatchGenerator_alternating Mass) (k : Nat) :
    (patch.generate_n k).reactive = if k % 2 = 0 then patch.reactive else !patch.reactive := by
  induction k with
  | zero => rfl
  | succ k ih =>
    rw [PatchGenerator_alternating.generate_n, generate_reactive, ih]
    by_cases hk : k % 2 = 0
    · have hk1 : ¬ (k + 1) % 2 = 0 := by omega
      rw [if_pos hk, if_neg hk1]
    · have hk1 : (k + 1) % 2 = 0 := by omega
      rw [if_neg hk, if_pos hk1, Bool.not_not]

/-- C38: a `PatchGenerator_alternating` is reactive right after construction, every
`generate()` call flips `reactive()`, so the `k`-th patch generated (the constructor's
being number 0) is reactive if and only if `k` is even; a `generate()` call that enters a
reactive patch takes the next answer of the particle generator as the immobile masses, and
one that enters a conservative patch leaves the masses untouched and does not call the
particle generator. -/
theorem generate_alternates {Mass : Type} (reactive_length conservative_length : Nat → ℚ)
    (particle_generator : Nat → List Mass) (uninitialized : ℚ) (k : Nat)
    (patch : PatchGenerator_alternating Mass) :
    (PatchGenerator_alternating.construct reactive_length conservative_length
        particle_generator uninitialized).reactive = true ∧
      patch.generate.reactive = (!patch.reactive) ∧
      (((PatchGenerator_alternating.construct reactive_length conservative_length
          particle_generator uninitialized).generate_n k).reactive = true ↔ k % 2 = 0) ∧
      (patch.generate.reactive = true →
        patch.generate.current_particles =
          patch.particle_generator patch.particle_generator_calls ∧
        patch.generate.particle_generator_calls = patch.particle_generator_calls + 1 ∧
        patch.generate.current_length = patch.reactive_length patch.reactive_length_calls) ∧
      (patch.generate.reactive = false →
        patch.generate.current_particles = patch.current_particles ∧
        patch.generate.particle_generator_calls = patch.particle_generator_calls ∧
        patch.generate.current_length =
          patch.conservative_length patch.conservative_length_calls) := by
  have hconstruct : (PatchGenerator_alternating.construct reactive_length conservative_length
      particle_generator uninitialized).reactive = true := rfl
  refine ⟨hconstruct, generate_reactive patch, ?_, ?_, ?_⟩
  · rw [generate_n_reactive, hconstruct]
    by_cases hk : k % 2 = 0
    · simp [hk]
    · simp [hk]
  · intro h
    rw [generate_reactive] at h
    have hflag : patch.current_reactive = false := by
      simpa [PatchGenerator_alternating.reactive] using h
    simp [PatchGenerator_alternating.generate, PatchGenerator_alternating.reactive, hflag]
  · intro h
    rw [generate_reactive] at h
    have hflag : patch.current_reactive = true := by
      simpa [PatchGenerator_alternating.reactive] using h
    simp [PatchGenerator_alternating.generate, PatchGenerator_alternating.reactive, hflag]

/-- The first three patches of `patch_1`. -/
theorem patch_1_first_patches :
    patch_1.reactive = true ∧ patch_1.current_particles = [1] ∧ patch_1.current_length = 2 ∧
      (patch_1.mass_set 0 7).generate.reactive = false ∧
      (patch_1.mass_set 0 7).generate.current_particles = [7] ∧
      (patch_1.mass_set 0 7).generate.current_length = 3 ∧
      (patch_1.mass_set 0 7).generate.generate.reactive = true ∧
      (patch_1.mass_set 0 7).generate.generate.current_particles = [1] :=
  ⟨rfl, rfl, rfl, rfl, rfl, rfl, rfl, rfl⟩

end streamtube

namespace streamtube

theorem foldl_mass_set_length {Mass : Type} (f : Nat → Mass) (types : List Nat)
    (patch : PatchGenerator_alternating Mass) :
    (types.foldl (fun patch type => patch.mass_set type (f type)) patch).current_length =
      patch.current_length := by
  induction types generalizing patch with
  | nil => rfl
  | cons type types ih =>
    rw [List.foldl_cons, ih]
    rfl

theorem set_state_fields {A R Mass : Type} [Zero Mass] (reactor_ops : Reactor R Mass)
    (s : StreamTubeDynamics A R Mass) :
    (s.set_state reactor_ops).current_position = s.current_position ∧
      (s.set_state reactor_ops).current_time = s.current_time ∧
      (s.set_state reactor_ops).advection = s.advection ∧
      (s.set_state reactor_ops).position_in_patch = s.position_in_patch ∧
      (s.set_state reactor_ops).patch.length = s.patch.length :=
  ⟨rfl, rfl, rfl, rfl, foldl_mass_set_length _ _ _⟩

theorem react_fields {A R Mass : Type} [Zero Mass] (advection_ops : Advection A)
    (reactor_ops : Reactor R Mass) (s : StreamTubeDynamics A R Mass) (position_increment : ℚ) :
    (s.react advection_ops reactor_ops position_increment).current_position =
        s.current_position + position_increment ∧
      (s.react advection_ops reactor_ops position_increment).current_time =
        s.current_time + position_increment / advection_ops.value s.advection ∧
      (s.react advection_ops reactor_ops position_increment).advection = s.advection ∧
      (s.react advection_ops reactor_ops position_increment).position_in_patch =
        s.position_in_patch ∧
      (s.react advection_ops reactor_ops position_increment).patch.length = s.patch.length := by
  unfold StreamTubeDynamics.react
  by_cases hreactive : s.patch.reactive = true
  · simp only [hreactive, if_true]
    obtain ⟨h1, h2, h3, h4, h5⟩ := set_state_fields reactor_ops
      ({ s.set_reactor reactor_ops with
          reactor := reactor_ops.evolve (s.set_reactor reactor_ops).reactor
            ((s.set_reactor reactor_ops).current_time +
              position_increment / advection_ops.value s.advection) } :
        StreamTubeDynamics A R Mass)
    refine ⟨?_, ?_, h3, h4, h5⟩
    · show _ + position_increment = _
      rw [h1]
      rfl
    · show _ + position_increment / advection_ops.value s.advection = _
      rw [h2]
      rfl
  · simp only [hreactive]
    exact ⟨rfl, rfl, rfl, rfl, rfl⟩

/-- What the passes of the loop of `evolve_position` keep: the position and the time are
the starting ones plus the sums over the segments, the position is short of the final one,
and the advection object comes from the starting one by `generate()` calls. -/
theorem evolve_position_loop_invariant {A R Mass : Type} [Zero Mass]
    (advection_ops : Advection A) (reactor_ops : Reactor R Mass) (position time : ℚ)
    (advection : A) (final_position : ℚ)
    (hadvection : ∀ n : Nat, advection_ops.value ((advection_ops.generate)^[n] advection) ≠ 0)
    (fuel : Nat) (s : StreamTubeDynamics A R Mass) (segments : List (ℚ × ℚ))
    (p : StreamTubeDynamics A R Mass × List (ℚ × ℚ))
    (hinv : s.current_position = position + (segments.map Prod.fst).sum ∧
      s.current_time = time + (segments.map (fun segment => segment.1 / segment.2)).sum ∧
      s.current_position < final_position ∧
      (∃ n : Nat, s.advection = (advection_ops.generate)^[n] advection) ∧
      ∀ segment ∈ segments, segment.2 ≠ 0)
    (h : StreamTubeDynamics.evolve_position_loop advection_ops reactor_ops final_position fuel s
      segments = some p) :
    (p.1.current_position = position + (p.2.map Prod.fst).sum ∧
      p.1.current_time = time + (p.2.map (fun segment => segment.1 / segment.2)).sum ∧
      p.1.current_position < final_position ∧
      (∃ n : Nat, p.1.advection = (advection_ops.generate)^[n] advection) ∧
      ∀ segment ∈ p.2, segment.2 ≠ 0) ∧
      ¬ p.1.current_position + p.1.patch.length < final_position := by
  induction fuel generalizing s segments with
  | zero =>
    rw [StreamTubeDynamics.evolve_position_loop] at h
    by_cases hc : s.current_position + s.patch.length < final_position
    · rw [if_pos hc] at h
      exact Option.noConfusion h
    · rw [if_neg hc] at h
      obtain rfl := Option.some.inj h
      exact ⟨hinv, hc⟩
  | succ fuel ih =>
    rw [StreamTubeDynamics.evolve_position_loop] at h
    by_cases hc : s.current_position + s.patch.length < final_position
    · rw [if_pos hc] at h
      refine ih _ _ ?_ h
      obtain ⟨hposition, htime, _, ⟨n, hn⟩, hsegments⟩ := hinv
      obtain ⟨h1, h2, h3, _, _⟩ := react_fields advection_ops reactor_ops s s.patch.length
      refine ⟨?_, ?_, ?_, ⟨n + 1, ?_⟩, ?_⟩
      · show (s.react advection_ops reactor_ops s.patch.length).current_position = _
        rw [h1, hposition, List.map_append, List.sum_append]
        simp [add_assoc]
      · show (s.react advection_ops reactor_ops s.patch.length).current_time = _
        rw [h2, htime, List.map_append, List.sum_append]
        simp [add_assoc]
      · show (s.react advection_ops reactor_ops s.patch.length).current_position < _
        rw [h1]
        exact hc
      · show advection_ops.generate (s.react advection_ops reactor_ops s.patch.length).advection = _
        rw [h3, hn, Function.iterate_succ_apply']
      · intro segment hmem
        rcases List.mem_append.1 hmem with hold | hnew
        · exact hsegments segment hold
        · obtain rfl := List.mem_singleton.1 hnew
          show advection_ops.value s.advection ≠ 0
          rw [hn]
          exact hadvection n
    · rw [if_neg hc] at h
      obtain rfl := Option.some.inj h
      exact ⟨hinv, hc⟩

end streamtube

namespace streamtube

/-- C37: for a streamtube whose offset in the current patch lies between 0 and the patch
length, with non-zero advection after any number of `generate()` calls, and a final
position not before the current one: if `evolve_position(final_position)` returns, then
`position()` equals `final_position`, the offset again lies between 0 and the length of
the (new) current patch, and the elapsed time is the sum over the traversed segments of
segment length divided by the advection during that segment; the segment lengths add up to
the distance travelled. -/
theorem evolve_position_reaches {A R Mass : Type} [Zero Mass] (advection_ops : Advection A)
    (reactor_ops : Reactor R Mass) (s : StreamTubeDynamics A R Mass) (final_position : ℚ)
    (fuel : Nat) (p : StreamTubeDynamics A R Mass × List (ℚ × ℚ))
    (hoffset : 0 ≤ s.position_in_patch ∧ s.position_in_patch ≤ s.patch.length)
    (hadvection : ∀ n : Nat, advection_ops.value ((advection_ops.generate)^[n] s.advection) ≠ 0)
    (hfinal : s.position ≤ final_position)
    (h : s.evolve_position advection_ops reactor_ops final_position fuel = some p) :
    p.1.position = final_position ∧
      0 ≤ p.1.position_in_patch ∧ p.1.position_in_patch ≤ p.1.patch.length ∧
      p.1.time = s.time + (p.2.map (fun segment => segment.1 / segment.2)).sum ∧
      (p.2.map Prod.fst).sum = final_position - s.position ∧
      ∀ segment ∈ p.2, segment.2 ≠ 0 := by
  have hfinal1 : s.current_position ≤ final_position := hfinal
  unfold StreamTubeDynamics.evolve_position at h
  by_cases hc : s.current_position + s.patch.length - s.position_in_patch < final_position
  · rw [if_pos hc] at h
    dsimp only at h
    obtain ⟨h1, h2, h3, _, _⟩ := react_fields advection_ops reactor_ops s
      (s.patch.length - s.position_in_patch)
    cases hloop : StreamTubeDynamics.evolve_position_loop advection_ops reactor_ops final_position
        fuel ((s.react advection_ops reactor_ops (s.patch.length - s.position_in_patch)).generate
          advection_ops)
        [(s.patch.length - s.position_in_patch, advection_ops.value s.advection)] with
    | none =>
      rw [hloop] at h
      exact Option.noConfusion h
    | some q =>
      obtain ⟨s2, segments⟩ := q
      rw [hloop] at h
      dsimp only at h
      obtain ⟨⟨hposition, htime, hshort, ⟨n, hn⟩, hsegments⟩, hstop⟩ :=
        evolve_position_loop_invariant advection_ops reactor_ops s.current_position s.current_time
          s.advection final_position hadvection fuel _ _ (s2, segments)
          ⟨by
            show (s.react advection_ops reactor_ops _).current_position = _
            rw [h1]
            simp,
          by
            show (s.react advection_ops reactor_ops _).current_time = _
            rw [h2]
            simp,
          by
            show (s.react advection_ops reactor_ops _).current_position < _
            rw [h1]
            linarith,
          ⟨1, by
            show advection_ops.generate (s.react advection_ops reactor_ops _).advection = _
            rw [h3]
            rfl⟩,
          by
            intro segment hmem
            obtain rfl := List.mem_singleton.1 hmem
            exact hadvection 0⟩ hloop
      obtain rfl := Option.some.inj h
      obtain ⟨g1, g2, g3, g4, g5⟩ := react_fields advection_ops reactor_ops
        ({ s2 with position_in_patch := final_position - s2.current_position } :
          StreamTubeDynamics A R Mass) (final_position - s2.current_position)
      have hposition2 : s2.current_position = s.current_position + (segments.map Prod.fst).sum :=
        hposition
      have htime2 : s2.current_time = s.current_time +
          (segments.map (fun segment => segment.1 / segment.2)).sum := htime
      have hshort2 : s2.current_position < final_position := hshort
      have hstop2 : ¬ s2.current_position + s2.patch.length < final_position := hstop
      refine ⟨?_, ?_, ?_, ?_, ?_, ?_⟩
      · show (StreamTubeDynamics.react advection_ops reactor_ops _ _).current_position = _
        rw [g1]
        show s2.current_position + (final_position - s2.current_position) = final_position
        ring
      · show 0 ≤ (StreamTubeDynamics.react advection_ops reactor_ops _ _).position_in_patch
        rw [g4]
        show 0 ≤ final_position - s2.current_position
        linarith
      · show (StreamTubeDynamics.react advection_ops reactor_ops _ _).position_in_patch ≤
          (StreamTubeDynamics.react advection_ops reactor_ops _ _).patch.length
        rw [g4, g5]
        show final_position - s2.current_position ≤ s2.patch.length
        linarith [not_lt.1 hstop2]
      · show (StreamTubeDynamics.react advection_ops reactor_ops _ _).current_time = _
        rw [g2]
        show s2.current_time + (final_position - s2.current_position) /
          advection_ops.value s2.advection = s.current_time + _
        rw [htime2, List.map_append, List.sum_append]
        simp [add_assoc]
      · show ((segments ++ [(final_position - s2.current_position,
          advection_ops.value s2.advection)]).map Prod.fst).sum = final_position - s.current_position
        rw [List.map_append, List.sum_append, hposition2]
        simp only [List.map_cons, List.map_nil, List.sum_cons, List.sum_nil]
        ring
      · intro segment hmem
        rcases List.mem_append.1 hmem with hold | hnew
        · exact hsegments segment hold
        · obtain rfl := List.mem_singleton.1 hnew
          show advection_ops.value s2.advection ≠ 0
          have hn2 : s2.advection = (advection_ops.generate)^[n] s.advection := hn
          rw [hn2]
          exact hadvection n
  · rw [if_neg hc] at h
    obtain rfl := Option.some.inj h
    obtain ⟨g1, g2, g3, g4, g5⟩ := react_fields advection_ops reactor_ops s
      (final_position - s.current_position)
    refine ⟨?_, ?_, ?_, ?_, ?_, ?_⟩
    · show (s.react advection_ops reactor_ops _).current_position = _
      rw [g1]
      ring
    · show 0 ≤ (s.react advection_ops reactor_ops _).position_in_patch + _
      rw [g4]
      linarith [hoffset.1]
    · show (s.react advection_ops reactor_ops _).position_in_patch + _ ≤
        (s.react advection_ops reactor_ops _).patch.length
      rw [g4, g5]
      linarith [not_lt.1 hc]
    · show (s.react advection_ops reactor_ops _).current_time = _
      rw [g2]
      simp [StreamTubeDynamics.time]
    · simp [StreamTubeDynamics.position]
    · intro segment hmem
      obtain rfl := List.mem_singleton.1 hmem
      exact hadvection 0

end streamtube
namespace streamtube

theorem streamtube_1_run :
    ∃ p, streamtube_1.evolve_position Advection_uniform reactor_idle 6 2 = some p ∧
      p.1.current_position = 6 ∧ p.1.current_time = 12 ∧ p.1.position_in_patch = 1 ∧
      p.1.patch.length = 2 ∧ p.2 = [(2, 1 / 2), (3, 1 / 2), (1, 1 / 2)] := by
  norm_num [StreamTubeDynamics.evolve_position, StreamTubeDynamics.evolve_position_loop,
    StreamTubeDynamics.react, StreamTubeDynamics.generate, streamtube_1,
    StreamTubeDynamics.construct, patch_1, PatchGenerator_alternating.construct,
    PatchGenerator_alternating.generate, PatchGenerator_alternating.reactive,
    PatchGenerator_alternating.length, PatchGenerator_alternating.nr_types,
    PatchGenerator_alternating.mass, PatchGenerator_alternating.mass_set,
    Advection_uniform, reactor_idle, StreamTubeDynamics.set_reactor,
    StreamTubeDynamics.set_state, List.range, List.range.loop]

theorem evolve_position_reaches_witness :
    (0 ≤ streamtube_1.position_in_patch ∧
        streamtube_1.position_in_patch ≤ streamtube_1.patch.length) ∧
      streamtube_1.position ≤ 6 ∧
      ∃ p, streamtube_1.evolve_position Advection_uniform reactor_idle 6 2 = some p ∧
        p.2 = [(2, 1 / 2), (3, 1 / 2), (1, 1 / 2)] ∧
        p.1.position = 6 ∧ 0 ≤ p.1.position_in_patch ∧
        p.1.position_in_patch ≤ p.1.patch.length ∧
        p.1.time = streamtube_1.time + (p.2.map (fun segment => segment.1 / segment.2)).sum := by
  have hoffset : 0 ≤ streamtube_1.position_in_patch ∧
      streamtube_1.position_in_patch ≤ streamtube_1.patch.length := by
    show (0 : ℚ) ≤ 0 ∧ (0 : ℚ) ≤ 2
    norm_num
  have hfinal : streamtube_1.position ≤ 6 := by
    show (0 : ℚ) ≤ 6
    norm_num
  have hadvection : ∀ n : Nat,
      Advection_uniform.value ((Advection_uniform.generate)^[n] streamtube_1.advection) ≠ 0 := by
    intro n
    have hid : (Advection_uniform.generate)^[n] streamtube_1.advection = streamtube_1.advection :=
      Function.iterate_fixed rfl n
    rw [hid]
    show (1 / 2 : ℚ) ≠ 0
    norm_num
  obtain ⟨p, hp, _, _, _, _, hsegments⟩ := streamtube_1_run
  have h := evolve_position_reaches Advection_uniform reactor_idle streamtube_1 6 2 p hoffset
    hadvection hfinal hp
  exact ⟨hoffset, hfinal, p, hp, hsegments, h.1, h.2.1, h.2.2.1, h.2.2.2.1⟩

end streamtube

/-! ## The analytical bimolecular reactor -/

namespace stochastic

theorem evolve_time_current {K : Type} [LinearOrderedField K] (exp : K → K)
    (r : Reaction_concentration_bimolecular_analytical K) (time_max : K) :
    (r.evolve exp time_max).time_current = time_max := by
  unfold Reaction_concentration_bimolecular_analytical.evolve
  dsimp only
  split <;> (split <;> rfl)

/-- The larger branch of `evolve(time_max)` over any ordered field, for a function `exp`
that is at most 1 on non-positive arguments. -/
theorem evolve_difference {K : Type} [LinearOrderedField K] (exp : K → K)
    (hexp : ∀ x : K, x ≤ 0 → exp x ≤ 1)
    (r : Reaction_concentration_bimolecular_analytical K) (time_max : K)
    (hlen : r.masses.length = 2) (hmasses : ∀ m ∈ r.masses, 0 ≤ m) (htol : 0 ≤ r.tol)
    (hdiff : r.tol < |r.mass 0 - r.mass 1|)
    (hrate : 0 ≤ r.reaction_rate * (time_max - r.time_current)) :
    (r.evolve exp time_max).mass 0 - (r.evolve exp time_max).mass 1 = r.mass 0 - r.mass 1 := by
  obtain ⟨m0, m1, hm⟩ := List.length_eq_two.1 hlen
  have hm0 : 0 ≤ m0 := hmasses m0 (by rw [hm]; simp)
  have hm1 : 0 ≤ m1 := hmasses m1 (by rw [hm]; simp)
  have hmass0 : r.mass 0 = m0 := by
    simp [Reaction_concentration_bimolecular_analytical.mass, hm]
  have hmass1 : r.mass 1 = m1 := by
    simp [Reaction_concentration_bimolecular_analytical.mass, hm]
  rw [hmass0, hmass1] at hdiff ⊢
  by_cases hgt : m0 > m1
  · have habs : |m0 - m1| = m0 - m1 := abs_of_pos (sub_pos.2 hgt)
    rw [habs] at hdiff
    have hpos : 0 < m0 - m1 := lt_of_le_of_lt htol hdiff
    have harg : -r.reaction_rate * (time_max - r.time_current) * (m0 - m1) ≤ 0 := by
      have h := mul_nonneg hrate (le_of_lt hpos)
      linarith
    have he := hexp _ harg
    have hden : 0 < m0 - exp (-r.reaction_rate * (time_max - r.time_current) * (m0 - m1)) * m1 := by
      have h := mul_le_mul_of_nonneg_right he hm1
      linarith
    simp only [Reaction_concentration_bimolecular_analytical.evolve,
      Reaction_concentration_bimolecular_analytical.mass,
      Reaction_concentration_bimolecular_analytical.set,
      Reaction_concentration_bimolecular_analytical.other_idx, hm]
    simp only [List.getD_cons_zero, List.getD_cons_succ, hgt, hdiff, if_true, if_false,
      one_ne_zero, gt_iff_lt]
    generalize exp (-r.reaction_rate * (time_max - r.time_current) * (m0 - m1)) = e at hden
    have hne : m0 - e * m1 ≠ 0 := ne_of_gt hden
    simp only [List.set_cons_zero, List.set_cons_succ, List.getD_cons_zero, List.getD_cons_succ]
    field_simp
    ring
  · have hle : m0 ≤ m1 := not_lt.1 hgt
    have habs : |m0 - m1| = m1 - m0 := by
      rw [abs_sub_comm]
      exact abs_of_nonneg (sub_nonneg.2 hle)
    rw [habs] at hdiff
    have hpos : 0 < m1 - m0 := lt_of_le_of_lt htol hdiff
    have harg : -r.reaction_rate * (time_max - r.time_current) * (m1 - m0) ≤ 0 := by
      have h := mul_nonneg hrate (le_of_lt hpos)
      linarith
    have he := hexp _ harg
    have hden : 0 < m1 - exp (-r.reaction_rate * (time_max - r.time_current) * (m1 - m0)) * m0 := by
      have h := mul_le_mul_of_nonneg_right he hm0
      linarith
    simp only [Reaction_concentration_bimolecular_analytical.evolve,
      Reaction_concentration_bimolecular_analytical.mass,
      Reaction_concentration_bimolecular_analytical.set,
      Reaction_concentration_bimolecular_analytical.other_idx, hm]
    simp only [List.getD_cons_zero, List.getD_cons_succ, hgt, hdiff, if_true, if_false,
      one_ne_zero, gt_iff_lt]
    generalize exp (-r.reaction_rate * (time_max - r.time_current) * (m1 - m0)) = e at hden
    have hne : m1 - e * m0 ≠ 0 := ne_of_gt hden
    simp only [List.set_cons_zero, List.set_cons_succ, List.getD_cons_zero, List.getD_cons_succ]
    field_simp
    ring

end stochastic

namespace stochastic

/-- C36: over the reals, with `tol >= 0`, two non-negative masses whose difference exceeds
`tol`, and `reaction_rate * (time_max - current time) >= 0`, `evolve(time_max)` keeps the
difference `masses[0] - masses[1]`, so the difference between the larger and the smaller
mass is kept exactly and the larger mass stays the larger one, and it sets the reactor's
time to `time_max`. -/
theorem evolve_preserves_difference (r : Reaction_concentration_bimolecular_analytical ℝ)
    (time_max : ℝ) (hlen : r.masses.length = 2) (hmasses : ∀ m ∈ r.masses, 0 ≤ m)
    (htol : 0 ≤ r.tol) (hdiff : r.tol < |r.mass 0 - r.mass 1|)
    (hrate : 0 ≤ r.reaction_rate * (time_max - r.time_current)) :
    (r.evolve Real.exp time_max).mass 0 - (r.evolve Real.exp time_max).mass 1 =
        r.mass 0 - r.mass 1 ∧
      |(r.evolve Real.exp time_max).mass 0 - (r.evolve Real.exp time_max).mass 1| =
        |r.mass 0 - r.mass 1| ∧
      (r.mass 1 < r.mass 0 →
        (r.evolve Real.exp time_max).mass 1 < (r.evolve Real.exp time_max).mass 0) ∧
      (r.mass 0 < r.mass 1 →
        (r.evolve Real.exp time_max).mass 0 < (r.evolve Real.exp time_max).mass 1) ∧
      (r.evolve Real.exp time_max).time_current = time_max := by
  have h := evolve_difference Real.exp (fun x hx => Real.exp_le_one_iff.2 hx) r time_max hlen
    hmasses htol hdiff hrate
  refine ⟨h, by rw [h], fun hlt => ?_, fun hlt => ?_, evolve_time_current Real.exp r time_max⟩
  · linarith
  · linarith

theorem evolve_preserves_difference_witness :
    (0 : ℝ) ≤ (Reaction_concentration_bimolecular_analytical.construct (1 : ℝ) 2 1 (1 / 2)).tol ∧
      (Reaction_concentration_bimolecular_analytical.construct (1 : ℝ) 2 1 (1 / 2)).tol <
        |(Reaction_concentration_bimolecular_analytical.construct (1 : ℝ) 2 1 (1 / 2)).mass 0 -
          (Reaction_concentration_bimolecular_analytical.construct (1 : ℝ) 2 1 (1 / 2)).mass 1| ∧
      ((Reaction_concentration_bimolecular_analytical.construct (1 : ℝ) 2 1 (1 / 2)).evolve
          Real.exp 3).mass 0 -
        ((Reaction_concentration_bimolecular_analytical.construct (1 : ℝ) 2 1 (1 / 2)).evolve
          Real.exp 3).mass 1 = 1 ∧
      ((Reaction_concentration_bimolecular_analytical.construct (1 : ℝ) 2 1 (1 / 2)).evolve
          Real.exp 3).time_current = 3 := by
  have htol : (0 : ℝ) ≤
      (Reaction_concentration_bimolecular_analytical.construct (1 : ℝ) 2 1 (1 / 2)).tol := by
    show (0 : ℝ) ≤ 1 / 2
    norm_num
  have hdiff : (Reaction_concentration_bimolecular_analytical.construct (1 : ℝ) 2 1 (1 / 2)).tol <
      |(Reaction_concentration_bimolecular_analytical.construct (1 : ℝ) 2 1 (1 / 2)).mass 0 -
        (Reaction_concentration_bimolecular_analytical.construct (1 : ℝ) 2 1 (1 / 2)).mass 1| := by
    show (1 / 2 : ℝ) < |(2 : ℝ) - 1|
    norm_num
  have h := evolve_preserves_difference
    (Reaction_concentration_bimolecular_analytical.construct (1 : ℝ) 2 1 (1 / 2)) 3 rfl
    (by
      intro m hm
      have hm2 : m ∈ [(2 : ℝ), 1] := hm
      simp only [List.mem_cons, List.mem_singleton, List.mem_nil_iff, or_false] at hm2
      rcases hm2 with rfl | rfl <;> norm_num)
    htol hdiff
    (by
      show (0 : ℝ) ≤ 1 * (3 - 0)
      norm_num)
  refine ⟨htol, hdiff, ?_, h.2.2.2.2⟩
  rw [h.1]
  show (2 : ℝ) - 1 = 1
  norm_num

/-- The same step computed over the rationals with `exp` replaced by the constant 1 / 2:
from masses 2 and 1 the step gives 4 / 3 and 1 / 3. -/
theorem evolve_rational_example :
    ((Reaction_concentration_bimolecular_analytical.construct (1 : ℚ) 2 1 (1 / 2)).evolve
        (fun _ => 1 / 2) 3).masses = [4 / 3, 1 / 3] := by
  norm_num [Reaction_concentration_bimolecular_analytical.evolve,
    Reaction_concentration_bimolecular_analytical.construct,
    Reaction_concentration_bimolecular_analytical.set,
    Reaction_concentration_bimolecular_analytical.other_idx]

end stochastic

/-! ## Termination of the bulk advance when every channel consumes particles -/

namespace stochastic

theorem sum_set_add (l : List Nat) (i v : Nat) (hi : i < l.length) :
    (l.set i v).sum + l.getD i 0 = l.sum + v := by
  induction l generalizing i with
  | nil => exact absurd hi (Nat.not_lt_zero _)
  | cons x xs ih =>
    cases i with
    | zero =>
      simp only [List.set_cons_zero, List.sum_cons, List.getD_cons_zero]
      omega
    | succ j =>
      have hj : j < xs.length := Nat.lt_of_succ_lt_succ hi
      have h := ih j hj
      simp only [List.set_cons_succ, List.sum_cons, List.getD_cons_succ]
      omega

theorem getD_of_length_le (l : List Nat) (i : Nat) (hi : l.length ≤ i) : l.getD i 0 = 0 := by
  rw [List.getD_eq_getElem?_getD, List.getElem?_eq_none hi]
  rfl

theorem forall_set_lt (l : List Nat) (i v bound : Nat) (h : ∀ n ∈ l, n < bound)
    (hv : v < bound) : ∀ n ∈ l.set i v, n < bound := by
  intro n hn
  rcases List.mem_or_eq_of_mem_set hn with hmem | heq
  · exact h n hmem
  · rw [heq]
    exact hv

/-- The reactant loop of `react`, when every subtraction finds a count that is at least
the coefficient, lowers the total particle number by the sum of the coefficients. -/
theorem react_reactants_sum (reactants : List (Nat × Nat)) (numbers : List Nat)
    (hsize : ∀ n ∈ numbers, n < 2 ^ 64)
    (hsuffice : reactants_suffice reactants numbers = true) :
    (Reaction_MassAction.react_reactants reactants numbers).sum + (reactants.map Prod.snd).sum =
        numbers.sum ∧
      ∀ n ∈ Reaction_MassAction.react_reactants reactants numbers, n < 2 ^ 64 := by
  induction reactants generalizing numbers with
  | nil => exact ⟨by simp [Reaction_MassAction.react_reactants], hsize⟩
  | cons sto rest ih =>
    rw [reactants_suffice, Bool.and_eq_true, decide_eq_true_eq] at hsuffice
    obtain ⟨hle, hrest⟩ := hsuffice
    have hstep : Reaction_MassAction.react_reactants (sto :: rest) numbers =
        Reaction_MassAction.react_reactants rest
          (numbers.set sto.1 (size_t_sub (numbers.getD sto.1 0) sto.2)) := rfl
    by_cases hi : sto.1 < numbers.length
    · have hlt : numbers.getD sto.1 0 < 2 ^ 64 := getD_lt_of_forall_lt numbers _ sto.1 hi hsize
      have hsub : size_t_sub (numbers.getD sto.1 0) sto.2 = numbers.getD sto.1 0 - sto.2 :=
        gillespie.size_t_sub_of_le _ _ hle hlt
      have hsize2 : ∀ n ∈ numbers.set sto.1 (size_t_sub (numbers.getD sto.1 0) sto.2),
          n < 2 ^ 64 :=
        forall_set_lt numbers _ _ _ hsize (by rw [hsub]; omega)
      obtain ⟨hsum, hbound⟩ := ih _ hsize2 hrest
      have hset := sum_set_add numbers sto.1 (size_t_sub (numbers.getD sto.1 0) sto.2) hi
      rw [hstep]
      refine ⟨?_, hbound⟩
      rw [List.map_cons, List.sum_cons]
      omega
    · have hzero : numbers.getD sto.1 0 = 0 := getD_of_length_le numbers _ (not_lt.1 hi)
      have hk : sto.2 = 0 := by omega
      have hsame : numbers.set sto.1 (size_t_sub (numbers.getD sto.1 0) sto.2) = numbers :=
        List.set_eq_of_length_le (not_lt.1 hi)
      rw [hsame] at hrest
      obtain ⟨hsum, hbound⟩ := ih _ hsize hrest
      rw [hstep, hsame]
      refine ⟨?_, hbound⟩
      rw [List.map_cons, List.sum_cons, hk]
      omega

/-- The product loop of `react` raises the total particle number by at most the sum of
the coefficients. -/
theorem react_products_sum (products : List (Nat × Nat)) (numbers : List Nat)
    (hsize : ∀ n ∈ numbers, n < 2 ^ 64) :
    (Reaction_MassAction.react_products products numbers).sum ≤
        numbers.sum + (products.map Prod.snd).sum ∧
      ∀ n ∈ Reaction_MassAction.react_products products numbers, n < 2 ^ 64 := by
  induction products generalizing numbers with
  | nil => exact ⟨by simp [Reaction_MassAction.react_products], hsize⟩
  | cons sto rest ih =>
    have hstep : Reaction_MassAction.react_products (sto :: rest) numbers =
        Reaction_MassAction.react_products rest
          (numbers.set sto.1 (size_t_add (numbers.getD sto.1 0) sto.2)) := rfl
    have hadd : size_t_add (numbers.getD sto.1 0) sto.2 < 2 ^ 64 :=
      Nat.mod_lt _ (by decide)
    have hadd2 : size_t_add (numbers.getD sto.1 0) sto.2 ≤ numbers.getD sto.1 0 + sto.2 :=
      Nat.mod_le _ _
    obtain ⟨hsum, hbound⟩ := ih _ (forall_set_lt numbers sto.1 _ _ hsize hadd)
    rw [hstep]
    refine ⟨?_, hbound⟩
    rw [List.map_cons, List.sum_cons]
    by_cases hi : sto.1 < numbers.length
    · have hset := sum_set_add numbers sto.1 (size_t_add (numbers.getD sto.1 0) sto.2) hi
      omega
    · have hsame : numbers.set sto.1 (size_t_add (numbers.getD sto.1 0) sto.2) = numbers :=
        List.set_eq_of_length_le (not_lt.1 hi)
      rw [hsame] at hsum ⊢
      omega

/-- A reaction that consumes more particles than it produces lowers the total particle
number when it is applied to counts that suffice. -/
theorem react_sum_lt (st : Stoichiometry) (numbers : List Nat)
    (hsize : ∀ n ∈ numbers, n < 2 ^ 64)
    (hsuffice : reactants_suffice st.reactants numbers = true)
    (hconsume : (st.products.map Prod.snd).sum < (st.reactants.map Prod.snd).sum) :
    ((Reaction_MassAction.make st).react numbers).sum < numbers.sum ∧
      ∀ n ∈ (Reaction_MassAction.make st).react numbers, n < 2 ^ 64 := by
  obtain ⟨h1, hb1⟩ := react_reactants_sum st.reactants numbers hsize hsuffice
  obtain ⟨h2, hb2⟩ := react_products_sum st.products
    (Reaction_MassAction.react_reactants st.reactants numbers) hb1
  refine ⟨?_, hb2⟩
  show (Reaction_MassAction.react_products st.products
    (Reaction_MassAction.react_reactants st.reactants numbers)).sum < numbers.sum
  omega

end stochastic

namespace gillespie

theorem evolve_particles_of_max_ne_zero (g : Gillespie) (d : Draw)
    (h : max_element (g.reactions.map (fun reaction => reaction.rate g.particle_container)) ≠ 0) :
    (g.evolve d).particle_container =
      match g.reactions.get? (g.rates.pick_reaction_impl d) with
      | some reaction => reaction.react g.particle_container
      | none => g.particle_container := by
  have hpick : ({ g with reacted := false } : Gillespie).rates.pick_reaction_impl d =
      g.rates.pick_reaction_impl d := by
    rw [pick_reaction_impl_eq, pick_reaction_impl_eq]
    rfl
  have hmax2 : ¬ max_element ({ g with reacted := false } : Gillespie).rates.rate_container = 0 :=
    h
  simp only [Gillespie.evolve, hmax2, if_false, Gillespie.pick_reaction,
    Gillespie.compute_time_next_reaction, Gillespie.react, hpick]
  rfl

/-- One committed pass in an engine of consuming mass-action reactions lowers the total
particle number. -/
theorem evolve_sum_lt (stoichiometries : List stochastic.Stoichiometry) (g : Gillespie)
    (d : Draw)
    (hreactions : g.reactions =
      stoichiometries.map (fun st => of_MassAction (stochastic.Reaction_MassAction.make st)))
    (hrates : ∀ st ∈ stoichiometries, 0 ≤ st.reaction_rate)
    (hdistinct : ∀ st ∈ stoichiometries, (st.reactants.map Prod.fst).Nodup)
    (hconsume : ∀ st ∈ stoichiometries,
      (st.products.map Prod.snd).sum < (st.reactants.map Prod.snd).sum)
    (hsize : ∀ n ∈ g.particle_container, n < 2 ^ 64)
    (hselector : d.selects_positive)
    (hmax : max_element (g.reactions.map (fun reaction => reaction.rate g.particle_container)) ≠ 0) :
    (g.evolve d).particle_container.sum < g.particle_container.sum ∧
      ∀ n ∈ (g.evolve d).particle_container, n < 2 ^ 64 := by
  obtain ⟨st, hget, hsuffice⟩ := evolve_applied_suffices stoichiometries g d hreactions hrates
    hdistinct hselector hmax
  have hmem : st ∈ stoichiometries := List.get?_mem hget
  have hget2 : g.reactions.get? (g.rates.pick_reaction_impl d) =
      some (of_MassAction (stochastic.Reaction_MassAction.make st)) := by
    rw [hreactions, List.get?_eq_getElem?, List.getElem?_map, ← List.get?_eq_getElem?, hget]
    rfl
  rw [evolve_particles_of_max_ne_zero g d hmax, hget2]
  exact stochastic.react_sum_lt st g.particle_container hsize hsuffice (hconsume st hmem)

theorem evolve_loop_terminates (stoichiometries : List stochastic.Stoichiometry)
    (time_max : Time) (fuel : Nat) (draws : Nat → Draw) (g : Gillespie)
    (hreactions : g.reactions =
      stoichiometries.map (fun st => of_MassAction (stochastic.Reaction_MassAction.make st)))
    (hrates : ∀ st ∈ stoichiometries, 0 ≤ st.reaction_rate)
    (hdistinct : ∀ st ∈ stoichiometries, (st.reactants.map Prod.fst).Nodup)
    (hconsume : ∀ st ∈ stoichiometries,
      (st.products.map Prod.snd).sum < (st.reactants.map Prod.snd).sum)
    (hsize : ∀ n ∈ g.particle_container, n < 2 ^ 64)
    (hselector : ∀ n, (draws n).selects_positive)
    (hfuel : g.particle_container.sum < fuel) :
    ∃ p, Gillespie.evolve_loop time_max fuel draws g = some p ∧ p.2 ≤ g.particle_container.sum := by
  induction fuel generalizing draws g with
  | zero => exact absurd hfuel (Nat.not_lt_zero _)
  | succ fuel ih =>
    by_cases hc : (g.evolve (draws 0)).time_next_reaction < time_max
    · have hmax : max_element
          (g.reactions.map (fun reaction => reaction.rate g.particle_container)) ≠ 0 := by
        intro hzero
        rw [evolve_time_next_of_max_zero g (draws 0) hzero] at hc
        exact absurd hc not_top_lt
      obtain ⟨hlt, hsize2⟩ := evolve_sum_lt stoichiometries g (draws 0) hreactions hrates
        hdistinct hconsume hsize (hselector 0) hmax
      obtain ⟨q, hq, hcount⟩ := ih (fun n => draws (n + 1)) (g.evolve (draws 0))
        (by rw [evolve_reactions]; exact hreactions) hsize2 (fun n => hselector (n + 1))
        (by omega)
      refine ⟨(q.1, q.2 + 1), ?_, ?_⟩
      · rw [evolve_loop_commit time_max fuel draws g hc, hq]
        rfl
      · show q.2 + 1 ≤ g.particle_container.sum
        omega
    · obtain ⟨g1, hg1, _⟩ := evolve_loop_stop time_max fuel draws g hc
      exact ⟨(g1, 0), hg1, Nat.zero_le _⟩

/-! ### A selector that returns a reaction of rate zero -/

theorem engine_3_step (g : Gillespie) (a : Nat) (t : ℚ)
    (hreactions : g.reactions =
      [of_MassAction (stochastic.Reaction_MassAction.make stochastic.stoichiometry_pair),
       of_MassAction (stochastic.Reaction_MassAction.make stoichiometry_1)])
    (hparticles : g.particle_container = [a, 1]) (hodd : a % 2 = 1)
    (htime : g.time_current = ((t : ℚ) : Time)) :
    (g.evolve (draw_of 0 1)).time_next_reaction = ((t + 1 + 0 : ℚ) : Time) ∧
      (g.evolve (draw_of 0 1)).particle_container = [stochastic.size_t_sub a 2, 1] := by
  have hmax : max_element
      (g.reactions.map (fun reaction => reaction.rate g.particle_container)) ≠ 0 := by
    apply max_element_rates_pos
    refine ⟨of_MassAction (stochastic.Reaction_MassAction.make stoichiometry_1), ?_, ?_⟩
    · rw [hreactions]
      simp
    · rw [hparticles]
      show 0 < (stochastic.Reaction_MassAction.make stoichiometry_1).rate [a, 1]
      rw [rate_stoichiometry_1]
      have hpos : 0 < a * 1 % 2 ^ 64 := by omega
      exact_mod_cast hpos
  refine ⟨?_, ?_⟩
  · rw [evolve_time_next_of_max_ne_zero g (draw_of 0 1) hmax, htime]
    show ((t : ℚ) : Time) + ((1 : ℚ) : Time) + ((0 : ℚ) : Time) = _
    rw [← WithTop.coe_add, ← WithTop.coe_add]
  · have hpick : g.rates.pick_reaction_impl (draw_of 0 1) = 0 := by
      rw [pick_reaction_impl_eq]
      split <;> rfl
    rw [evolve_particles_of_max_ne_zero g (draw_of 0 1) hmax, hpick, hreactions, hparticles]
    rfl

theorem engine_3_loop (fuel : Nat) (g : Gillespie) (a : Nat) (t : ℚ)
    (hreactions : g.reactions =
      [of_MassAction (stochastic.Reaction_MassAction.make stochastic.stoichiometry_pair),
       of_MassAction (stochastic.Reaction_MassAction.make stoichiometry_1)])
    (hparticles : g.particle_container = [a, 1]) (hodd : a % 2 = 1) (ha : a < 2 ^ 64)
    (htime : g.time_current = ((t : ℚ) : Time)) :
    Gillespie.evolve_loop ⊤ fuel (fun _ => draw_of 0 1) g = none := by
  induction fuel generalizing g a t with
  | zero => rfl
  | succ fuel ih =>
    obtain ⟨hnext, hstep⟩ := engine_3_step g a t hreactions hparticles hodd htime
    have hc : (g.evolve ((fun _ => draw_of 0 1) 0)).time_next_reaction < ⊤ := by
      show (g.evolve (draw_of 0 1)).time_next_reaction < ⊤
      rw [hnext]
      exact WithTop.coe_lt_top _
    have hsub : stochastic.size_t_sub a 2 % 2 = 1 ∧ stochastic.size_t_sub a 2 < 2 ^ 64 := by
      simp only [stochastic.size_t_sub, stochastic.size_t_range]
      omega
    have hrest := ih (g.evolve (draw_of 0 1)) (stochastic.size_t_sub a 2) (t + 1 + 0)
      (by rw [evolve_reactions]; exact hreactions) hstep hsub.1 hsub.2
      (by rw [evolve_time_current_eq_next]; exact hnext)
    rw [evolve_loop_commit ⊤ fuel (fun _ => draw_of 0 1) g hc]
    show Option.map _ (Gillespie.evolve_loop ⊤ fuel (fun _ => draw_of 0 1)
      (g.evolve (draw_of 0 1))) = none
    rw [hrest]
    rfl

/-- C33, as stated, fails: the engine with the reactions `2 A -> (nothing)` and
`A + B -> (nothing)` (base rates 1, distinct reactant species, both consuming) at the
counts `[1, 1]`, with a selector that answers 0 in every pass, waiting times 1 and no
delay. The first reaction has rate 0 there; applying it wraps the count of `A` to
`2 ^ 64 - 1`, the count of `A` stays odd from then on, the second reaction keeps a
positive rate, and `evolve(+infinity)` does not return for any bound on the number of
passes: it has committed more than the initial total of 2 reactions after 3 passes. -/
theorem evolve_time_max_never_returns :
    (engine_3 [1, 1]).reactions =
        [stochastic.stoichiometry_pair, stoichiometry_1].map
          (fun st => of_MassAction (stochastic.Reaction_MassAction.make st)) ∧
      (∀ st ∈ [stochastic.stoichiometry_pair, stoichiometry_1], 0 ≤ st.reaction_rate) ∧
      (∀ st ∈ [stochastic.stoichiometry_pair, stoichiometry_1],
        (st.reactants.map Prod.fst).Nodup) ∧
      (∀ st ∈ [stochastic.stoichiometry_pair, stoichiometry_1],
        (st.products.map Prod.snd).sum < (st.reactants.map Prod.snd).sum) ∧
      (engine_3 [1, 1]).particle_container.sum = 2 ∧
      (stochastic.Reaction_MassAction.make stochastic.stoichiometry_pair).rate [1, 1] = 0 ∧
      ((engine_3 [1, 1]).evolve (draw_of 0 1)).particle_container = [18446744073709551615, 1] ∧
      (engine_3 [1, 1]).evolve_time_max ⊤ 3 (fun _ => draw_of 0 1) = none ∧
      (∀ fuel, (engine_3 [1, 1]).evolve_time_max ⊤ fuel (fun _ => draw_of 0 1) = none) ∧
      ¬ ∃ fuel p, (engine_3 [1, 1]).evolve_time_max ⊤ fuel (fun _ => draw_of 0 1) = some p ∧
        p.2 ≤ (engine_3 [1, 1]).particle_container.sum := by
  have hnone : ∀ fuel,
      (engine_3 [1, 1]).evolve_time_max ⊤ fuel (fun _ => draw_of 0 1) = none := fun fuel =>
    engine_3_loop fuel { engine_3 [1, 1] with reacted := false } 1 0 rfl rfl (by decide)
      (by decide) rfl
  have hrates : ∀ st ∈ [stochastic.stoichiometry_pair, stoichiometry_1],
      0 ≤ st.reaction_rate := by
    intro st hst
    simp only [List.mem_cons, List.mem_singleton, List.mem_nil_iff, or_false] at hst
    rcases hst with rfl | rfl
    · simp [stochastic.stoichiometry_pair]
    · simp [stoichiometry_1]
  have hdistinct : ∀ st ∈ [stochastic.stoichiometry_pair, stoichiometry_1],
      (st.reactants.map Prod.fst).Nodup := by
    intro st hst
    simp only [List.mem_cons, List.mem_singleton, List.mem_nil_iff, or_false] at hst
    rcases hst with rfl | rfl <;> decide
  have hconsume : ∀ st ∈ [stochastic.stoichiometry_pair, stoichiometry_1],
      (st.products.map Prod.snd).sum < (st.reactants.map Prod.snd).sum := by
    intro st hst
    simp only [List.mem_cons, List.mem_singleton, List.mem_nil_iff, or_false] at hst
    rcases hst with rfl | rfl <;> decide
  have hrate : (stochastic.Reaction_MassAction.make stochastic.stoichiometry_pair).rate [1, 1]
      = 0 := by
    have hc : (stochastic.Reaction_MassAction.make stochastic.stoichiometry_pair).combinations
        [1, 1] = 0 := by decide
    rw [stochastic.Reaction_MassAction.rate, hc]
    simp
  have hfirst := (engine_3_step (engine_3 [1, 1]) 1 0 rfl rfl (by decide) rfl).2
  have hwrap : stochastic.size_t_sub 1 2 = 18446744073709551615 := by decide
  rw [hwrap] at hfirst
  refine ⟨rfl, hrates, hdistinct, hconsume, rfl, hrate, hfirst, hnone 3, hnone, ?_⟩
  rintro ⟨fuel, p, hp, _⟩
  rw [hnone fuel] at hp
  exact Option.noConfusion hp

/-- C33, amended: in an engine of mass-action reactions with non-negative base rates and
pairwise distinct reactant species in which every reaction has a larger sum of reactant
coefficients than of product coefficients, when the weighted selector returns only
reactions of positive rate, `evolve(time_max)` returns within `total + 1` passes of its
loop, where `total` is the initial total particle number, for every `time_max` and all
waiting times and delays, and it commits at most `total` reactions. -/
theorem evolve_time_max_terminates (stoichiometries : List stochastic.Stoichiometry)
    (g : Gillespie) (time_max : Time) (fuel : Nat) (draws : Nat → Draw)
    (hreactions : g.reactions =
      stoichiometries.map (fun st => of_MassAction (stochastic.Reaction_MassAction.make st)))
    (hrates : ∀ st ∈ stoichiometries, 0 ≤ st.reaction_rate)
    (hdistinct : ∀ st ∈ stoichiometries, (st.reactants.map Prod.fst).Nodup)
    (hconsume : ∀ st ∈ stoichiometries,
      (st.products.map Prod.snd).sum < (st.reactants.map Prod.snd).sum)
    (hsize : ∀ n ∈ g.particle_container, n < 2 ^ 64)
    (hselector : ∀ n, (draws n).selects_positive)
    (hfuel : g.particle_container.sum < fuel) :
    ∃ p, g.evolve_time_max time_max fuel draws = some p ∧ p.2 ≤ g.particle_container.sum :=
  evolve_loop_terminates stoichiometries time_max fuel draws { g with reacted := false }
    hreactions hrates hdistinct hconsume hsize hselector hfuel

end gillespie

namespace gillespie

theorem evolve_time_max_terminates_witness :
    (∀ st ∈ [stoichiometry_1], 0 ≤ st.reaction_rate) ∧
      (∀ st ∈ [stoichiometry_1],
        (st.products.map Prod.snd).sum < (st.reactants.map Prod.snd).sum) ∧
      (engine_1 [2, 2]).particle_container.sum = 4 ∧
      ∃ p, (engine_1 [2, 2]).evolve_time_max ⊤ 5 (fun _ => draw_first_positive 1) = some p ∧
        p.2 ≤ (engine_1 [2, 2]).particle_container.sum := by
  have hrates : ∀ st ∈ [stoichiometry_1], 0 ≤ st.reaction_rate := by
    intro st hst
    obtain rfl := List.mem_singleton.1 hst
    simp [stoichiometry_1]
  have hdistinct : ∀ st ∈ [stoichiometry_1], (st.reactants.map Prod.fst).Nodup := by
    intro st hst
    obtain rfl := List.mem_singleton.1 hst
    decide
  have hconsume : ∀ st ∈ [stoichiometry_1],
      (st.products.map Prod.snd).sum < (st.reactants.map Prod.snd).sum := by
    intro st hst
    obtain rfl := List.mem_singleton.1 hst
    decide
  exact ⟨hrates, hconsume, rfl,
    evolve_time_max_terminates [stoichiometry_1] (engine_1 [2, 2]) ⊤ 5
      (fun _ => draw_first_positive 1) rfl hrates hdistinct hconsume (by decide)
      (fun _ => draw_first_positive_selects 1) (by decide)⟩

end gillespie
